import Mathlib

/-!
# gardener: synthesis and reconciliation of `filegroup` rules

A shallow embedding of `gardener.go`.  The program walks a directory tree
post-order; in every directory holding a `BUILD` or `BUILD.bazel` file it makes
sure that a `filegroup` named `srcs` (and, when subdirectories contributed
labels, one named `recursive-srcs`) is present, patching rules tagged
`automanaged` and appending the rules that are missing.

The syntax tree and the rule accessors come from the `buildifier` library, which
is not part of the repository; they are modelled in the first section.
-/

namespace Gardener

/-! ## The build-file syntax tree and its rule accessors -/

/-- Modelled from the spec: the expression type of the parser/formatter
collaborator (`buildifier.Expr`), which is not under `src/`.  Only the shapes the
program inspects or builds are distinguished: literal tokens, string literals,
lists, binary expressions and calls; `nil` is Go's nil expression (what `Attr`
returns for a missing attribute) and `other` stands for every remaining kind of
statement or expression. -/
inductive Expr where
  | nil : Expr
  | literal (token : String) : Expr
  | str (value : String) : Expr
  | list (elems : List Expr) : Expr
  | binary (x : Expr) (op : String) (y : Expr) : Expr
  | call (x : Expr) (args : List Expr) : Expr
  | other (text : String) : Expr

/-- Modelled from the spec: `buildifier.File`, the ordered statement list a build
file parses into (the "build-file representation"). -/
structure File where
  stmt : List Expr

/-- Modelled from the spec: `buildifier.Rule`, a view of one call statement: the
called expression `x` and the argument list `list` of its `CallExpr`. -/
structure Rule where
  x : Expr
  list : List Expr

/-- The call statement a rule is a view of (`rule.Call`). -/
def Rule.Call (r : Rule) : Expr := Expr.call r.x r.list

/-- Whether an argument of a call is the definition `key = ...` of attribute
`key`: a binary expression with operator `=` whose left side is the literal
`key`. -/
def isDefn (key : String) : Expr → Bool
  | Expr.binary (Expr.literal k) op _ => decide (op = "=") && decide (k = key)
  | _ => false

/-- The right-hand side of a binary expression, Go's nil for anything else. -/
def Expr.rhs : Expr → Expr
  | Expr.binary _ _ y => y
  | _ => Expr.nil

/-- Replaces the right-hand side of a binary expression. -/
def Expr.withRhs (e val : Expr) : Expr :=
  match e with
  | Expr.binary x op _ => Expr.binary x op val
  | e => e

/-- Modelled from the spec: `Rule.Attr`, the value of the first definition of
attribute `key` in the rule, Go's nil when there is none. -/
def Rule.Attr (r : Rule) (key : String) : Expr :=
  match r.list.find? (isDefn key) with
  | some e => e.rhs
  | none => Expr.nil

/-- Overwrites the value of the first definition of `key` in an argument list. -/
def setDefn (key : String) (val : Expr) : List Expr → List Expr
  | [] => []
  | e :: rest =>
    if isDefn key e then e.withRhs val :: rest else e :: setDefn key val rest

/-- Modelled from the spec: `Rule.SetAttr`, which overwrites the value of the
first definition of `key` when the rule has one and otherwise appends
`key = val` to the end of the argument list. -/
def Rule.SetAttr (r : Rule) (key : String) (val : Expr) : Rule :=
  if r.list.any (isDefn key) then
    { r with list := setDefn key val r.list }
  else
    { r with list := r.list ++ [Expr.binary (Expr.literal key) "=" val] }

/-- Modelled from the spec: `Rule.AttrString`, the attribute as a string, empty
when the attribute is missing or is not a string literal. -/
def Rule.AttrString (r : Rule) (key : String) : String :=
  match r.Attr key with
  | Expr.str v => v
  | _ => ""

/-- Modelled from the spec: `Rule.Name`, the rule's target name. -/
def Rule.Name (r : Rule) : String := r.AttrString "name"

/-- The string of a string literal. -/
def Expr.asString : Expr → Option String
  | Expr.str v => some v
  | _ => none

/-- Modelled from the spec: `buildifier.Strings`; `none` is the nil slice
returned when the expression is not a list of string literals. -/
def Strings : Expr → Option (List String)
  | Expr.list elems => elems.mapM Expr.asString
  | _ => none

/-- Modelled from the spec: `Rule.AttrStrings`. -/
def Rule.AttrStrings (r : Rule) (key : String) : Option (List String) :=
  Strings (r.Attr key)

/-- The rule view of a statement, when the statement is a call of a literal
token and `kind` is empty or equal to that token. -/
def asRule (kind : String) : Expr → Option Rule
  | Expr.call (Expr.literal k) args =>
    if kind ≠ "" ∧ k ≠ kind then none else some ⟨Expr.literal k, args⟩
  | _ => none

/-- Modelled from the spec: `File.Rules`, the rules of the given kind in the file,
in statement order. -/
def File.Rules (f : File) (kind : String) : List Rule :=
  f.stmt.filterMap (asRule kind)

/-! ## Rule synthesis -/

def srcsTargetName : String := "srcs"

def recursiveSrcsTargetName : String := "recursive-srcs"

def automanagedTag : String := "automanaged"

/-- The token of the all-files-recursive expression. -/
def globAll : Expr := Expr.literal "glob([\"**\"])"

/-- `newFilegroupRule`: a `filegroup` call with attributes `name`, `srcs` (the
dependencies as string literals) and `tags = ["automanaged"]`, set in this
order. -/
def newFilegroupRule (name : String) (deps : List String) : Rule :=
  let rule : Rule := ⟨Expr.literal "filegroup", []⟩
  let rule := rule.SetAttr "name" (Expr.str name)
  let l := deps.map Expr.str
  let rule := rule.SetAttr "srcs" (Expr.list l)
  rule.SetAttr "tags" (Expr.list [Expr.str automanagedTag])

/-- `RuleIsManaged`: some string of the rule's `tags` is `automanaged`. -/
def RuleIsManaged (r : Rule) : Bool :=
  ((r.AttrStrings "tags").getD []).any (fun tag => decide (tag = automanagedTag))

/-- A Go `map[string]*Rule`, kept as an association list with distinct keys in
insertion order. -/
abbrev RuleMap := List (String × Rule)

/-- Map lookup `m[key]`. -/
def RuleMap.get (m : RuleMap) (key : String) : Option Rule :=
  (m.find? (fun kv => decide (kv.1 = key))).map Prod.snd

/-- Map assignment `m[key] = r`. -/
def RuleMap.set (m : RuleMap) (key : String) (r : Rule) : RuleMap :=
  if m.any (fun kv => decide (kv.1 = key)) then
    m.map (fun kv => if kv.1 = key then (key, r) else kv)
  else m ++ [(key, r)]

/-- Map deletion `delete(m, key)`. -/
def RuleMap.delete (m : RuleMap) (key : String) : RuleMap :=
  m.filter (fun kv => decide (kv.1 ≠ key))

/-- The order in which `range` visits a map.  Go leaves it unspecified; a map of
this program has at most two entries, so `flip` selects between the two
possible orders. -/
def RuleMap.range (m : RuleMap) (flip : Bool) : List (String × Rule) :=
  if flip then m.reverse else m

/-- The desired rules of `fixBuild` (lines 98-105): `srcs` with the
all-files-recursive expression, and, for a non-empty `children`,
`recursive-srcs` over the children followed by `:srcs`. -/
def newRules (children : List String) : RuleMap :=
  let m : RuleMap := []
  let m := m.set srcsTargetName (newFilegroupRule srcsTargetName [])
  let m := match m.get srcsTargetName with
    | some r => m.set srcsTargetName (r.SetAttr "srcs" globAll)
    | none => m
  if children.length > 0 then
    let children := children ++ [":" ++ srcsTargetName]
    m.set recursiveSrcsTargetName (newFilegroupRule recursiveSrcsTargetName children)
  else m

/-! ## Reconciliation -/

/-- The scan of `fixBuild` over the existing `filegroup` rules (lines 107-116),
run over the statement list so that a patched rule stays at its index: a
statement that is not a `filegroup` rule, or whose name is not a key of the
working set `m`, is kept; a matched rule gets the desired `srcs` when it is
managed, and its name leaves the working set.  Returns the statements and the
remaining working set. -/
def scanRules (m : RuleMap) : List Expr → List Expr × RuleMap
  | [] => ([], m)
  | s :: rest =>
    match asRule "filegroup" s with
    | none => let r := scanRules m rest; (s :: r.1, r.2)
    | some or =>
      match m.get or.Name with
      | none => let r := scanRules m rest; (s :: r.1, r.2)
      | some nr =>
        let s' := if RuleIsManaged or then (or.SetAttr "srcs" (nr.Attr "srcs")).Call else s
        let r := scanRules (m.delete or.Name) rest
        (s' :: r.1, r.2)

/-- The in-memory part of `fixBuild` (lines 98-120): builds the desired rules,
scans the existing `filegroup` rules and appends the calls of the desired rules
left in the working set, in the order `range` visits them. -/
def reconcile (flip : Bool) (b : File) (children : List String) : File :=
  let r := scanRules (newRules children) b.stmt
  ⟨r.1 ++ (r.2.range flip).map (fun kv => kv.2.Call)⟩

/-! ## The file system and the walk -/

/-- A node of the directory tree: a file with its content and whether it can be
read and written, or a directory with its entries in listing order and whether
it can be listed. -/
inductive FsNode where
  | file (name : String) (content : String) (readable writable : Bool) : FsNode
  | dir (name : String) (entries : List FsNode) (listable : Bool) : FsNode

/-- The entry name (`f.Name()`). -/
def FsNode.name : FsNode → String
  | FsNode.file n _ _ _ => n
  | FsNode.dir n _ _ => n

/-- The entry kind (`f.IsDir()`). -/
def FsNode.IsDir : FsNode → Bool
  | FsNode.file _ _ _ _ => false
  | FsNode.dir _ _ _ => true

/-- Go's `error` values of the program, by the call that failed. -/
inductive Err where
  | listing (path : String) : Err
  | read (path : String) : Err
  | parse (path : String) : Err

/-- One call of `ioutil.WriteFile`: the path, the data and whether it
succeeded. -/
structure WriteEvent where
  path : String
  data : String
  ok : Bool

/-- The collaborators the program is linked against: `filepath.Join`, the
parser and formatter of build files, and the order in which `range` visits the
working set in the `fixBuild` call for a given path. -/
structure Env where
  join : String → String → String
  parse : String → String → Option File
  format : File → String
  flip : String → Bool

/-- `ioutil.ReadFile` on a node: fails on a directory and on an unreadable
file. -/
def readFile : FsNode → Option String
  | FsNode.file _ c true _ => some c
  | _ => none

/-- Whether `ioutil.WriteFile` succeeds on a node. -/
def canWrite : FsNode → Bool
  | FsNode.file _ _ _ w => w
  | _ => false

/-- `ioutil.WriteFile` on a node: replaces the content of a writable file and
leaves every other node as it is. -/
def writeFile (data : String) : FsNode → FsNode
  | FsNode.file n c r w => if w then FsNode.file n data r w else FsNode.file n c r w
  | n => n

/-- What one `fixBuild` call leaves behind: the returned error (`none` for
nil), the node at the path and the `WriteFile` calls made. -/
structure FixResult where
  err : Option Err
  node : FsNode
  writes : List WriteEvent

/-- `fixBuild`, on the node the path resolves to: read, parse, reconcile,
format, write.  The result of `WriteFile` is dropped, as in the source. -/
def fixBuild (env : Env) (path : String) (children : List String)
    (node : FsNode) : FixResult :=
  match readFile node with
  | none => ⟨some (Err.read path), node, []⟩
  | some f =>
    match env.parse path f with
    | none => ⟨some (Err.parse path), node, []⟩
    | some b =>
      let out := env.format (reconcile (env.flip path) b children)
      ⟨none, writeFile out node, [⟨path, out, canWrite node⟩]⟩

/-- The first entry with the given name. -/
def findNamed (name : String) (entries : List FsNode) : Option FsNode :=
  entries.find? (fun e => decide (e.name = name))

/-- Replaces the first entry with the given name. -/
def replaceNamed (name : String) (n : FsNode) : List FsNode → List FsNode
  | [] => []
  | e :: rest => if e.name = name then n :: rest else e :: replaceNamed name n rest

/-- The state of the loop of `walkTree` when it ends: the error, or the labels
collected and the build file name, and the entries and writes so far. -/
structure LoopResult where
  ret : Except Err (List String × String)
  entries : List FsNode
  writes : List WriteEvent

/-- What a `walkTree` call leaves behind: the returned labels or error, the
node after the walk and the `WriteFile` calls made, in order. -/
structure WalkResult where
  ret : Except Err (List String)
  node : FsNode
  writes : List WriteEvent

mutual
/-- `walkTree`, on the node `root` resolves to. -/
def walkTree (env : Env) (root : String) : FsNode → WalkResult
  | FsNode.file n c r w => ⟨Except.error (Err.listing root), FsNode.file n c r w, []⟩
  | FsNode.dir n entries listable =>
    if listable = false then
      ⟨Except.error (Err.listing root), FsNode.dir n entries listable, []⟩
    else
      let lr := walkLoop env root entries [] ""
      match lr.ret with
      | Except.error e => ⟨Except.error e, FsNode.dir n lr.entries listable, lr.writes⟩
      | Except.ok (children, buildFile) =>
        if buildFile = "" then
          ⟨Except.ok children, FsNode.dir n lr.entries listable, lr.writes⟩
        else
          let retTarget := if children.length > 0 then "recursive-srcs" else "srcs"
          let path := env.join root buildFile
          match findNamed buildFile lr.entries with
          | none => ⟨Except.error (Err.read path), FsNode.dir n lr.entries listable, lr.writes⟩
          | some cell =>
            let fr := fixBuild env path children cell
            let node := FsNode.dir n (replaceNamed buildFile fr.node lr.entries) listable
            match fr.err with
            | some e => ⟨Except.error e, node, lr.writes ++ fr.writes⟩
            | none => ⟨Except.ok ["//" ++ root ++ ":" ++ retTarget], node, lr.writes ++ fr.writes⟩
/-- The loop of `walkTree` over the listing (lines 38-51), from the state
`children`, `buildFile`. -/
def walkLoop (env : Env) (root : String) :
    List FsNode → List String → String → LoopResult
  | [], children, buildFile => ⟨Except.ok (children, buildFile), [], []⟩
  | f :: rest, children, buildFile =>
    let sub : WalkResult :=
      match f with
      | FsNode.dir n entries listable =>
        walkTree env (env.join root n) (FsNode.dir n entries listable)
      | FsNode.file n c r w => ⟨Except.ok [], FsNode.file n c r w, []⟩
    match sub.ret with
    | Except.error e => ⟨Except.error e, sub.node :: rest, sub.writes⟩
    | Except.ok c =>
      let children := children ++ c
      let buildFile :=
        if f.name = "BUILD" ∨ f.name = "BUILD.bazel" then f.name else buildFile
      let lr := walkLoop env root rest children buildFile
      ⟨lr.ret, sub.node :: lr.entries, sub.writes ++ lr.writes⟩
end

/-! ## Go's `filepath.Join` -/

/-- The components of a path between its slashes. -/
def splitSlash : List Char → List (List Char)
  | [] => [[]]
  | c :: cs =>
    if c = '/' then [] :: splitSlash cs
    else
      match splitSlash cs with
      | [] => [[c]]
      | h :: t => (c :: h) :: t

/-- One step of `filepath.Clean` over the components kept so far: an empty
component and `.` are dropped, `..` removes the component before it when that is
not `..` itself, is dropped at the start of a rooted path and is kept otherwise,
and every other component is kept. -/
def cleanStep (rooted : Bool) (out : List (List Char)) (comp : List Char) :
    List (List Char) :=
  if comp = [] ∨ comp = ['.'] then out
  else if comp = ['.', '.'] then
    match out.getLast? with
    | some last => if last = ['.', '.'] then out ++ [comp] else out.dropLast
    | none => if rooted then out else out ++ [comp]
  else out ++ [comp]

/-- Components joined by slashes. -/
def joinSlash : List (List Char) → List Char
  | [] => []
  | [c] => c
  | c :: rest => c ++ '/' :: joinSlash rest

/-- The text of a cleaned path: the kept components joined by slashes, after a
slash when the path is rooted, and `.` when nothing is left. -/
def renderPath (rooted : Bool) (out : List (List Char)) : List Char :=
  if rooted then '/' :: joinSlash out
  else if out = [] then ['.'] else joinSlash out

/-- Go's `filepath.Clean` on Unix, over the characters of the path. -/
def cleanChars (path : List Char) : List Char :=
  if path = [] then ['.']
  else
    let rooted := decide (path.head? = some '/')
    renderPath rooted ((splitSlash path).foldl (cleanStep rooted) [])

/-- Go's `filepath.Join` of two elements on Unix: the elements from the first
non-empty one on, joined by a slash and cleaned. -/
def goJoin (a b : String) : String :=
  if a ≠ "" then ⟨cleanChars (a ++ "/" ++ b).data⟩
  else if b ≠ "" then ⟨cleanChars b.data⟩
  else ""

/-- A name a directory listing can hold: not empty, without a slash, and
neither `.` nor `..`. -/
def regularName (n : List Char) : Bool :=
  decide (n ≠ [] ∧ '/' ∉ n ∧ n ≠ ['.'] ∧ n ≠ ['.', '.'])

mutual
/-- Every entry name in the tree below the node is a name a listing can hold. -/
def wellNamed : FsNode → Bool
  | FsNode.file _ _ _ _ => true
  | FsNode.dir _ entries _ => wellNamedList entries
/-- Every entry of the list has a name a listing can hold and is well named
below. -/
def wellNamedList : List FsNode → Bool
  | [] => true
  | f :: rest => regularName f.name.data && wellNamed f && wellNamedList rest
end

/-! ## Closed forms used in the statements -/

/-- The argument `key = v` of a call. -/
def attrE (key : String) (v : Expr) : Expr := Expr.binary (Expr.literal key) "=" v

/-- The expression `["automanaged"]`. -/
def tagsE : Expr := Expr.list [Expr.str "automanaged"]

/-- The names of the `filegroup` rules of a statement list, in order. -/
def ruleNames (stmts : List Expr) : List String :=
  (stmts.filterMap (asRule "filegroup")).map Rule.Name

/-- The desired rules whose name is the name of no `filegroup` rule of the
file, in the order of the working set. -/
def unmatched (b : File) (children : List String) : RuleMap :=
  (newRules children).filter (fun kv => decide (kv.1 ∉ ruleNames b.stmt))

/-! ## Sample inputs -/

/-- A managed `filegroup` named `srcs` whose sources are out of date. -/
def staleSrcs : Expr :=
  Expr.call (Expr.literal "filegroup")
    [attrE "name" (Expr.str "srcs"), attrE "srcs" (Expr.list [Expr.str "old.go"]),
      attrE "tags" tagsE]

/-- A second managed `filegroup` named `srcs`, out of date as well. -/
def staleSrcsTwin : Expr :=
  Expr.call (Expr.literal "filegroup")
    [attrE "name" (Expr.str "srcs"), attrE "srcs" (Expr.list [Expr.str "older.go"]),
      attrE "tags" tagsE]

/-- A hand-written `filegroup` named `srcs`, without tags. -/
def manualSrcs : Expr :=
  Expr.call (Expr.literal "filegroup")
    [attrE "name" (Expr.str "srcs"), attrE "srcs" (Expr.list [Expr.str "main.go"])]

/-- A statement that is no rule. -/
def loadStmt : Expr := Expr.other "load(\"//tools:defs.bzl\", \"x\")"

/-- A small environment: paths are joined as `filepath.Join` does, the empty
text parses to the empty file, the text `syntax error` does not parse, every
other text parses to one opaque statement, and the formatter prints the number
of statements. -/
def sampleEnv : Env where
  join := goJoin
  parse := fun _ content =>
    if content = "syntax error" then none
    else if content = "" then some ⟨[]⟩ else some ⟨[Expr.other content]⟩
  format := fun f => toString f.stmt.length ++ " statements"
  flip := fun _ => false

/-! ## Notions used in the statements about the walk -/

/-- A listing has an entry named `BUILD` or `BUILD.bazel`: the directory owns a
build file. -/
def ownsBuild (entries : List FsNode) : Bool :=
  entries.any (fun f => decide (f.name = "BUILD" ∨ f.name = "BUILD.bazel"))

/-- The build file name the loop of `walkTree` ends with, from the value
`buildFile` it starts with: the name of the last entry named `BUILD` or
`BUILD.bazel`. -/
def selectBuild (buildFile : String) (entries : List FsNode) : String :=
  entries.foldl
    (fun acc f => if f.name = "BUILD" ∨ f.name = "BUILD.bazel" then f.name else acc) buildFile

/-- The results of `walkTree` on the subdirectories of a listing, in listing
order. -/
def subWalks (env : Env) (root : String) (entries : List FsNode) :
    List (Except Err (List String)) :=
  (entries.filter FsNode.IsDir).map (fun f => (walkTree env (env.join root f.name) f).ret)

mutual
/-- The directory, or a directory below it, owns a build file. -/
def treeOwns : FsNode → Bool
  | FsNode.file _ _ _ _ => false
  | FsNode.dir _ entries _ => ownsBuild entries || descOwns entries
/-- Some directory among the entries, or below one of them, owns a build
file. -/
def descOwns : List FsNode → Bool
  | [] => false
  | f :: rest => treeOwns f || descOwns rest
end

mutual
/-- The paths under which `walkTree` visits the directories of a tree walked
from `root`, the tree's own path first. -/
def nodePaths (env : Env) (root : String) : FsNode → List String
  | FsNode.file _ _ _ _ => []
  | FsNode.dir _ entries _ => root :: entriesPaths env root entries
/-- The paths under which the directories below `root` are visited. -/
def entriesPaths (env : Env) (root : String) : List FsNode → List String
  | [] => []
  | f :: rest => nodePaths env (env.join root f.name) f ++ entriesPaths env root rest
end

/-- `Reaches env p t q d`: walking the tree `t` from the path `p` visits the
node `d` under the path `q`. -/
inductive Reaches (env : Env) : String → FsNode → String → FsNode → Prop where
  | here (p : String) (t : FsNode) : Reaches env p t p t
  | step (p n : String) (entries : List FsNode) (listable : Bool) (f : FsNode) (q : String)
      (d : FsNode) (hf : f ∈ entries) (hd : f.IsDir = true)
      (h : Reaches env (env.join p f.name) f q d) :
      Reaches env p (FsNode.dir n entries listable) q d

/-- A readable, writable, empty build file. -/
def emptyBuild : FsNode := FsNode.file "BUILD" "" true true

/-- A tree whose root and whose subdirectory `a` own a build file, while the
subdirectory `docs` does not. -/
def sampleTree : FsNode :=
  FsNode.dir "" [emptyBuild, FsNode.dir "a" [emptyBuild, FsNode.file "x.go" "package a" true true] true,
    FsNode.dir "docs" [FsNode.file "README" "hello" true true] true] true

/-- A tree whose root has no build file and whose subdirectories `a` and `b` own
one each. -/
def plainRoot : FsNode :=
  FsNode.dir "" [FsNode.dir "a" [emptyBuild] true, FsNode.dir "b" [emptyBuild] true,
    FsNode.file "notes.txt" "" true true] true

/-! ## Notions used in the statements about writes and runs -/

/-- What an entry is after the loop's step for it: a subdirectory after its
walk, a file as it was. -/
def stepNode (env : Env) (root : String) (f : FsNode) : FsNode :=
  if f.IsDir then (walkTree env (env.join root f.name) f).node else f

/-- The `WriteFile` calls made by the walks of the subdirectories of a listing,
in listing order. -/
def subWrites (env : Env) (root : String) (entries : List FsNode) : List WriteEvent :=
  ((entries.filter FsNode.IsDir).map
    (fun f => (walkTree env (env.join root f.name) f).writes)).flatten

mutual
/-- The paths of the build files of a tree in post-order: those below the
directory first, the directory's own build file last. -/
def buildWrites (env : Env) (root : String) : FsNode → List String
  | FsNode.file _ _ _ _ => []
  | FsNode.dir _ entries _ =>
    entriesBuildWrites env root entries ++
      (if ownsBuild entries then [env.join root (selectBuild "" entries)] else [])
/-- The paths of the build files below a listing in post-order. -/
def entriesBuildWrites (env : Env) (root : String) : List FsNode → List String
  | [] => []
  | f :: rest => buildWrites env (env.join root f.name) f ++ entriesBuildWrites env root rest
end

/-- What a run of the program leaves behind: the exit status of the process,
the tree and the `WriteFile` calls made. -/
structure RunResult where
  exitStatus : Nat
  node : FsNode
  writes : List WriteEvent

/-- `main`: walks the tree from `.` and drops both results of `walkTree`; a Go
program whose `main` returns exits with status 0. -/
def main (env : Env) (cwd : FsNode) : RunResult :=
  let r := walkTree env "." cwd
  ⟨0, r.node, r.writes⟩

/-- A readable build file that cannot be written. -/
def readOnlyBuild : FsNode := FsNode.file "BUILD" "" true false

/-- A directory that cannot be listed. -/
def lockedDir : FsNode := FsNode.dir "" [emptyBuild] false

/-- A readable, writable, empty build file named `BUILD.bazel`. -/
def emptyBuildBazel : FsNode := FsNode.file "BUILD.bazel" "" true true

/-- An empty, listable directory named `BUILD`. -/
def buildDir : FsNode := FsNode.dir "BUILD" [] true

/-! ## An environment whose parser inverts its formatter -/

/-- The number of a string: the code of the list of its character codes. -/
def encodeString (s : String) : ℕ := Encodable.encode (s.data.map Char.toNat)

/-- The string with a given number. -/
def decodeString (n : ℕ) : Option String :=
  (Encodable.decode n : Option (List ℕ)).map (fun l => String.mk (l.map Char.ofNat))

mutual
/-- The number of an expression: its constructor paired with the numbers of its
parts. -/
def encodeExpr : Expr → ℕ
  | Expr.nil => Nat.pair 0 0
  | Expr.literal t => Nat.pair 1 (encodeString t)
  | Expr.str v => Nat.pair 2 (encodeString v)
  | Expr.list es => Nat.pair 3 (encodeExprs es)
  | Expr.binary x op y =>
    Nat.pair 4 (Nat.pair (encodeString op) (Nat.pair (encodeExpr x) (encodeExpr y)))
  | Expr.call x args => Nat.pair 5 (Nat.pair (encodeExpr x) (encodeExprs args))
  | Expr.other t => Nat.pair 6 (encodeString t)
/-- The number of a list of expressions. -/
def encodeExprs : List Expr → ℕ
  | [] => 0
  | e :: es => Nat.pair (encodeExpr e) (encodeExprs es) + 1
end

mutual
/-- The expression with a given number, searched to the depth `fuel`. -/
def decodeExpr : ℕ → ℕ → Option Expr
  | 0, _ => none
  | fuel + 1, n =>
    match (Nat.unpair n).1 with
    | 0 => some Expr.nil
    | 1 => (decodeString (Nat.unpair n).2).map Expr.literal
    | 2 => (decodeString (Nat.unpair n).2).map Expr.str
    | 3 => (decodeExprs fuel (Nat.unpair n).2).map Expr.list
    | 4 =>
      match decodeString (Nat.unpair (Nat.unpair n).2).1,
        decodeExpr fuel (Nat.unpair (Nat.unpair (Nat.unpair n).2).2).1,
        decodeExpr fuel (Nat.unpair (Nat.unpair (Nat.unpair n).2).2).2 with
      | some op, some x, some y => some (Expr.binary x op y)
      | _, _, _ => none
    | 5 =>
      match decodeExpr fuel (Nat.unpair (Nat.unpair n).2).1,
        decodeExprs fuel (Nat.unpair (Nat.unpair n).2).2 with
      | some x, some args => some (Expr.call x args)
      | _, _ => none
    | 6 => (decodeString (Nat.unpair n).2).map Expr.other
    | _ => none
/-- The list of expressions with a given number, searched to the depth
`fuel`. -/
def decodeExprs : ℕ → ℕ → Option (List Expr)
  | 0, _ => none
  | _ + 1, 0 => some []
  | fuel + 1, n + 1 =>
    match decodeExpr fuel (Nat.unpair n).1, decodeExprs fuel (Nat.unpair n).2 with
    | some e, some es => some (e :: es)
    | _, _ => none
end

/-- An environment with `filepath.Join` whose formatter writes the number of
the statement list as that many characters and whose parser reads it back. -/
def codecEnv : Env where
  join := goJoin
  parse := fun _ content =>
    (decodeExprs (content.length + 1) content.length).map File.mk
  format := fun f => String.mk (List.replicate (encodeExprs f.stmt) 'x')
  flip := fun _ => false

/-- The environment with another order of visit of the working sets. -/
def Env.withFlip (env : Env) (flip : String → Bool) : Env :=
  { env with flip := flip }

mutual
/-- In every listing of the tree below the node the entry names are pairwise
distinct. -/
def distinctNames : FsNode → Bool
  | FsNode.file _ _ _ _ => true
  | FsNode.dir _ entries _ => distinctNamesList entries
/-- The entry names of the listing are pairwise distinct, and so are those of
every listing below it. -/
def distinctNamesList : List FsNode → Bool
  | [] => true
  | f :: rest =>
    decide (f.name ∉ rest.map FsNode.name) && distinctNames f && distinctNamesList rest
end

/-! ## Auxiliary lemmas: attributes -/

theorem isDefn_withRhs (key : String) (e v : Expr) : isDefn key (e.withRhs v) = isDefn key e := by
  cases e <;> try rfl
  rename_i x op y
  cases x <;> rfl

theorem rhs_withRhs (key : String) (e v : Expr) (h : isDefn key e = true) : (e.withRhs v).rhs = v := by
  cases e <;> simp [isDefn] at h
  rfl

theorem isDefn_excl (key key' : String) (e : Expr) (hne : key' ≠ key) (h : isDefn key e = true) :
    isDefn key' e = false := by
  cases e <;> try rfl
  rename_i x op y
  cases x <;> try rfl
  simp [isDefn] at h ⊢
  intro _ hk
  exact hne (hk.symm.trans h.2)

theorem find_setDefn_same (key : String) (v : Expr) (l : List Expr)
    (h : l.any (isDefn key) = true) :
    ((setDefn key v l).find? (isDefn key)).map Expr.rhs = some v := by
  induction l with
  | nil => simp at h
  | cons e rest ih =>
    by_cases he : isDefn key e = true
    · simp [setDefn, he, List.find?, isDefn_withRhs, rhs_withRhs key e v he]
    · simp only [Bool.not_eq_true] at he
      simp [he] at h
      have := ih (by simpa using h)
      simp [setDefn, he, List.find?, this]

theorem find_setDefn_other (key key' : String) (v : Expr) (l : List Expr) (hne : key' ≠ key) :
    (setDefn key v l).find? (isDefn key') = l.find? (isDefn key') := by
  induction l with
  | nil => rfl
  | cons e rest ih =>
    by_cases he : isDefn key e = true
    · simp [setDefn, he, List.find?, isDefn_withRhs, isDefn_excl key key' e hne he]
    · simp only [Bool.not_eq_true] at he
      simp only [setDefn, he, List.find?, ih]

theorem attr_setAttr_same (r : Rule) (key : String) (v : Expr) : (r.SetAttr key v).Attr key = v := by
  unfold Rule.SetAttr Rule.Attr
  by_cases h : r.list.any (isDefn key) = true
  · have := find_setDefn_same key v r.list h
    simp only [h, if_true]
    cases hf : (setDefn key v r.list).find? (isDefn key) with
    | none => simp [hf] at this
    | some e => simpa [hf] using this
  · simp only [h]
    have hnone : r.list.find? (isDefn key) = none := by
      simpa using h
    simp [List.find?_append, hnone, isDefn, Expr.rhs]

theorem attr_setAttr_other (r : Rule) (key key' : String) (v : Expr) (hne : key' ≠ key) :
    (r.SetAttr key v).Attr key' = r.Attr key' := by
  unfold Rule.SetAttr Rule.Attr
  by_cases h : r.list.any (isDefn key) = true
  · simp only [h, if_true, find_setDefn_other key key' v r.list hne]
  · simp only [h]
    cases hf : r.list.find? (isDefn key') with
    | none => simp [List.find?_append, hf, isDefn, hne.symm]
    | some e => simp [List.find?_append, hf]

theorem x_setAttr (r : Rule) (key : String) (v : Expr) : (r.SetAttr key v).x = r.x := by
  unfold Rule.SetAttr
  split <;> rfl

theorem name_setAttr_srcs (r : Rule) (v : Expr) : (r.SetAttr "srcs" v).Name = r.Name := by
  unfold Rule.Name Rule.AttrString
  rw [attr_setAttr_other r "srcs" "name" v (by decide)]

/-! ## Auxiliary lemmas: desired rules -/

theorem newFilegroupRule_eq (name : String) (deps : List String) :
    newFilegroupRule name deps =
      ⟨Expr.literal "filegroup",
        [attrE "name" (Expr.str name), attrE "srcs" (Expr.list (deps.map Expr.str)),
          attrE "tags" tagsE]⟩ := rfl

theorem newRules_nil :
    newRules [] = [("srcs", (newFilegroupRule "srcs" []).SetAttr "srcs" globAll)] := rfl

theorem newRules_cons (c : String) (cs : List String) :
    newRules (c :: cs) =
      [("srcs", (newFilegroupRule "srcs" []).SetAttr "srcs" globAll),
        ("recursive-srcs", newFilegroupRule "recursive-srcs" (c :: cs ++ [":srcs"]))] := by
  have h : (c :: cs).length > 0 := by simp
  unfold newRules
  simp only [h, if_true]
  rfl

theorem mapM_asString_str (l : List String) : (l.map Expr.str).mapM Expr.asString = some l := by
  induction l with
  | nil => rfl
  | cons a rest ih =>
    rw [List.map_cons, List.mapM_cons, ih]
    rfl

theorem strings_list_str (l : List String) : Strings (Expr.list (l.map Expr.str)) = some l :=
  mapM_asString_str l

theorem newRules_get_srcs (children : List String) :
    (newRules children).get "srcs" =
      some ((newFilegroupRule "srcs" []).SetAttr "srcs" globAll) := by
  cases children with
  | nil => rfl
  | cons c cs => rw [newRules_cons]; rfl

/-- C5. Whatever the child labels are, the desired rules of `fixBuild` hold under
the key `srcs` one and the same `filegroup` rule, named `srcs`, whose `srcs`
attribute is the literal `glob(["**"])` and whose `tags` are exactly
`["automanaged"]`; it is the only desired rule of that name. -/
theorem newRules_srcs_rule (children children' : List String) :
    ∃ r : Rule, (newRules children).get "srcs" = some r ∧
      (newRules children').get "srcs" = some r ∧
      r.x = Expr.literal "filegroup" ∧ r.Name = "srcs" ∧
      r.Attr "srcs" = Expr.literal "glob([\"**\"])" ∧
      r.Attr "tags" = Expr.list [Expr.str "automanaged"] ∧
      r.AttrStrings "tags" = some ["automanaged"] ∧
      ∀ kv ∈ newRules children, kv.2.Name = "srcs" → kv.2 = r := by
  refine ⟨(newFilegroupRule "srcs" []).SetAttr "srcs" globAll, ?_, ?_, rfl, rfl, rfl, rfl, rfl, ?_⟩
  · exact newRules_get_srcs children
  · exact newRules_get_srcs children'
  · intro kv hkv hname
    cases children with
    | nil =>
      rw [newRules_nil] at hkv
      simp at hkv
      rw [hkv]
    | cons c cs =>
      rw [newRules_cons] at hkv
      simp only [List.mem_cons, List.mem_singleton, List.not_mem_nil, or_false] at hkv
      rcases hkv with h | h
      · rw [h]
      · rw [h] at hname
        have hn : (newFilegroupRule "recursive-srcs" (c :: cs ++ [":srcs"])).Name
            = "recursive-srcs" := rfl
        simp only [hn] at hname
        exact absurd hname (by decide)

/-- C4. The desired rules of `fixBuild` contain a rule named `recursive-srcs`
exactly when the child labels are non-empty; that rule sits under the key
`recursive-srcs`, its `srcs` attribute is the list of the child labels in their
order followed by `":srcs"`, and its `tags` are exactly `["automanaged"]`. -/
theorem newRules_recursive_srcs_rule (children : List String) :
    ((∃ kv ∈ newRules children, kv.2.Name = "recursive-srcs") ↔ children ≠ []) ∧
    (((newRules children).get "recursive-srcs").isSome = true ↔ children ≠ []) ∧
    ∀ kv ∈ newRules children, kv.2.Name = "recursive-srcs" →
      (newRules children).get "recursive-srcs" = some kv.2 ∧
      kv.2.x = Expr.literal "filegroup" ∧
      kv.2.Attr "srcs" = Expr.list ((children ++ [":srcs"]).map Expr.str) ∧
      kv.2.AttrStrings "srcs" = some (children ++ [":srcs"]) ∧
      kv.2.Attr "tags" = Expr.list [Expr.str "automanaged"] ∧
      kv.2.AttrStrings "tags" = some ["automanaged"] := by
  cases children with
  | nil =>
    rw [newRules_nil]
    refine ⟨?_, ?_, ?_⟩
    · simp only [List.mem_singleton, exists_eq_left, ne_eq, not_true_eq_false, iff_false]
      decide
    · simp only [ne_eq, not_true_eq_false, iff_false]
      decide
    · intro kv hkv hname
      simp at hkv
      rw [hkv] at hname
      exact absurd hname (by decide)
  | cons c cs =>
    rw [newRules_cons]
    refine ⟨?_, ?_, ?_⟩
    · simp
      right
      rfl
    · simp
      rfl
    · intro kv hkv hname
      simp only [List.mem_cons, List.mem_singleton, List.not_mem_nil, or_false] at hkv
      rcases hkv with h | h
      · rw [h] at hname
        exact absurd hname (by decide)
      · rw [h]
        refine ⟨rfl, rfl, rfl, ?_, rfl, rfl⟩
        exact strings_list_str (c :: cs ++ [":srcs"])

/-! ## Auxiliary lemmas: the working set and the scan -/

theorem get_eq_none_iff (m : RuleMap) (k : String) :
    m.get k = none ↔ ∀ kv ∈ m, kv.1 ≠ k := by
  unfold RuleMap.get
  simp [List.find?_eq_none]

theorem get_some_mem (m : RuleMap) (k : String) (r : Rule) (h : m.get k = some r) :
    (k, r) ∈ m := by
  unfold RuleMap.get at h
  cases hf : m.find? (fun kv => decide (kv.1 = k)) with
  | none => simp [hf] at h
  | some kv =>
    simp only [hf, Option.map_some', Option.some.injEq] at h
    have hp := List.find?_some hf
    have hm := List.mem_of_find?_eq_some hf
    simp only [decide_eq_true_eq] at hp
    rw [← hp, ← h]
    exact hm

theorem get_delete_ne (m : RuleMap) (k k' : String) (hne : k ≠ k') :
    (m.delete k').get k = m.get k := by
  unfold RuleMap.get RuleMap.delete
  induction m with
  | nil => rfl
  | cons kv rest ih =>
    by_cases h1 : kv.1 = k'
    · have h2 : ¬ kv.1 = k := fun h => hne (h.symm.trans h1)
      rw [List.filter_cons_of_neg (by simp [h1]), List.find?_cons_of_neg _ (by simp [h2])]
      exact ih
    · rw [List.filter_cons_of_pos (by simp [h1])]
      by_cases h2 : kv.1 = k
      · rw [List.find?_cons_of_pos _ (by simp [h2]), List.find?_cons_of_pos _ (by simp [h2])]
      · rw [List.find?_cons_of_neg _ (by simp [h2]), List.find?_cons_of_neg _ (by simp [h2])]
        exact ih

theorem mem_delete (m : RuleMap) (k : String) (kv : String × Rule) (h : kv ∈ m.delete k) :
    kv ∈ m := (List.mem_filter.mp h).1

theorem asRule_some (s : Expr) (r : Rule) (h : asRule "filegroup" s = some r) :
    s = r.Call ∧ r.x = Expr.literal "filegroup" := by
  cases s <;> try (simp [asRule] at h)
  rename_i x args
  cases x <;> try (simp [asRule] at h)
  rename_i k
  obtain ⟨hk, hr⟩ := h
  subst hr
  simp [Rule.Call, hk]

theorem asRule_call (r : Rule) (h : r.x = Expr.literal "filegroup") :
    asRule "filegroup" r.Call = some r := by
  cases r with
  | mk x l =>
    simp only at h
    subst h
    simp [Rule.Call, asRule]

theorem asRule_setAttr (s : Expr) (r : Rule) (key : String) (v : Expr)
    (h : asRule "filegroup" s = some r) :
    asRule "filegroup" (r.SetAttr key v).Call = some (r.SetAttr key v) :=
  asRule_call _ ((x_setAttr r key v).trans (asRule_some s r h).2)

theorem scanRules_length (m : RuleMap) (stmts : List Expr) :
    (scanRules m stmts).1.length = stmts.length := by
  induction stmts generalizing m with
  | nil => rfl
  | cons s rest ih =>
    unfold scanRules
    split
    · simp [ih]
    · split
      · simp [ih]
      · simp [ih]
theorem scanRules_cons_none (m : RuleMap) (s : Expr) (rest : List Expr)
    (h : asRule "filegroup" s = none) :
    scanRules m (s :: rest) = (s :: (scanRules m rest).1, (scanRules m rest).2) := by
  rw [scanRules]
  simp only [h]

theorem scanRules_cons_miss (m : RuleMap) (s : Expr) (rest : List Expr) (r : Rule)
    (h : asRule "filegroup" s = some r) (hg : m.get r.Name = none) :
    scanRules m (s :: rest) = (s :: (scanRules m rest).1, (scanRules m rest).2) := by
  rw [scanRules]
  simp only [h, hg]

theorem scanRules_cons_hit (m : RuleMap) (s : Expr) (rest : List Expr) (r nr : Rule)
    (h : asRule "filegroup" s = some r) (hg : m.get r.Name = some nr) :
    scanRules m (s :: rest) =
      ((if RuleIsManaged r then (r.SetAttr "srcs" (nr.Attr "srcs")).Call else s) ::
          (scanRules (m.delete r.Name) rest).1,
        (scanRules (m.delete r.Name) rest).2) := by
  rw [scanRules]
  simp only [h, hg]

theorem scanRules_getElem (m : RuleMap) (stmts : List Expr) (i : Nat) (s : Expr)
    (hs : stmts[i]? = some s) :
    (scanRules m stmts).1[i]? = some s ∨
      ∃ r nr, asRule "filegroup" s = some r ∧ (r.Name, nr) ∈ m ∧ RuleIsManaged r = true ∧
        (scanRules m stmts).1[i]? = some (r.SetAttr "srcs" (nr.Attr "srcs")).Call := by
  induction stmts generalizing m i with
  | nil => simp at hs
  | cons s0 rest ih =>
    cases hr : asRule "filegroup" s0 with
    | none =>
      rw [scanRules_cons_none m s0 rest hr]
      cases i with
      | zero => left; simpa using hs
      | succ j =>
        simp only [List.getElem?_cons_succ] at hs ⊢
        exact ih m j hs
    | some r0 =>
      cases hg : m.get r0.Name with
      | none =>
        rw [scanRules_cons_miss m s0 rest r0 hr hg]
        cases i with
        | zero => left; simpa using hs
        | succ j =>
          simp only [List.getElem?_cons_succ] at hs ⊢
          exact ih m j hs
      | some nr =>
        rw [scanRules_cons_hit m s0 rest r0 nr hr hg]
        cases i with
        | zero =>
          simp only [List.getElem?_cons_zero, Option.some.injEq] at hs ⊢
          subst hs
          by_cases hm : RuleIsManaged r0 = true
          · right
            exact ⟨r0, nr, hr, get_some_mem m _ nr hg, hm, by simp [hm]⟩
          · left
            simp [hm]
        | succ j =>
          simp only [List.getElem?_cons_succ] at hs ⊢
          rcases ih (m.delete r0.Name) j hs with h | ⟨r, nr', h1, h2, h3, h4⟩
          · left; exact h
          · right
            exact ⟨r, nr', h1, mem_delete m _ _ h2, h3, h4⟩

theorem scanRules_first (m : RuleMap) (stmts : List Expr) (i : Nat) (s : Expr) (r nr : Rule)
    (hs : stmts[i]? = some s) (hr : asRule "filegroup" s = some r)
    (hg : m.get r.Name = some nr)
    (hfirst : ∀ j s' r', j < i → stmts[j]? = some s' → asRule "filegroup" s' = some r' →
      r'.Name ≠ r.Name) :
    (scanRules m stmts).1[i]? =
      some (if RuleIsManaged r then (r.SetAttr "srcs" (nr.Attr "srcs")).Call else s) := by
  induction stmts generalizing m i with
  | nil => simp at hs
  | cons s0 rest ih =>
    cases i with
    | zero =>
      simp only [List.getElem?_cons_zero, Option.some.injEq] at hs
      subst hs
      rw [scanRules_cons_hit m s0 rest r nr hr hg]
      simp
    | succ j =>
      simp only [List.getElem?_cons_succ] at hs
      have hfirst' : ∀ k s' r', k < j → rest[k]? = some s' → asRule "filegroup" s' = some r' →
          r'.Name ≠ r.Name := fun k s' r' hk hs' hr' =>
        hfirst (k + 1) s' r' (Nat.succ_lt_succ hk) (by simpa using hs') hr'
      cases hr0 : asRule "filegroup" s0 with
      | none =>
        rw [scanRules_cons_none m s0 rest hr0]
        simp only [List.getElem?_cons_succ]
        exact ih m j hs hg hfirst'
      | some r0 =>
        have hne : r0.Name ≠ r.Name := hfirst 0 s0 r0 (Nat.succ_pos j) (by simp) hr0
        cases hg0 : m.get r0.Name with
        | none =>
          rw [scanRules_cons_miss m s0 rest r0 hr0 hg0]
          simp only [List.getElem?_cons_succ]
          exact ih m j hs hg hfirst'
        | some nr0 =>
          rw [scanRules_cons_hit m s0 rest r0 nr0 hr0 hg0]
          simp only [List.getElem?_cons_succ]
          exact ih (m.delete r0.Name) j hs
            ((get_delete_ne m r.Name r0.Name (Ne.symm hne)).trans hg) hfirst'

theorem ruleNames_cons_none (s : Expr) (rest : List Expr) (h : asRule "filegroup" s = none) :
    ruleNames (s :: rest) = ruleNames rest := by
  simp [ruleNames, List.filterMap_cons, h]

theorem ruleNames_cons_some (s : Expr) (rest : List Expr) (r : Rule)
    (h : asRule "filegroup" s = some r) :
    ruleNames (s :: rest) = r.Name :: ruleNames rest := by
  simp [ruleNames, List.filterMap_cons, h]

theorem scanRules_rest (m : RuleMap) (stmts : List Expr) :
    (scanRules m stmts).2 = m.filter (fun kv => decide (kv.1 ∉ ruleNames stmts)) := by
  induction stmts generalizing m with
  | nil => simp [scanRules, ruleNames]
  | cons s0 rest ih =>
    cases hr : asRule "filegroup" s0 with
    | none =>
      rw [scanRules_cons_none m s0 rest hr, ruleNames_cons_none s0 rest hr]
      exact ih m
    | some r0 =>
      rw [ruleNames_cons_some s0 rest r0 hr]
      cases hg : m.get r0.Name with
      | none =>
        rw [scanRules_cons_miss m s0 rest r0 hr hg]
        simp only [ih m]
        apply List.filter_congr
        intro kv hkv
        have := (get_eq_none_iff m r0.Name).mp hg kv hkv
        simp [this]
      | some nr =>
        rw [scanRules_cons_hit m s0 rest r0 nr hr hg]
        show (scanRules (m.delete r0.Name) rest).2 = _
        rw [ih (m.delete r0.Name), RuleMap.delete, List.filter_filter]
        apply List.filter_congr
        intro kv _
        simp [and_comm]

theorem ruleNames_scanRules (m : RuleMap) (stmts : List Expr) :
    ruleNames (scanRules m stmts).1 = ruleNames stmts := by
  induction stmts generalizing m with
  | nil => rfl
  | cons s0 rest ih =>
    cases hr : asRule "filegroup" s0 with
    | none =>
      rw [scanRules_cons_none m s0 rest hr]
      simp only [ruleNames_cons_none s0 _ hr, ih m]
    | some r0 =>
      cases hg : m.get r0.Name with
      | none =>
        rw [scanRules_cons_miss m s0 rest r0 hr hg]
        simp only [ruleNames_cons_some s0 _ r0 hr, ih m]
      | some nr =>
        rw [scanRules_cons_hit m s0 rest r0 nr hr hg]
        by_cases hm : RuleIsManaged r0 = true
        · simp only [hm, if_true]
          rw [ruleNames_cons_some _ _ _ (asRule_setAttr s0 r0 "srcs" (nr.Attr "srcs") hr),
            ruleNames_cons_some s0 _ r0 hr, name_setAttr_srcs, ih]
        · simp only [hm]
          simp only [Bool.false_eq_true, if_false]
          rw [ruleNames_cons_some s0 _ r0 hr, ruleNames_cons_some s0 _ r0 hr, ih]

/-! ## Auxiliary lemmas: reconciliation -/

theorem ruleNames_append (a b : List Expr) : ruleNames (a ++ b) = ruleNames a ++ ruleNames b := by
  simp [ruleNames, List.filterMap_append]

theorem mem_ruleNames (stmts : List Expr) (n : String) :
    n ∈ ruleNames stmts ↔ ∃ r ∈ (File.mk stmts).Rules "filegroup", r.Name = n := by
  simp [ruleNames, File.Rules]

theorem newRules_wf (children : List String) (kv : String × Rule) (h : kv ∈ newRules children) :
    asRule "filegroup" kv.2.Call = some kv.2 ∧ kv.2.Name = kv.1 ∧
      (newRules children).get kv.1 = some kv.2 ∧
      kv.2.AttrStrings "tags" = some ["automanaged"] ∧
      ((kv.1 = "srcs" ∧ kv.2.Attr "srcs" = globAll) ∨
        (kv.1 = "recursive-srcs" ∧ children ≠ [] ∧
          kv.2.Attr "srcs" = Expr.list ((children ++ [":srcs"]).map Expr.str))) := by
  cases children with
  | nil =>
    rw [newRules_nil] at h ⊢
    simp only [List.mem_singleton] at h
    subst h
    exact ⟨rfl, rfl, rfl, rfl, Or.inl ⟨rfl, rfl⟩⟩
  | cons c cs =>
    rw [newRules_cons] at h ⊢
    simp only [List.mem_cons, List.mem_singleton, List.not_mem_nil, or_false] at h
    rcases h with h | h
    · subst h
      exact ⟨rfl, rfl, rfl, rfl, Or.inl ⟨rfl, rfl⟩⟩
    · subst h
      exact ⟨rfl, rfl, rfl, rfl, Or.inr ⟨rfl, by simp, rfl⟩⟩

theorem newRules_keys_nodup (children : List String) :
    ((newRules children).map Prod.fst).Nodup := by
  cases children with
  | nil => rw [newRules_nil]; simp
  | cons c cs => rw [newRules_cons]; simp

theorem ruleNames_map_call (children : List String) (l : List (String × Rule))
    (h : ∀ kv ∈ l, kv ∈ newRules children) :
    ruleNames (l.map (fun kv => kv.2.Call)) = l.map Prod.fst := by
  induction l with
  | nil => rfl
  | cons kv rest ih =>
    have hkv := newRules_wf children kv (h kv (List.mem_cons_self _ _))
    rw [List.map_cons, ruleNames_cons_some _ _ kv.2 hkv.1, hkv.2.1,
      ih (fun x hx => h x (List.mem_cons_of_mem _ hx))]
    rfl

theorem range_perm (m : RuleMap) (flip : Bool) : (m.range flip).Perm m := by
  unfold RuleMap.range
  cases flip
  · exact List.Perm.refl m
  · exact List.reverse_perm m

theorem mem_unmatched (b : File) (children : List String) (kv : String × Rule) :
    kv ∈ unmatched b children ↔ kv ∈ newRules children ∧ kv.1 ∉ ruleNames b.stmt := by
  simp [unmatched, List.mem_filter]

theorem reconcile_stmt (flip : Bool) (b : File) (children : List String) :
    (reconcile flip b children).stmt =
      (scanRules (newRules children) b.stmt).1 ++
        ((unmatched b children).range flip).map (fun kv => kv.2.Call) := by
  simp only [reconcile, scanRules_rest, unmatched]

theorem reconcile_getElem_lt (flip : Bool) (b : File) (children : List String) (i : Nat)
    (h : i < b.stmt.length) :
    (reconcile flip b children).stmt[i]? = (scanRules (newRules children) b.stmt).1[i]? := by
  rw [reconcile_stmt, List.getElem?_append_left (by rw [scanRules_length]; exact h)]

theorem reconcile_drop (flip : Bool) (b : File) (children : List String) :
    (reconcile flip b children).stmt.drop b.stmt.length =
      ((unmatched b children).range flip).map (fun kv => kv.2.Call) := by
  rw [reconcile_stmt, ← scanRules_length (newRules children) b.stmt, List.drop_left]

theorem ruleNames_reconcile (flip : Bool) (b : File) (children : List String) :
    ruleNames (reconcile flip b children).stmt =
      ruleNames b.stmt ++ ((unmatched b children).range flip).map Prod.fst := by
  rw [reconcile_stmt, ruleNames_append, ruleNames_scanRules,
    ruleNames_map_call children _ (fun kv hkv =>
      ((mem_unmatched b children kv).mp ((range_perm _ flip).mem_iff.mp hkv)).1)]

/-! ## Reconciliation: what it changes and what it keeps -/

/-- C6. An existing `filegroup` rule whose name is a desired name (`srcs`, or
`recursive-srcs` when there are child labels) and which is not managed is, after
reconciliation, the same statement at the same index, and the number of
`filegroup` rules of that name in the file is unchanged: no rule of that name is
among the appended statements. -/
theorem reconcile_unmanaged_untouched (flip : Bool) (b : File) (children : List String)
    (i : Nat) (s : Expr) (r : Rule)
    (hs : b.stmt[i]? = some s) (hr : asRule "filegroup" s = some r)
    (_hname : r.Name = "srcs" ∨ (r.Name = "recursive-srcs" ∧ children ≠ []))
    (hun : RuleIsManaged r = false) :
    (reconcile flip b children).stmt[i]? = some s ∧
      (ruleNames (reconcile flip b children).stmt).count r.Name =
        (ruleNames b.stmt).count r.Name ∧
      r.Name ∉ ruleNames ((reconcile flip b children).stmt.drop b.stmt.length) := by
  have hi : i < b.stmt.length := (List.getElem?_eq_some.mp hs).1
  have hmem : r.Name ∈ ruleNames b.stmt := by
    have hsm : s ∈ b.stmt := List.getElem?_mem hs
    simp only [ruleNames, List.mem_map, List.mem_filterMap]
    exact ⟨r, ⟨s, hsm, hr⟩, rfl⟩
  have hnot : r.Name ∉ ((unmatched b children).range flip).map Prod.fst := by
    intro hin
    obtain ⟨kv, hkv, hk⟩ := List.mem_map.mp hin
    have := ((mem_unmatched b children kv).mp ((range_perm _ flip).mem_iff.mp hkv)).2
    rw [hk] at this
    exact this hmem
  refine ⟨?_, ?_, ?_⟩
  · rw [reconcile_getElem_lt flip b children i hi]
    rcases scanRules_getElem (newRules children) b.stmt i s hs with h | ⟨r', _, h1, _, h3, _⟩
    · exact h
    · rw [hr] at h1
      cases h1
      rw [hun] at h3
      cases h3
  · rw [ruleNames_reconcile, List.count_append, List.count_eq_zero_of_not_mem hnot]
    rfl
  · rw [reconcile_drop, ruleNames_map_call children _ (fun kv hkv =>
      ((mem_unmatched b children kv).mp ((range_perm _ flip).mem_iff.mp hkv)).1)]
    exact hnot

/-- C6 at a file holding a hand-written `srcs` rule after a `load` statement. -/
theorem reconcile_unmanaged_untouched_witness :
    (reconcile false ⟨[loadStmt, manualSrcs]⟩ []).stmt[1]? = some manualSrcs ∧
      (ruleNames (reconcile false ⟨[loadStmt, manualSrcs]⟩ []).stmt).count "srcs" =
        (ruleNames [loadStmt, manualSrcs]).count "srcs" ∧
      "srcs" ∉ ruleNames ((reconcile false ⟨[loadStmt, manualSrcs]⟩ []).stmt.drop 2) :=
  reconcile_unmanaged_untouched false ⟨[loadStmt, manualSrcs]⟩ [] 1 manualSrcs
    ⟨Expr.literal "filegroup",
      [attrE "name" (Expr.str "srcs"), attrE "srcs" (Expr.list [Expr.str "main.go"])]⟩
    rfl rfl (Or.inl rfl) rfl
/-- C7, as stated, fails: of two managed `filegroup` rules named `srcs` only the
first is patched; the second keeps its stale `srcs` attribute. -/
theorem reconcile_managed_srcs_every_fails :
    ¬ (∀ (flip : Bool) (b : File) (children : List String) (i : Nat) (s : Expr) (r : Rule),
        b.stmt[i]? = some s → asRule "filegroup" s = some r → r.Name = "srcs" →
        RuleIsManaged r = true →
        ∃ r' : Rule, (reconcile flip b children).stmt[i]? = some r'.Call ∧
          r'.Attr "srcs" = globAll) := by
  intro h
  obtain ⟨r', h1, h2⟩ := h false ⟨[staleSrcs, staleSrcsTwin]⟩ [] 1 staleSrcsTwin
    ⟨Expr.literal "filegroup",
      [attrE "name" (Expr.str "srcs"), attrE "srcs" (Expr.list [Expr.str "older.go"]),
        attrE "tags" tagsE]⟩ rfl rfl rfl rfl
  have h3 : (reconcile false ⟨[staleSrcs, staleSrcsTwin]⟩ []).stmt[1]? = some staleSrcsTwin := rfl
  rw [h3] at h1
  have h4 : staleSrcsTwin = r'.Call := Option.some.inj h1
  cases r' with
  | mk x l =>
    simp only [staleSrcsTwin, Rule.Call, Expr.call.injEq] at h4
    obtain ⟨hx, hl⟩ := h4
    subst hx
    subst hl
    have h5 : (Rule.mk (Expr.literal "filegroup")
        [attrE "name" (Expr.str "srcs"), attrE "srcs" (Expr.list [Expr.str "older.go"]),
          attrE "tags" tagsE]).Attr "srcs" = Expr.list [Expr.str "older.go"] := rfl
    rw [h5] at h2
    cases h2

/-- C7, amended. The first `filegroup` rule named `srcs` in the statement list,
when it is managed, is after reconciliation the same rule with `srcs` set to the
literal `glob(["**"])`: it sits at the same index, is still a `filegroup`, and
every attribute other than `srcs` has its former value. -/
theorem reconcile_first_managed_srcs (flip : Bool) (b : File) (children : List String)
    (i : Nat) (s : Expr) (r : Rule)
    (hs : b.stmt[i]? = some s) (hr : asRule "filegroup" s = some r)
    (hname : r.Name = "srcs") (hm : RuleIsManaged r = true)
    (hfirst : ∀ j s' r', j < i → b.stmt[j]? = some s' → asRule "filegroup" s' = some r' →
      r'.Name ≠ "srcs") :
    (reconcile flip b children).stmt[i]? = some (r.SetAttr "srcs" globAll).Call ∧
      asRule "filegroup" (r.SetAttr "srcs" globAll).Call = some (r.SetAttr "srcs" globAll) ∧
      (r.SetAttr "srcs" globAll).Attr "srcs" = Expr.literal "glob([\"**\"])" ∧
      (r.SetAttr "srcs" globAll).Name = "srcs" ∧
      ∀ key, key ≠ "srcs" → (r.SetAttr "srcs" globAll).Attr key = r.Attr key := by
  have hi : i < b.stmt.length := (List.getElem?_eq_some.mp hs).1
  have hg := newRules_get_srcs children
  have hnr : ((newFilegroupRule "srcs" []).SetAttr "srcs" globAll).Attr "srcs" = globAll := rfl
  refine ⟨?_, asRule_setAttr s r "srcs" globAll hr, attr_setAttr_same r "srcs" globAll,
    (name_setAttr_srcs r globAll).trans hname,
    fun key hk => attr_setAttr_other r "srcs" key globAll hk⟩
  rw [reconcile_getElem_lt flip b children i hi,
    scanRules_first (newRules children) b.stmt i s r _ hs hr (by rw [hname]; exact hg)
      (by rw [hname]; exact hfirst)]
  simp [hm, hnr]

/-- C7, amended, at a file whose second statement is a stale managed `srcs`
rule. -/
theorem reconcile_first_managed_srcs_witness :
    (reconcile false ⟨[loadStmt, staleSrcs]⟩ ["//a:srcs"]).stmt[1]? =
        some (Expr.call (Expr.literal "filegroup")
          [attrE "name" (Expr.str "srcs"), attrE "srcs" globAll, attrE "tags" tagsE]) ∧
      (Rule.mk (Expr.literal "filegroup")
        [attrE "name" (Expr.str "srcs"), attrE "srcs" globAll, attrE "tags" tagsE]).Attr "tags"
        = tagsE :=
  have h := reconcile_first_managed_srcs false ⟨[loadStmt, staleSrcs]⟩ ["//a:srcs"] 1 staleSrcs
    ⟨Expr.literal "filegroup",
      [attrE "name" (Expr.str "srcs"), attrE "srcs" (Expr.list [Expr.str "old.go"]),
        attrE "tags" tagsE]⟩
    rfl rfl rfl rfl
    (fun j s' r' hj hs' hr' => by
      have hj0 : j = 0 := by omega
      subst hj0
      have : s' = loadStmt := (Option.some.inj hs').symm
      subst this
      cases hr')
  ⟨h.1, h.2.2.2.2 "tags" (by decide)⟩
/-- C8. Reconciliation keeps every original statement at its index.  The
statement at an index is either the original one, or the original one is a
managed `filegroup` rule whose name is a desired name and the new statement is
that rule with its `srcs` attribute set to the desired value: still a
`filegroup`, with the same name and the same value for every attribute other
than `srcs`. -/
theorem reconcile_frame (flip : Bool) (b : File) (children : List String) (i : Nat) (s : Expr)
    (hs : b.stmt[i]? = some s) :
    (reconcile flip b children).stmt[i]? = some s ∨
      ∃ r nr, asRule "filegroup" s = some r ∧ (newRules children).get r.Name = some nr ∧
        RuleIsManaged r = true ∧
        (reconcile flip b children).stmt[i]? = some (r.SetAttr "srcs" (nr.Attr "srcs")).Call ∧
        (r.SetAttr "srcs" (nr.Attr "srcs")).x = r.x ∧
        (r.SetAttr "srcs" (nr.Attr "srcs")).Name = r.Name ∧
        ∀ key, key ≠ "srcs" → (r.SetAttr "srcs" (nr.Attr "srcs")).Attr key = r.Attr key := by
  have hi : i < b.stmt.length := (List.getElem?_eq_some.mp hs).1
  rw [reconcile_getElem_lt flip b children i hi]
  rcases scanRules_getElem (newRules children) b.stmt i s hs with h | ⟨r, nr, h1, h2, h3, h4⟩
  · exact Or.inl h
  · exact Or.inr ⟨r, nr, h1, (newRules_wf children _ h2).2.2.1, h3, h4, x_setAttr r _ _,
      name_setAttr_srcs r _, fun key hk => attr_setAttr_other r "srcs" key _ hk⟩

/-- C8 at a file with a `load` statement and a stale managed `srcs` rule: the
`load` statement stays, the rule is patched in place. -/
theorem reconcile_frame_witness :
    ((reconcile true ⟨[loadStmt, staleSrcs]⟩ []).stmt[1]? = some staleSrcs ∨
      ∃ r nr, asRule "filegroup" staleSrcs = some r ∧
        (newRules []).get r.Name = some nr ∧ RuleIsManaged r = true ∧
        (reconcile true ⟨[loadStmt, staleSrcs]⟩ []).stmt[1]? =
          some (r.SetAttr "srcs" (nr.Attr "srcs")).Call ∧
        (r.SetAttr "srcs" (nr.Attr "srcs")).x = r.x ∧
        (r.SetAttr "srcs" (nr.Attr "srcs")).Name = r.Name ∧
        ∀ key, key ≠ "srcs" → (r.SetAttr "srcs" (nr.Attr "srcs")).Attr key = r.Attr key) ∧
      (reconcile true ⟨[loadStmt, staleSrcs]⟩ []).stmt =
        [loadStmt,
          Expr.call (Expr.literal "filegroup")
            [attrE "name" (Expr.str "srcs"), attrE "srcs" globAll, attrE "tags" tagsE]] :=
  ⟨reconcile_frame true ⟨[loadStmt, staleSrcs]⟩ [] 1 staleSrcs rfl, rfl⟩

/-- C9. The statements after the original ones are the calls of the desired
rules whose names are the name of no existing `filegroup` rule, in the order in
which the working set is visited: each such rule once, as a `filegroup` with its
name, its desired `srcs` and `tags = ["automanaged"]`; when every desired name is
the name of an existing `filegroup` rule, nothing is appended. -/
theorem reconcile_appended (flip : Bool) (b : File) (children : List String) :
    (reconcile flip b children).stmt.drop b.stmt.length =
        ((unmatched b children).range flip).map (fun kv => kv.2.Call) ∧
      (reconcile flip b children).stmt.length = b.stmt.length + (unmatched b children).length ∧
      ((reconcile flip b children).stmt.drop b.stmt.length).Perm
        ((unmatched b children).map (fun kv => kv.2.Call)) ∧
      (ruleNames ((reconcile flip b children).stmt.drop b.stmt.length)).Nodup ∧
      (∀ kv, kv ∈ unmatched b children ↔ kv ∈ newRules children ∧
        ¬ ∃ r ∈ b.Rules "filegroup", r.Name = kv.1) ∧
      (∀ kv ∈ unmatched b children,
        asRule "filegroup" kv.2.Call = some kv.2 ∧ kv.2.Name = kv.1 ∧
        kv.2.AttrStrings "tags" = some ["automanaged"] ∧
        ((kv.1 = "srcs" ∧ kv.2.Attr "srcs" = globAll) ∨
          (kv.1 = "recursive-srcs" ∧ children ≠ [] ∧
            kv.2.Attr "srcs" = Expr.list ((children ++ [":srcs"]).map Expr.str)))) ∧
      ((∀ kv ∈ newRules children, ∃ r ∈ b.Rules "filegroup", r.Name = kv.1) →
        (reconcile flip b children).stmt.length = b.stmt.length) := by
  have hsub : ∀ kv ∈ (unmatched b children).range flip, kv ∈ newRules children :=
    fun kv hkv => ((mem_unmatched b children kv).mp ((range_perm _ flip).mem_iff.mp hkv)).1
  have hlen : (reconcile flip b children).stmt.length =
      b.stmt.length + (unmatched b children).length := by
    rw [reconcile_stmt, List.length_append, scanRules_length, List.length_map,
      (range_perm _ flip).length_eq]
  have hmem : ∀ kv, kv ∈ unmatched b children ↔ kv ∈ newRules children ∧
      ¬ ∃ r ∈ b.Rules "filegroup", r.Name = kv.1 := by
    intro kv
    rw [mem_unmatched, mem_ruleNames]
  refine ⟨reconcile_drop flip b children, hlen, ?_, ?_, hmem, ?_, ?_⟩
  · rw [reconcile_drop]
    exact (range_perm _ flip).map _
  · rw [reconcile_drop, ruleNames_map_call children _ hsub]
    have h1 : ((unmatched b children).map Prod.fst).Nodup :=
      (newRules_keys_nodup children).sublist ((List.filter_sublist _).map _)
    exact ((range_perm _ flip).map Prod.fst).nodup_iff.mpr h1
  · intro kv hkv
    have h := newRules_wf children kv ((mem_unmatched b children kv).mp hkv).1
    exact ⟨h.1, h.2.1, h.2.2.2.1, h.2.2.2.2⟩
  · intro hall
    have hnil : unmatched b children = [] := by
      apply List.eq_nil_iff_forall_not_mem.mpr
      intro kv hkv
      exact ((hmem kv).mp hkv).2 (hall kv ((hmem kv).mp hkv).1)
    rw [hlen, hnil]
    rfl

/-- C9 at a file that has a `srcs` rule and no `recursive-srcs` rule: one rule is
appended. -/
theorem reconcile_appended_witness :
    (reconcile false ⟨[loadStmt, manualSrcs]⟩ ["//a:srcs"]).stmt =
      [loadStmt, manualSrcs,
        Expr.call (Expr.literal "filegroup")
          [attrE "name" (Expr.str "recursive-srcs"),
            attrE "srcs" (Expr.list [Expr.str "//a:srcs", Expr.str ":srcs"]),
            attrE "tags" tagsE]] ∧
      (reconcile false ⟨[loadStmt, manualSrcs]⟩ ["//a:srcs"]).stmt.length = 2 + 1 :=
  ⟨rfl, (reconcile_appended false ⟨[loadStmt, manualSrcs]⟩ ["//a:srcs"]).2.1⟩

/-- C10. When `fixBuild` returns no error, the file was read and parsed, the data
handed to its one `WriteFile` call is the formatted reconciled representation,
and that representation has a `filegroup` rule named `srcs` and, when the child
labels are non-empty, one named `recursive-srcs`. -/
theorem fixBuild_ensures_rules (env : Env) (path : String) (children : List String)
    (node : FsNode) (h : (fixBuild env path children node).err = none) :
    ∃ content b, readFile node = some content ∧ env.parse path content = some b ∧
      (fixBuild env path children node).writes =
        [⟨path, env.format (reconcile (env.flip path) b children), canWrite node⟩] ∧
      (∃ r ∈ (reconcile (env.flip path) b children).Rules "filegroup", r.Name = "srcs") ∧
      (children ≠ [] →
        ∃ r ∈ (reconcile (env.flip path) b children).Rules "filegroup",
          r.Name = "recursive-srcs") := by
  have key : ∀ (b : File) (kv : String × Rule), kv ∈ newRules children →
      ∃ r ∈ (reconcile (env.flip path) b children).Rules "filegroup", r.Name = kv.1 := by
    intro b kv hkv
    have h1 : kv.1 ∈ ruleNames (reconcile (env.flip path) b children).stmt := by
      rw [ruleNames_reconcile, List.mem_append]
      by_cases hin : kv.1 ∈ ruleNames b.stmt
      · exact Or.inl hin
      · right
        apply List.mem_map.mpr
        exact ⟨kv, (range_perm _ _).mem_iff.mpr ((mem_unmatched b children kv).mpr ⟨hkv, hin⟩),
          rfl⟩
    exact (mem_ruleNames _ _).mp h1
  unfold fixBuild at h ⊢
  cases hread : readFile node with
  | none => simp [hread] at h
  | some content =>
    cases hparse : env.parse path content with
    | none => simp [hread, hparse] at h
    | some b =>
      refine ⟨content, b, rfl, hparse, by simp [hparse], ?_, ?_⟩
      · exact key b ("srcs", (newFilegroupRule "srcs" []).SetAttr "srcs" globAll)
          (by cases children with
            | nil => rw [newRules_nil]; simp
            | cons c cs => rw [newRules_cons]; simp)
      · intro hne
        cases children with
        | nil => exact absurd rfl hne
        | cons c cs =>
          exact key b ("recursive-srcs", newFilegroupRule "recursive-srcs" (c :: cs ++ [":srcs"]))
            (by rw [newRules_cons]; simp)
/-- C10 at an empty, readable build file with one child label. -/
theorem fixBuild_ensures_rules_witness :
    (fixBuild sampleEnv "a/BUILD" ["//a/b:srcs"] (FsNode.file "BUILD" "" true true)).err = none ∧
      ∃ content b, readFile (FsNode.file "BUILD" "" true true) = some content ∧
        sampleEnv.parse "a/BUILD" content = some b ∧
        (fixBuild sampleEnv "a/BUILD" ["//a/b:srcs"] (FsNode.file "BUILD" "" true true)).writes =
          [⟨"a/BUILD", sampleEnv.format (reconcile (sampleEnv.flip "a/BUILD") b ["//a/b:srcs"]),
            canWrite (FsNode.file "BUILD" "" true true)⟩] ∧
        (∃ r ∈ (reconcile (sampleEnv.flip "a/BUILD") b ["//a/b:srcs"]).Rules "filegroup",
          r.Name = "srcs") ∧
        (["//a/b:srcs"] ≠ [] →
          ∃ r ∈ (reconcile (sampleEnv.flip "a/BUILD") b ["//a/b:srcs"]).Rules "filegroup",
            r.Name = "recursive-srcs") :=
  ⟨rfl, fixBuild_ensures_rules sampleEnv "a/BUILD" ["//a/b:srcs"]
    (FsNode.file "BUILD" "" true true) rfl⟩

/-! ## Auxiliary lemmas: the walk -/

theorem walkLoop_nil (env : Env) (root : String) (children : List String) (bf : String) :
    walkLoop env root [] children bf = ⟨Except.ok (children, bf), [], []⟩ := by
  rw [walkLoop]

theorem walkLoop_file (env : Env) (root : String) (n c : String) (r w : Bool)
    (rest : List FsNode) (children : List String) (bf : String) :
    (walkLoop env root (FsNode.file n c r w :: rest) children bf).ret =
      (walkLoop env root rest children
        (if n = "BUILD" ∨ n = "BUILD.bazel" then n else bf)).ret := by
  rw [walkLoop]
  simp [FsNode.name]

theorem walkLoop_dir (env : Env) (root : String) (n : String) (es : List FsNode) (l : Bool)
    (rest : List FsNode) (children : List String) (bf : String) :
    (walkLoop env root (FsNode.dir n es l :: rest) children bf).ret =
      match (walkTree env (env.join root n) (FsNode.dir n es l)).ret with
      | Except.error e => Except.error e
      | Except.ok c =>
        (walkLoop env root rest (children ++ c)
          (if n = "BUILD" ∨ n = "BUILD.bazel" then n else bf)).ret := by
  rw [walkLoop]
  simp only [FsNode.name]
  cases (walkTree env (env.join root n) (FsNode.dir n es l)).ret <;> rfl

theorem walkLoop_ok (env : Env) (root : String) (entries : List FsNode)
    (children : List String) (bf : String) (c' : List String) (bf' : String)
    (h : (walkLoop env root entries children bf).ret = Except.ok (c', bf')) :
    ∃ ls : List (List String), subWalks env root entries = ls.map Except.ok ∧
      c' = children ++ ls.flatten ∧ bf' = selectBuild bf entries := by
  induction entries generalizing children bf with
  | nil =>
    rw [walkLoop_nil] at h
    simp only [Except.ok.injEq, Prod.mk.injEq] at h
    exact ⟨[], rfl, by simp [h.1], h.2.symm⟩
  | cons f rest ih =>
    cases f with
    | file n c r w =>
      rw [walkLoop_file] at h
      obtain ⟨ls, h1, h2, h3⟩ := ih _ _ h
      exact ⟨ls, by simpa [subWalks, FsNode.IsDir] using h1, h2, by
        simpa [selectBuild, FsNode.name] using h3⟩
    | dir n es l =>
      rw [walkLoop_dir] at h
      cases hsub : (walkTree env (env.join root n) (FsNode.dir n es l)).ret with
      | error e => simp [hsub] at h
      | ok c =>
        simp only [hsub] at h
        obtain ⟨ls, h1, h2, h3⟩ := ih _ _ h
        refine ⟨c :: ls, ?_, ?_, ?_⟩
        · simp only [subWalks, FsNode.IsDir, List.filter_cons_of_pos, List.map_cons,
            FsNode.name, hsub]
          exact congrArg _ h1
        · simp [h2, List.append_assoc]
        · simpa [selectBuild, FsNode.name] using h3

theorem selectBuild_eq_empty (bf : String) (entries : List FsNode) :
    selectBuild bf entries = "" ↔ bf = "" ∧ ownsBuild entries = false := by
  induction entries generalizing bf with
  | nil => simp [selectBuild, ownsBuild]
  | cons f rest ih =>
    have hstep : selectBuild bf (f :: rest) =
        selectBuild (if f.name = "BUILD" ∨ f.name = "BUILD.bazel" then f.name else bf) rest := rfl
    have hown : ownsBuild (f :: rest) =
        (decide (f.name = "BUILD" ∨ f.name = "BUILD.bazel") || ownsBuild rest) := rfl
    rw [hstep, ih, hown]
    by_cases hf : f.name = "BUILD" ∨ f.name = "BUILD.bazel"
    · have hne : f.name ≠ "" := by
        rcases hf with h | h <;> rw [h] <;> decide
      simp only [hf, if_true, decide_True, Bool.true_or]
      constructor
      · intro h; exact absurd h.1 hne
      · intro h; cases h.2
    · simp only [hf, if_false, decide_False, Bool.false_or]

theorem walkTree_dir_ret (env : Env) (root n : String) (entries : List FsNode) :
    (walkTree env root (FsNode.dir n entries true)).ret =
      match (walkLoop env root entries [] "").ret with
      | Except.error e => Except.error e
      | Except.ok (children, buildFile) =>
        if buildFile = "" then Except.ok children
        else
          match findNamed buildFile (walkLoop env root entries [] "").entries with
          | none => Except.error (Err.read (env.join root buildFile))
          | some cell =>
            match (fixBuild env (env.join root buildFile) children cell).err with
            | some e => Except.error e
            | none =>
              Except.ok ["//" ++ root ++ ":" ++
                (if children.length > 0 then "recursive-srcs" else "srcs")] := by
  rw [walkTree]
  simp only [Bool.true_eq_false, if_false]
  cases hl : (walkLoop env root entries [] "").ret with
  | error e => rfl
  | ok p =>
    obtain ⟨children, bf⟩ := p
    simp only
    by_cases hbf : bf = ""
    · simp [hbf]
    · simp only [hbf, if_false]
      cases hfind : findNamed bf (walkLoop env root entries [] "").entries with
      | none => rfl
      | some cell =>
        simp only
        cases (fixBuild env (env.join root bf) children cell).err <;> rfl

theorem walkTree_not_listable (env : Env) (root n : String) (entries : List FsNode) :
    (walkTree env root (FsNode.dir n entries false)).ret = Except.error (Err.listing root) := by
  rw [walkTree]
  rfl

theorem walkTree_file (env : Env) (root n c : String) (r w : Bool) :
    (walkTree env root (FsNode.file n c r w)).ret = Except.error (Err.listing root) := by
  rw [walkTree]

/-- What a successful walk of a directory returns, in terms of the walks of its
subdirectories. -/
theorem walkTree_ok (env : Env) (root n : String) (entries : List FsNode) (listable : Bool)
    (labels : List String)
    (h : (walkTree env root (FsNode.dir n entries listable)).ret = Except.ok labels) :
    ∃ ls : List (List String), subWalks env root entries = ls.map Except.ok ∧
      (ownsBuild entries = false → labels = ls.flatten) ∧
      (ownsBuild entries = true →
        labels = ["//" ++ root ++ ":" ++
          (if ls.flatten.length > 0 then "recursive-srcs" else "srcs")]) := by
  cases listable with
  | false => rw [walkTree_not_listable] at h; cases h
  | true =>
    rw [walkTree_dir_ret] at h
    cases hl : (walkLoop env root entries [] "").ret with
    | error e => simp [hl] at h
    | ok p =>
      obtain ⟨children, bf⟩ := p
      obtain ⟨ls, h1, h2, h3⟩ := walkLoop_ok env root entries [] "" children bf hl
      simp only [List.nil_append] at h2
      refine ⟨ls, h1, ?_, ?_⟩
      · intro hown
        have hbf : bf = "" := by
          rw [h3]
          exact (selectBuild_eq_empty "" entries).mpr ⟨rfl, hown⟩
        simp only [hl, hbf, if_true, Except.ok.injEq] at h
        rw [← h, h2]
      · intro hown
        have hbf : bf ≠ "" := by
          rw [h3]
          intro hc
          have := ((selectBuild_eq_empty "" entries).mp hc).2
          rw [hown] at this
          cases this
        simp only [hl, hbf, if_false] at h
        cases hfind : findNamed bf (walkLoop env root entries [] "").entries with
        | none => simp [hfind] at h
        | some cell =>
          simp only [hfind] at h
          cases herr : (fixBuild env (env.join root bf) children cell).err with
          | some e => simp [herr] at h
          | none =>
            simp only [herr, Except.ok.injEq] at h
            rw [← h, h2]

theorem label_path_inj (p q t t' : String)
    (ht : t = "srcs" ∨ t = "recursive-srcs") (ht' : t' = "srcs" ∨ t' = "recursive-srcs")
    (h : "//" ++ q ++ ":" ++ t = "//" ++ p ++ ":" ++ t') : q = p := by
  have hd := congrArg String.data h
  simp only [String.data_append] at hd
  have hrec : "recursive-srcs".data = "recursive".data ++ "-".data ++ "srcs".data := by decide
  have key : ∀ a b : List Char,
      a ++ ":".data ++ "srcs".data = b ++ ":".data ++ "recursive-srcs".data → False := by
    intro a b hab
    rw [hrec, ← List.append_assoc, ← List.append_assoc] at hab
    have h1 := List.append_cancel_right hab
    have h2 := (List.append_inj' h1 (by decide)).2
    exact absurd h2 (by decide)
  have same : ∀ s : String, "//".data ++ q.data ++ ":".data ++ s.data =
      "//".data ++ p.data ++ ":".data ++ s.data → q = p := by
    intro s hs
    have h1 := List.append_cancel_right (List.append_cancel_right hs)
    have h2 := List.append_cancel_left h1
    exact String.ext h2
  rcases ht with ht | ht <;> rcases ht' with ht' | ht' <;> subst ht <;> subst ht'
  · exact same _ hd
  · exact (key _ _ hd).elim
  · exact (key _ _ hd.symm).elim
  · exact same _ hd

mutual
theorem walkTree_label_form (env : Env) : ∀ (node : FsNode) (root : String)
    (labels : List String), (walkTree env root node).ret = Except.ok labels →
    ∀ l ∈ labels, ∃ q ∈ nodePaths env root node, ∃ t,
      (t = "srcs" ∨ t = "recursive-srcs") ∧ l = "//" ++ q ++ ":" ++ t
  | FsNode.file n c r w, root, labels, h => by
    rw [walkTree_file] at h
    cases h
  | FsNode.dir n entries listable, root, labels, h => by
    intro l hl
    obtain ⟨ls, h1, h2, h3⟩ := walkTree_ok env root n entries listable labels h
    cases hown : ownsBuild entries with
    | false =>
      rw [h2 hown] at hl
      obtain ⟨q, hq, t, ht, hlq⟩ := subWalks_label_form env entries root ls h1 l hl
      exact ⟨q, by rw [nodePaths]; exact List.mem_cons_of_mem _ hq, t, ht, hlq⟩
    | true =>
      rw [h3 hown, List.mem_singleton] at hl
      refine ⟨root, by rw [nodePaths]; exact List.mem_cons_self _ _,
        if ls.flatten.length > 0 then "recursive-srcs" else "srcs", ?_, hl⟩
      split
      · exact Or.inr rfl
      · exact Or.inl rfl
theorem subWalks_label_form (env : Env) : ∀ (entries : List FsNode) (root : String)
    (ls : List (List String)), subWalks env root entries = ls.map Except.ok →
    ∀ l ∈ ls.flatten, ∃ q ∈ entriesPaths env root entries, ∃ t,
      (t = "srcs" ∨ t = "recursive-srcs") ∧ l = "//" ++ q ++ ":" ++ t
  | [], root, ls, h => by
    intro l hl
    cases ls with
    | nil => simp at hl
    | cons a rest => simp [subWalks] at h
  | f :: rest, root, ls, h => by
    intro l hl
    cases hd : f.IsDir with
    | false =>
      have hsw : subWalks env root (f :: rest) = subWalks env root rest := by
        simp [subWalks, hd]
      rw [hsw] at h
      obtain ⟨q, hq, t, ht, hlq⟩ := subWalks_label_form env rest root ls h l hl
      exact ⟨q, by rw [entriesPaths]; exact List.mem_append_right _ hq, t, ht, hlq⟩
    | true =>
      have hsw : subWalks env root (f :: rest) =
          (walkTree env (env.join root f.name) f).ret :: subWalks env root rest := by
        simp [subWalks, hd]
      rw [hsw] at h
      cases ls with
      | nil => simp at h
      | cons a ls' =>
        simp only [List.map_cons, List.cons.injEq] at h
        simp only [List.flatten_cons, List.mem_append] at hl
        rcases hl with hl | hl
        · obtain ⟨q, hq, t, ht, hlq⟩ :=
            walkTree_label_form env f (env.join root f.name) a h.1 l hl
          exact ⟨q, by rw [entriesPaths]; exact List.mem_append_left _ hq, t, ht, hlq⟩
        · obtain ⟨q, hq, t, ht, hlq⟩ := subWalks_label_form env rest root ls' h.2 l hl
          exact ⟨q, by rw [entriesPaths]; exact List.mem_append_right _ hq, t, ht, hlq⟩
end

mutual
theorem walkTree_nil_iff (env : Env) : ∀ (node : FsNode) (root : String)
    (labels : List String), (walkTree env root node).ret = Except.ok labels →
    (labels = [] ↔ treeOwns node = false)
  | FsNode.file n c r w, root, labels, h => by
    rw [walkTree_file] at h
    cases h
  | FsNode.dir n entries listable, root, labels, h => by
    obtain ⟨ls, h1, h2, h3⟩ := walkTree_ok env root n entries listable labels h
    have ih := subWalks_nil_iff env entries root ls h1
    rw [treeOwns]
    cases hown : ownsBuild entries with
    | false =>
      rw [h2 hown, Bool.false_or]
      exact ih
    | true =>
      rw [h3 hown]
      simp
theorem subWalks_nil_iff (env : Env) : ∀ (entries : List FsNode) (root : String)
    (ls : List (List String)), subWalks env root entries = ls.map Except.ok →
    (ls.flatten = [] ↔ descOwns entries = false)
  | [], root, ls, h => by
    cases ls with
    | nil => simp [descOwns]
    | cons a rest => simp [subWalks] at h
  | FsNode.file n c r w :: rest, root, ls, h => by
    have hsw : subWalks env root (FsNode.file n c r w :: rest) = subWalks env root rest := by
      simp [subWalks, FsNode.IsDir]
    rw [hsw] at h
    rw [descOwns, treeOwns, Bool.false_or]
    exact subWalks_nil_iff env rest root ls h
  | FsNode.dir n es l :: rest, root, ls, h => by
    have hsw : subWalks env root (FsNode.dir n es l :: rest) =
        (walkTree env (env.join root n) (FsNode.dir n es l)).ret :: subWalks env root rest := by
      simp [subWalks, FsNode.IsDir, FsNode.name]
    rw [hsw] at h
    cases ls with
    | nil => simp at h
    | cons a ls' =>
      simp only [List.map_cons, List.cons.injEq] at h
      have h1 := walkTree_nil_iff env (FsNode.dir n es l) (env.join root n) a h.1
      have h2 := subWalks_nil_iff env rest root ls' h.2
      rw [descOwns, List.flatten_cons, List.append_eq_nil, h1, h2, Bool.or_eq_false_iff]
end

theorem subWalks_mem_ok (env : Env) (root : String) (entries : List FsNode)
    (ls : List (List String)) (h : subWalks env root entries = ls.map Except.ok)
    (f : FsNode) (hf : f ∈ entries) (hd : f.IsDir = true) :
    ∃ l, (walkTree env (env.join root f.name) f).ret = Except.ok l := by
  have hmem : (walkTree env (env.join root f.name) f).ret ∈ subWalks env root entries := by
    unfold subWalks
    exact List.mem_map.mpr ⟨f, List.mem_filter.mpr ⟨hf, hd⟩, rfl⟩
  rw [h] at hmem
  obtain ⟨l, _, hl⟩ := List.mem_map.mp hmem
  exact ⟨l, hl.symm⟩

theorem reaches_ok (env : Env) (p : String) (t : FsNode) (q : String) (d : FsNode)
    (hr : Reaches env p t q d) :
    ∀ L, (walkTree env p t).ret = Except.ok L → ∃ L', (walkTree env q d).ret = Except.ok L' := by
  induction hr with
  | here p t => exact fun L h => ⟨L, h⟩
  | step p n entries listable f q d hf hd _ ih =>
    intro L hL
    obtain ⟨ls, h1, _, _⟩ := walkTree_ok env p n entries listable L hL
    obtain ⟨l, hl⟩ := subWalks_mem_ok env p entries ls h1 f hf hd
    exact ih l hl

theorem label_name_ne (q : String) : "//" ++ q ++ ":" ++ "srcs" ≠ "//" ++ q ++ ":" ++ "recursive-srcs" := by
  intro h
  have hd := congrArg String.data h
  simp only [String.data_append] at hd
  exact absurd (List.append_cancel_left hd) (by decide)

theorem label_srcs_eq (q : String) : "//" ++ q ++ ":" ++ "srcs" = "//" ++ q ++ ":srcs" := by
  rw [String.append_assoc _ ":" "srcs"]
  rfl

theorem label_rec_eq (q : String) :
    "//" ++ q ++ ":" ++ "recursive-srcs" = "//" ++ q ++ ":recursive-srcs" := by
  rw [String.append_assoc _ ":" "recursive-srcs"]
  rfl

theorem own_label_nil (q : String) (k : List String) (h : k = []) :
    ("//" ++ q ++ ":" ++ if k.length > 0 then "recursive-srcs" else "srcs") =
      "//" ++ q ++ ":srcs" := by
  subst h
  exact label_srcs_eq q

theorem own_label_cons (q : String) (k : List String) (h : k ≠ []) :
    ("//" ++ q ++ ":" ++ if k.length > 0 then "recursive-srcs" else "srcs") =
      "//" ++ q ++ ":recursive-srcs" := by
  have hpos : k.length > 0 := List.length_pos.mpr h
  simp only [hpos, if_true]
  exact label_rec_eq q

/-! ## Auxiliary lemmas: paths built by `filepath.Join` -/

theorem splitSlash_ne_nil (x : List Char) : splitSlash x ≠ [] := by
  cases x with
  | nil => simp [splitSlash]
  | cons c cs =>
    rw [splitSlash]
    split
    · simp
    · split <;> simp

theorem splitSlash_append (x y : List Char) :
    splitSlash (x ++ '/' :: y) = splitSlash x ++ splitSlash y := by
  induction x with
  | nil => simp [splitSlash]
  | cons a x ih =>
    rw [List.cons_append, splitSlash, splitSlash, ih]
    by_cases ha : a = '/'
    · simp [ha]
    · simp only [ha, if_false]
      cases hx : splitSlash x with
      | nil => exact absurd hx (splitSlash_ne_nil x)
      | cons h t => rfl

theorem splitSlash_noslash (n : List Char) (h : '/' ∉ n) : splitSlash n = [n] := by
  induction n with
  | nil => rfl
  | cons a n ih =>
    have ha : a ≠ '/' := fun e => h (by rw [e]; exact List.mem_cons_self _ _)
    rw [splitSlash, ih (fun hm => h (List.mem_cons_of_mem _ hm))]
    simp [ha]

theorem regularName_iff (n : List Char) :
    regularName n = true ↔ n ≠ [] ∧ '/' ∉ n ∧ n ≠ ['.'] ∧ n ≠ ['.', '.'] := by
  simp [regularName]

theorem cleanStep_regular (rooted : Bool) (out : List (List Char)) (n : List Char)
    (h : regularName n = true) : cleanStep rooted out n = out ++ [n] := by
  obtain ⟨h1, _, h3, h4⟩ := (regularName_iff n).mp h
  simp [cleanStep, h1, h3, h4]

theorem foldl_cleanStep_regular (rooted : Bool) (acc comps : List (List Char))
    (h : ∀ n ∈ comps, regularName n = true) :
    comps.foldl (cleanStep rooted) acc = acc ++ comps := by
  induction comps generalizing acc with
  | nil => simp
  | cons n rest ih =>
    rw [List.foldl_cons, cleanStep_regular rooted acc n (h n (List.mem_cons_self _ _)),
      ih _ (fun m hm => h m (List.mem_cons_of_mem _ hm))]
    simp

theorem splitSlash_joinSlash (out : List (List Char)) (hne : out ≠ [])
    (h : ∀ n ∈ out, regularName n = true) : splitSlash (joinSlash out) = out := by
  induction out with
  | nil => exact absurd rfl hne
  | cons c rest ih =>
    have hc := ((regularName_iff c).mp (h c (List.mem_cons_self _ _))).2.1
    cases rest with
    | nil => exact splitSlash_noslash c hc
    | cons c2 rest2 =>
      have hj : joinSlash (c :: c2 :: rest2) = c ++ '/' :: joinSlash (c2 :: rest2) := rfl
      rw [hj, splitSlash_append, splitSlash_noslash c hc,
        ih (by simp) (fun m hm => h m (List.mem_cons_of_mem _ hm))]
      rfl

theorem joinSlash_ne_nil (out : List (List Char)) (hne : out ≠ [])
    (h : ∀ n ∈ out, regularName n = true) : joinSlash out ≠ [] := by
  intro hj
  have := splitSlash_joinSlash out hne h
  rw [hj] at this
  cases out with
  | nil => exact hne rfl
  | cons c rest =>
    simp only [splitSlash, List.cons.injEq] at this
    exact ((regularName_iff c).mp (h c (List.mem_cons_self _ _))).1 this.1.symm

theorem joinSlash_head (out : List (List Char)) (hne : out ≠ [])
    (h : ∀ n ∈ out, regularName n = true) : (joinSlash out).head? ≠ some '/' := by
  cases out with
  | nil => exact absurd rfl hne
  | cons c rest =>
    obtain ⟨h1, h2, _, _⟩ := (regularName_iff c).mp (h c (List.mem_cons_self _ _))
    cases c with
    | nil => exact absurd rfl h1
    | cons a c' =>
      have ha : a ≠ '/' := fun e => h2 (by rw [e]; exact List.mem_cons_self _ _)
      cases rest with
      | nil => simpa [joinSlash] using ha
      | cons c2 rest2 => simpa [joinSlash] using ha

/-- Cleaning the text of a cleaned path gives back its components. -/
theorem components_renderPath (rooted : Bool) (out : List (List Char))
    (h : ∀ n ∈ out, regularName n = true) :
    (splitSlash (renderPath rooted out)).foldl (cleanStep rooted) [] = out := by
  cases rooted with
  | true =>
    have hr : renderPath true out = [] ++ '/' :: joinSlash out := rfl
    rw [hr, splitSlash_append]
    cases out with
    | nil => simp [splitSlash, joinSlash, cleanStep]
    | cons c rest =>
      rw [splitSlash_joinSlash _ (by simp) h]
      have h0 : splitSlash [] = [[]] := rfl
      rw [h0, List.singleton_append, List.foldl_cons]
      have h1 : cleanStep true [] [] = [] := by simp [cleanStep]
      rw [h1, foldl_cleanStep_regular true [] _ h]
      rfl
  | false =>
    cases out with
    | nil => simp [renderPath, splitSlash, cleanStep]
    | cons c rest =>
      have hr : renderPath false (c :: rest) = joinSlash (c :: rest) := by simp [renderPath]
      rw [hr, splitSlash_joinSlash _ (by simp) h, foldl_cleanStep_regular false [] _ h]
      rfl

theorem renderPath_ne_nil (rooted : Bool) (out : List (List Char))
    (h : ∀ n ∈ out, regularName n = true) : renderPath rooted out ≠ [] := by
  cases rooted with
  | true => simp [renderPath]
  | false =>
    cases out with
    | nil => simp [renderPath]
    | cons c rest =>
      have hr : renderPath false (c :: rest) = joinSlash (c :: rest) := by simp [renderPath]
      rw [hr]
      exact joinSlash_ne_nil _ (by simp) h

theorem renderPath_head (rooted : Bool) (out : List (List Char))
    (h : ∀ n ∈ out, regularName n = true) :
    decide ((renderPath rooted out).head? = some '/') = rooted := by
  cases rooted with
  | true => simp [renderPath]
  | false =>
    cases out with
    | nil => simp [renderPath]
    | cons c rest =>
      have hr : renderPath false (c :: rest) = joinSlash (c :: rest) := by simp [renderPath]
      rw [hr]
      simpa using joinSlash_head _ (by simp) h

/-- Joining a regular name to a cleaned path without `..` appends one
component. -/
theorem goJoin_renderPath (rooted : Bool) (out : List (List Char)) (n : String)
    (h : ∀ m ∈ out, regularName m = true) (hn : regularName n.data = true) :
    goJoin ⟨renderPath rooted out⟩ n = ⟨renderPath rooted (out ++ [n.data])⟩ := by
  have hne := renderPath_ne_nil rooted out h
  have hp : (String.mk (renderPath rooted out)) ≠ "" := by
    intro e
    exact hne (congrArg String.data e)
  have hdata : (String.mk (renderPath rooted out) ++ "/" ++ n).data =
      renderPath rooted out ++ '/' :: n.data := by
    simp [String.data_append]
  unfold goJoin
  rw [if_pos hp, hdata]
  congr 1
  unfold cleanChars
  have hne2 : renderPath rooted out ++ '/' :: n.data ≠ [] := by simp
  rw [if_neg hne2]
  have hhead : (renderPath rooted out ++ '/' :: n.data).head? = (renderPath rooted out).head? := by
    cases hr : renderPath rooted out with
    | nil => exact absurd hr hne
    | cons a r => rfl
  simp only [hhead, renderPath_head rooted out h]
  rw [splitSlash_append, List.foldl_append, components_renderPath rooted out h,
    splitSlash_noslash _ ((regularName_iff _).mp hn).2.1, List.foldl_cons, List.foldl_nil,
    cleanStep_regular rooted out _ hn]

theorem renderPath_inj (rooted : Bool) (out out' : List (List Char))
    (h : ∀ n ∈ out, regularName n = true) (h' : ∀ n ∈ out', regularName n = true)
    (e : renderPath rooted out = renderPath rooted out') : out = out' := by
  rw [← components_renderPath rooted out h, ← components_renderPath rooted out' h', e]

mutual
theorem nodePaths_goJoin (env : Env) (hj : env.join = goJoin) : ∀ (node : FsNode)
    (rooted : Bool) (out : List (List Char)), (∀ n ∈ out, regularName n = true) →
    wellNamed node = true → ∀ q ∈ nodePaths env ⟨renderPath rooted out⟩ node,
    ∃ names : List (List Char), (∀ n ∈ names, regularName n = true) ∧
      q = ⟨renderPath rooted (out ++ names)⟩
  | FsNode.file n c r w, rooted, out, _, _ => by
    intro q hq
    simp [nodePaths] at hq
  | FsNode.dir n entries l, rooted, out, hout, hw => by
    intro q hq
    rw [nodePaths, List.mem_cons] at hq
    rw [wellNamed] at hw
    rcases hq with hq | hq
    · exact ⟨[], by simp, by rw [hq, List.append_nil]⟩
    · obtain ⟨names, _, h2, h3⟩ := entriesPaths_goJoin env hj entries rooted out hout hw q hq
      exact ⟨names, h2, h3⟩
theorem entriesPaths_goJoin (env : Env) (hj : env.join = goJoin) : ∀ (entries : List FsNode)
    (rooted : Bool) (out : List (List Char)), (∀ n ∈ out, regularName n = true) →
    wellNamedList entries = true → ∀ q ∈ entriesPaths env ⟨renderPath rooted out⟩ entries,
    ∃ names : List (List Char), names ≠ [] ∧ (∀ n ∈ names, regularName n = true) ∧
      q = ⟨renderPath rooted (out ++ names)⟩
  | [], rooted, out, _, _ => by
    intro q hq
    simp [entriesPaths] at hq
  | f :: rest, rooted, out, hout, hw => by
    intro q hq
    rw [wellNamedList, Bool.and_eq_true, Bool.and_eq_true] at hw
    obtain ⟨⟨hname, hf⟩, hrest⟩ := hw
    rw [entriesPaths, List.mem_append] at hq
    rcases hq with hq | hq
    · rw [hj, goJoin_renderPath rooted out f.name hout hname] at hq
      have hout' : ∀ n ∈ out ++ [f.name.data], regularName n = true := by
        intro m hm
        rcases List.mem_append.mp hm with h | h
        · exact hout m h
        · rw [List.mem_singleton.mp h]; exact hname
      obtain ⟨names, h2, h3⟩ :=
        nodePaths_goJoin env hj f rooted (out ++ [f.name.data]) hout' hf q hq
      refine ⟨f.name.data :: names, by simp, ?_, by rw [h3, List.append_assoc]; rfl⟩
      intro m hm
      rcases List.mem_cons.mp hm with h | h
      · rw [h]; exact hname
      · exact h2 m h
    · exact entriesPaths_goJoin env hj rest rooted out hout hrest q hq
end

/-- With Go's `filepath.Join`, no directory below a cleaned path without `..` is
visited under that path itself, in a tree whose entry names are names a listing
can hold. -/
theorem root_not_below (env : Env) (hj : env.join = goJoin) (rooted : Bool)
    (out : List (List Char)) (entries : List FsNode)
    (hout : ∀ n ∈ out, regularName n = true) (hw : wellNamedList entries = true) :
    (⟨renderPath rooted out⟩ : String) ∉ entriesPaths env ⟨renderPath rooted out⟩ entries := by
  intro hin
  obtain ⟨names, h1, h2, h3⟩ := entriesPaths_goJoin env hj entries rooted out hout hw _ hin
  have hall : ∀ n ∈ out ++ names, regularName n = true := by
    intro m hm
    rcases List.mem_append.mp hm with h | h
    · exact hout m h
    · exact h2 m h
  have := renderPath_inj rooted out (out ++ names) hout hall (congrArg String.data h3)
  exact h1 (List.append_right_eq_self.mp this.symm)

/-! ## The walk: the labels it returns -/

/-- C1. A successful `walkTree` on a directory that owns a build file returns
exactly one label: `//p:srcs` when the labels collected from the subdirectories
are empty and `//p:recursive-srcs` when they are not.  The collected labels are
not passed on: when no directory below `p` is visited under the path `p` itself
(which `root_not_below` shows for `filepath.Join`), none of them occurs in the
result. -/
theorem walkTree_build_dir (env : Env) (p n : String) (entries : List FsNode)
    (listable : Bool) (labels : List String)
    (hown : ownsBuild entries = true)
    (hok : (walkTree env p (FsNode.dir n entries listable)).ret = Except.ok labels) :
    ∃ ls : List (List String), subWalks env p entries = ls.map Except.ok ∧
      (ls.flatten = [] → labels = ["//" ++ p ++ ":srcs"]) ∧
      (ls.flatten ≠ [] → labels = ["//" ++ p ++ ":recursive-srcs"]) ∧
      labels.length = 1 ∧
      (p ∉ entriesPaths env p entries → ∀ l ∈ ls.flatten, l ∉ labels) := by
  obtain ⟨ls, h1, _, h3⟩ := walkTree_ok env p n entries listable labels hok
  have hl := h3 hown
  refine ⟨ls, h1, ?_, ?_, by rw [hl]; rfl, ?_⟩
  · intro hnil
    rw [hl, own_label_nil p _ hnil]
  · intro hne
    rw [hl, own_label_cons p _ hne]
  · intro hp l hmem hin
    obtain ⟨q, hq, t, ht, hlq⟩ := subWalks_label_form env entries p ls h1 l hmem
    rw [hl, List.mem_singleton, hlq] at hin
    have hqp : q = p := by
      refine label_path_inj p q t _ ht ?_ hin
      split
      · exact Or.inr rfl
      · exact Or.inl rfl
    rw [hqp] at hq
    exact hp hq

/-- C1 at the root of `sampleTree`, walked from the path `.` as `main` does. -/
theorem walkTree_build_dir_witness :
    (walkTree sampleEnv "." sampleTree).ret = Except.ok ["//.:recursive-srcs"] ∧
      entriesPaths sampleEnv "."
        [emptyBuild,
          FsNode.dir "a" [emptyBuild, FsNode.file "x.go" "package a" true true] true,
          FsNode.dir "docs" [FsNode.file "README" "hello" true true] true]
        = ["a", "docs"] ∧
      ∃ ls : List (List String),
        subWalks sampleEnv "."
          [emptyBuild,
            FsNode.dir "a" [emptyBuild, FsNode.file "x.go" "package a" true true] true,
            FsNode.dir "docs" [FsNode.file "README" "hello" true true] true]
          = ls.map Except.ok ∧
        (ls.flatten = [] → ["//.:recursive-srcs"] = ["//" ++ "." ++ ":srcs"]) ∧
        (ls.flatten ≠ [] → ["//.:recursive-srcs"] = ["//" ++ "." ++ ":recursive-srcs"]) ∧
        ["//.:recursive-srcs"].length = 1 ∧
        ("." ∉ entriesPaths sampleEnv "."
          [emptyBuild,
            FsNode.dir "a" [emptyBuild, FsNode.file "x.go" "package a" true true] true,
            FsNode.dir "docs" [FsNode.file "README" "hello" true true] true] →
          ∀ l ∈ ls.flatten, l ∉ ["//.:recursive-srcs"]) :=
  ⟨rfl, rfl, walkTree_build_dir sampleEnv "." "" _ true ["//.:recursive-srcs"] rfl rfl⟩

/-- C2. A successful `walkTree` on a directory without a build file returns the
concatenation, in listing order, of the label sequences that `walkTree` returns
on its subdirectories, each of which succeeded. -/
theorem walkTree_transparent_dir (env : Env) (p n : String) (entries : List FsNode)
    (listable : Bool) (labels : List String)
    (hown : ownsBuild entries = false)
    (hok : (walkTree env p (FsNode.dir n entries listable)).ret = Except.ok labels) :
    ∃ ls : List (List String), subWalks env p entries = ls.map Except.ok ∧
      labels = ls.flatten := by
  obtain ⟨ls, h1, h2, _⟩ := walkTree_ok env p n entries listable labels hok
  exact ⟨ls, h1, h2 hown⟩

/-- C2 at `plainRoot`, walked from the path `.`. -/
theorem walkTree_transparent_dir_witness :
    (walkTree sampleEnv "." plainRoot).ret = Except.ok ["//a:srcs", "//b:srcs"] ∧
      ∃ ls : List (List String),
        subWalks sampleEnv "."
          [FsNode.dir "a" [emptyBuild] true, FsNode.dir "b" [emptyBuild] true,
            FsNode.file "notes.txt" "" true true] = ls.map Except.ok ∧
        ["//a:srcs", "//b:srcs"] = ls.flatten :=
  ⟨rfl, walkTree_transparent_dir sampleEnv "." "" _ true ["//a:srcs", "//b:srcs"] rfl rfl⟩

/-- C3. In a tree on which the walk succeeds, the walk of every directory that
is visited and owns a build file succeeds too, and the one label it returns is
named `srcs` exactly when no directory below it owns a build file and
`recursive-srcs` exactly when one does. -/
theorem walkTree_label_name (env : Env) (p : String) (t : FsNode) (L : List String)
    (q n : String) (entries : List FsNode) (listable : Bool)
    (hwalk : (walkTree env p t).ret = Except.ok L)
    (hreach : Reaches env p t q (FsNode.dir n entries listable))
    (hown : ownsBuild entries = true) :
    ∃ labels, (walkTree env q (FsNode.dir n entries listable)).ret = Except.ok labels ∧
      (labels = ["//" ++ q ++ ":srcs"] ↔ descOwns entries = false) ∧
      (labels = ["//" ++ q ++ ":recursive-srcs"] ↔ descOwns entries = true) := by
  obtain ⟨labels, hl⟩ := reaches_ok env p t q _ hreach L hwalk
  obtain ⟨ls, h1, _, h3⟩ := walkTree_ok env q n entries listable labels hl
  have hnil := subWalks_nil_iff env entries q ls h1
  have hlab := h3 hown
  refine ⟨labels, hl, ?_, ?_⟩
  · cases hd : descOwns entries with
    | false =>
      rw [hlab, own_label_nil q _ (hnil.mpr hd)]
      simp
    | true =>
      have hne : ls.flatten ≠ [] := fun h0 => by
        rw [hnil.mp h0] at hd
        cases hd
      rw [hlab, own_label_cons q _ hne]
      simp only [List.cons.injEq, and_true, Bool.true_eq_false, iff_false]
      rw [← label_srcs_eq, ← label_rec_eq]
      exact fun h => label_name_ne q h.symm
  · cases hd : descOwns entries with
    | false =>
      rw [hlab, own_label_nil q _ (hnil.mpr hd)]
      simp only [List.cons.injEq, and_true, Bool.false_eq_true, iff_false]
      rw [← label_srcs_eq, ← label_rec_eq]
      exact label_name_ne q
    | true =>
      have hne : ls.flatten ≠ [] := fun h0 => by
        rw [hnil.mp h0] at hd
        cases hd
      rw [hlab, own_label_cons q _ hne]
      simp

/-- C3 at the subdirectory `a` of `sampleTree`: nothing below it owns a build
file and its label is named `srcs`. -/
theorem walkTree_label_name_witness :
    (walkTree sampleEnv "." sampleTree).ret = Except.ok ["//.:recursive-srcs"] ∧
      ∃ labels,
        (walkTree sampleEnv "a"
          (FsNode.dir "a" [emptyBuild, FsNode.file "x.go" "package a" true true] true)).ret
          = Except.ok labels ∧
        (labels = ["//" ++ "a" ++ ":srcs"] ↔
          descOwns [emptyBuild, FsNode.file "x.go" "package a" true true] = false) ∧
        (labels = ["//" ++ "a" ++ ":recursive-srcs"] ↔
          descOwns [emptyBuild, FsNode.file "x.go" "package a" true true] = true) :=
  ⟨rfl, walkTree_label_name sampleEnv "." sampleTree ["//.:recursive-srcs"] "a" "a"
    [emptyBuild, FsNode.file "x.go" "package a" true true] true rfl
    (Reaches.step "." "" _ true
      (FsNode.dir "a" [emptyBuild, FsNode.file "x.go" "package a" true true] true) "a" _
      (by simp [sampleTree]) rfl (Reaches.here _ _))
    rfl⟩

/-! ## The walk: trees without build files -/

/-- C13. A successful `walkTree` on a directory that owns no build file and
below which no directory owns one returns no label. -/
theorem walkTree_no_build_empty (env : Env) (p n : String) (entries : List FsNode)
    (listable : Bool) (labels : List String)
    (hown : ownsBuild entries = false) (hdesc : descOwns entries = false)
    (hok : (walkTree env p (FsNode.dir n entries listable)).ret = Except.ok labels) :
    labels = [] := by
  apply (walkTree_nil_iff env (FsNode.dir n entries listable) p labels hok).mpr
  rw [treeOwns, hown, hdesc]
  rfl

/-- C13 at a tree of two directories and a text file, without any build file. -/
theorem walkTree_no_build_empty_witness :
    (walkTree sampleEnv "."
        (FsNode.dir "" [FsNode.dir "docs" [FsNode.file "README" "hello" true true] true] true)).ret
        = Except.ok [] ∧
      ([] : List String) = [] :=
  ⟨rfl, walkTree_no_build_empty sampleEnv "." ""
    [FsNode.dir "docs" [FsNode.file "README" "hello" true true] true] true [] rfl rfl rfl⟩

/-! ## Reconciliation: rules sharing a name -/

theorem get_delete_none (m : RuleMap) (n k : String) (h : m.get n = none) :
    (m.delete k).get n = none :=
  (get_eq_none_iff _ n).mpr fun kv hkv =>
    (get_eq_none_iff m n).mp h kv (mem_delete m k kv hkv)

theorem get_delete_self (m : RuleMap) (n : String) : (m.delete n).get n = none := by
  apply (get_eq_none_iff _ n).mpr
  intro kv hkv
  have := (List.mem_filter.mp hkv).2
  simpa using this

theorem scanRules_absent (m : RuleMap) (stmts : List Expr) (i : Nat) (s : Expr) (r : Rule)
    (hs : stmts[i]? = some s) (hr : asRule "filegroup" s = some r)
    (hg : m.get r.Name = none) : (scanRules m stmts).1[i]? = some s := by
  induction stmts generalizing m i with
  | nil => simp at hs
  | cons s0 rest ih =>
    cases hr0 : asRule "filegroup" s0 with
    | none =>
      rw [scanRules_cons_none m s0 rest hr0]
      cases i with
      | zero => simpa using hs
      | succ k =>
        simp only [List.getElem?_cons_succ] at hs ⊢
        exact ih m k hs hg
    | some r0 =>
      cases hg0 : m.get r0.Name with
      | none =>
        rw [scanRules_cons_miss m s0 rest r0 hr0 hg0]
        cases i with
        | zero => simpa using hs
        | succ k =>
          simp only [List.getElem?_cons_succ] at hs ⊢
          exact ih m k hs hg
      | some nr =>
        rw [scanRules_cons_hit m s0 rest r0 nr hr0 hg0]
        cases i with
        | zero =>
          simp only [List.getElem?_cons_zero, Option.some.injEq] at hs
          subst hs
          rw [hr] at hr0
          cases hr0
          rw [hg] at hg0
          cases hg0
        | succ k =>
          simp only [List.getElem?_cons_succ] at hs ⊢
          exact ih (m.delete r0.Name) k hs (get_delete_none m _ _ hg)

theorem scanRules_later (m : RuleMap) (stmts : List Expr) (i j : Nat) (s s' : Expr)
    (r r' : Rule) (hj : stmts[j]? = some s') (hr' : asRule "filegroup" s' = some r')
    (hi : stmts[i]? = some s) (hr : asRule "filegroup" s = some r)
    (hji : j < i) (hname : r'.Name = r.Name) : (scanRules m stmts).1[i]? = some s := by
  induction stmts generalizing m i j with
  | nil => simp at hi
  | cons s0 rest ih =>
    cases i with
    | zero => omega
    | succ k =>
      simp only [List.getElem?_cons_succ] at hi
      cases j with
      | zero =>
        simp only [List.getElem?_cons_zero, Option.some.injEq] at hj
        subst hj
        cases hg0 : m.get r'.Name with
        | none =>
          rw [scanRules_cons_miss m s0 rest r' hr' hg0]
          simp only [List.getElem?_cons_succ]
          exact scanRules_absent m rest k s r hi hr (by rw [← hname]; exact hg0)
        | some nr =>
          rw [scanRules_cons_hit m s0 rest r' nr hr' hg0]
          simp only [List.getElem?_cons_succ]
          exact scanRules_absent _ rest k s r hi hr (by rw [← hname]; exact get_delete_self m _)
      | succ j' =>
        simp only [List.getElem?_cons_succ] at hj
        have hlt : j' < k := Nat.lt_of_succ_lt_succ hji
        cases hr0 : asRule "filegroup" s0 with
        | none =>
          rw [scanRules_cons_none m s0 rest hr0]
          simp only [List.getElem?_cons_succ]
          exact ih m k j' hj hi hlt
        | some r0 =>
          cases hg0 : m.get r0.Name with
          | none =>
            rw [scanRules_cons_miss m s0 rest r0 hr0 hg0]
            simp only [List.getElem?_cons_succ]
            exact ih m k j' hj hi hlt
          | some nr =>
            rw [scanRules_cons_hit m s0 rest r0 nr hr0 hg0]
            simp only [List.getElem?_cons_succ]
            exact ih _ k j' hj hi hlt

/-- C18. Of several `filegroup` rules with the same name only the first one in
statement order is looked at.  A rule that comes after a `filegroup` rule of the
same name is the same statement after reconciliation, managed or not, and no
rule of that name is appended; the first rule of a desired name is patched when
it is managed and kept as it is otherwise. -/
theorem reconcile_first_only (flip : Bool) (b : File) (children : List String) (i j : Nat)
    (s s' : Expr) (r r' : Rule)
    (hj : b.stmt[j]? = some s') (hr' : asRule "filegroup" s' = some r')
    (hi : b.stmt[i]? = some s) (hr : asRule "filegroup" s = some r)
    (hji : j < i) (hname : r'.Name = r.Name) :
    (reconcile flip b children).stmt[i]? = some s ∧
      r.Name ∉ ruleNames ((reconcile flip b children).stmt.drop b.stmt.length) ∧
      ∀ nr, (newRules children).get r'.Name = some nr →
        (∀ k s'' r'', k < j → b.stmt[k]? = some s'' → asRule "filegroup" s'' = some r'' →
          r''.Name ≠ r'.Name) →
        (reconcile flip b children).stmt[j]? =
          some (if RuleIsManaged r' then (r'.SetAttr "srcs" (nr.Attr "srcs")).Call else s') := by
  have hilt : i < b.stmt.length := (List.getElem?_eq_some.mp hi).1
  have hjlt : j < b.stmt.length := (List.getElem?_eq_some.mp hj).1
  refine ⟨?_, ?_, ?_⟩
  · rw [reconcile_getElem_lt flip b children i hilt]
    exact scanRules_later _ b.stmt i j s s' r r' hj hr' hi hr hji hname
  · have hmem : r.Name ∈ ruleNames b.stmt := by
      simp only [ruleNames, List.mem_map, List.mem_filterMap]
      exact ⟨r, ⟨s, List.getElem?_mem hi, hr⟩, rfl⟩
    rw [reconcile_drop, ruleNames_map_call children _ (fun kv hkv =>
      ((mem_unmatched b children kv).mp ((range_perm _ flip).mem_iff.mp hkv)).1)]
    intro hin
    obtain ⟨kv, hkv, hk⟩ := List.mem_map.mp hin
    have := ((mem_unmatched b children kv).mp ((range_perm _ flip).mem_iff.mp hkv)).2
    rw [hk] at this
    exact this hmem
  · intro nr hg hfirst
    rw [reconcile_getElem_lt flip b children j hjlt]
    exact scanRules_first _ b.stmt j s' r' nr hj hr' hg hfirst

/-- C18 at a file with two stale managed `srcs` rules: the second one stays
stale. -/
theorem reconcile_first_only_witness :
    (reconcile false ⟨[staleSrcs, staleSrcsTwin]⟩ []).stmt[1]? = some staleSrcsTwin ∧
      (reconcile false ⟨[staleSrcs, staleSrcsTwin]⟩ []).stmt =
        [Expr.call (Expr.literal "filegroup")
            [attrE "name" (Expr.str "srcs"), attrE "srcs" globAll, attrE "tags" tagsE],
          staleSrcsTwin] :=
  ⟨(reconcile_first_only false ⟨[staleSrcs, staleSrcsTwin]⟩ [] 1 0 staleSrcsTwin staleSrcs
      ⟨Expr.literal "filegroup",
        [attrE "name" (Expr.str "srcs"), attrE "srcs" (Expr.list [Expr.str "older.go"]),
          attrE "tags" tagsE]⟩
      ⟨Expr.literal "filegroup",
        [attrE "name" (Expr.str "srcs"), attrE "srcs" (Expr.list [Expr.str "old.go"]),
          attrE "tags" tagsE]⟩
      rfl rfl rfl rfl (by decide) rfl).1, rfl⟩

/-! ## Reconciliation: the order of the appended rules -/

/-- C14, as stated, fails: on the empty file with one child label both desired
rules are appended, and the two orders in which `range` may visit the working
set give two different statement lists. -/
theorem reconcile_order_not_fixed :
    ¬ (∀ (flip flip' : Bool) (b : File) (children : List String),
        (reconcile flip b children).stmt = (reconcile flip' b children).stmt) := by
  intro h
  have h1 := h false true ⟨[]⟩ ["//a:srcs"]
  have h2 : (reconcile false ⟨[]⟩ ["//a:srcs"]).stmt[0]? =
      some ((newFilegroupRule "srcs" []).SetAttr "srcs" globAll).Call := rfl
  have h3 : (reconcile true ⟨[]⟩ ["//a:srcs"]).stmt[0]? =
      some (newFilegroupRule "recursive-srcs" ["//a:srcs", ":srcs"]).Call := rfl
  rw [h1, h3] at h2
  have h4 := Option.some.inj h2
  simp only [Rule.Call, Expr.call.injEq] at h4
  have h5 := congrArg List.head? h4.2
  have h6 : (newFilegroupRule "recursive-srcs" ["//a:srcs", ":srcs"]).list.head? =
      some (attrE "name" (Expr.str "recursive-srcs")) := rfl
  have h7 : ((newFilegroupRule "srcs" []).SetAttr "srcs" globAll).list.head? =
      some (attrE "name" (Expr.str "srcs")) := rfl
  rw [h6, h7] at h5
  simp only [attrE, Option.some.injEq, Expr.binary.injEq, Expr.str.injEq, and_true,
    true_and] at h5
  exact absurd h5 (by decide)

/-- C14, amended. Whatever the orders in which `range` visits the working set,
two executions on the same file and child labels keep the same statements at
the original indices and append the same rules, so that the results are
permutations of each other; they are equal when at most one rule is appended,
and in any case for the same order of visit. -/
theorem reconcile_order (flip flip' : Bool) (b : File) (children : List String) :
    (reconcile flip b children).stmt.take b.stmt.length =
        (reconcile flip' b children).stmt.take b.stmt.length ∧
      ((reconcile flip b children).stmt.drop b.stmt.length).Perm
        ((reconcile flip' b children).stmt.drop b.stmt.length) ∧
      (reconcile flip b children).stmt.Perm (reconcile flip' b children).stmt ∧
      ((unmatched b children).length ≤ 1 →
        (reconcile flip b children).stmt = (reconcile flip' b children).stmt) ∧
      (flip = flip' → (reconcile flip b children).stmt = (reconcile flip' b children).stmt) := by
  have hperm : (((unmatched b children).range flip).map (fun kv => kv.2.Call)).Perm
      (((unmatched b children).range flip').map (fun kv => kv.2.Call)) :=
    ((range_perm _ flip).trans (range_perm _ flip').symm).map _
  refine ⟨?_, ?_, ?_, ?_, ?_⟩
  · rw [reconcile_stmt, reconcile_stmt, ← scanRules_length (newRules children) b.stmt,
      List.take_left, List.take_left]
  · rw [reconcile_drop, reconcile_drop]
    exact hperm
  · rw [reconcile_stmt, reconcile_stmt]
    exact List.Perm.append_left _ hperm
  · intro hlen
    rw [reconcile_stmt, reconcile_stmt]
    have hrange : ∀ f : Bool, (unmatched b children).range f = unmatched b children := by
      intro f
      unfold RuleMap.range
      cases hu : unmatched b children with
      | nil => cases f <;> rfl
      | cons kv rest =>
        cases rest with
        | nil => cases f <;> rfl
        | cons kv' rest' =>
          rw [hu] at hlen
          simp at hlen
    rw [hrange flip, hrange flip']
  · intro hf
    rw [hf]

/-! ## Auxiliary lemmas: the state the loop leaves -/

theorem walkLoop_cons (env : Env) (root : String) (f : FsNode) (rest : List FsNode)
    (children : List String) (bf : String) :
    walkLoop env root (f :: rest) children bf =
      match (if f.IsDir then walkTree env (env.join root f.name) f
          else ⟨Except.ok [], f, []⟩ : WalkResult) with
      | ⟨Except.error e, node, writes⟩ => ⟨Except.error e, node :: rest, writes⟩
      | ⟨Except.ok c, node, writes⟩ =>
        ⟨(walkLoop env root rest (children ++ c)
            (if f.name = "BUILD" ∨ f.name = "BUILD.bazel" then f.name else bf)).ret,
          node :: (walkLoop env root rest (children ++ c)
            (if f.name = "BUILD" ∨ f.name = "BUILD.bazel" then f.name else bf)).entries,
          writes ++ (walkLoop env root rest (children ++ c)
            (if f.name = "BUILD" ∨ f.name = "BUILD.bazel" then f.name else bf)).writes⟩ := by
  cases f with
  | file n c r w =>
    rw [walkLoop]
    simp only [FsNode.IsDir, FsNode.name, Bool.false_eq_true, if_false]
  | dir n es l =>
    rw [walkLoop]
    simp only [FsNode.IsDir, FsNode.name, if_true]
    cases h : walkTree env (env.join root n) (FsNode.dir n es l) with
    | mk ret node writes =>
      cases ret <;> rfl

theorem walkLoop_state (env : Env) (root : String) (entries : List FsNode)
    (children : List String) (bf : String) (c' : List String) (bf' : String)
    (h : (walkLoop env root entries children bf).ret = Except.ok (c', bf')) :
    (walkLoop env root entries children bf).entries = entries.map (stepNode env root) ∧
      (walkLoop env root entries children bf).writes = subWrites env root entries := by
  induction entries generalizing children bf with
  | nil =>
    rw [walkLoop_nil]
    exact ⟨rfl, rfl⟩
  | cons f rest ih =>
    rw [walkLoop_cons] at h ⊢
    cases hd : f.IsDir with
    | false =>
      simp only [hd, Bool.false_eq_true, if_false] at h ⊢
      obtain ⟨h1, h2⟩ := ih _ _ h
      refine ⟨?_, ?_⟩
      · rw [h1, List.map_cons]
        simp [stepNode, hd]
      · rw [h2]
        simp [subWrites, hd]
    | true =>
      simp only [hd, if_true] at h ⊢
      cases hw : walkTree env (env.join root f.name) f with
      | mk ret node writes =>
        cases ret with
        | error e => simp [hw] at h
        | ok c =>
          simp only [hw] at h ⊢
          obtain ⟨h1, h2⟩ := ih _ _ h
          refine ⟨?_, ?_⟩
          · rw [h1, List.map_cons]
            simp [stepNode, hd, hw]
          · rw [h2]
            simp [subWrites, hd, hw]

theorem walkLoop_total (env : Env) (root : String) (entries : List FsNode)
    (children : List String) (bf : String) (ls : List (List String))
    (h : subWalks env root entries = ls.map Except.ok) :
    (walkLoop env root entries children bf).ret =
      Except.ok (children ++ ls.flatten, selectBuild bf entries) := by
  induction entries generalizing children bf ls with
  | nil =>
    cases ls with
    | nil => rw [walkLoop_nil]; simp [selectBuild]
    | cons a rest => simp [subWalks] at h
  | cons f rest ih =>
    rw [walkLoop_cons]
    have hsel : selectBuild bf (f :: rest) =
        selectBuild (if f.name = "BUILD" ∨ f.name = "BUILD.bazel" then f.name else bf) rest := rfl
    cases hd : f.IsDir with
    | false =>
      have hsw : subWalks env root (f :: rest) = subWalks env root rest := by
        simp [subWalks, hd]
      rw [hsw] at h
      simp only [Bool.false_eq_true, if_false, List.append_nil]
      rw [ih _ _ ls h, hsel]
    | true =>
      have hsw : subWalks env root (f :: rest) =
          (walkTree env (env.join root f.name) f).ret :: subWalks env root rest := by
        simp [subWalks, hd]
      rw [hsw] at h
      cases ls with
      | nil => simp at h
      | cons a ls' =>
        simp only [List.map_cons, List.cons.injEq] at h
        simp only [if_true]
        cases hw : walkTree env (env.join root f.name) f with
        | mk ret node writes =>
          rw [hw] at h
          simp only at h
          rw [h.1]
          simp only
          rw [ih _ _ ls' h.2, hsel]
          simp [List.append_assoc]

theorem walkTree_dir_eq (env : Env) (root n : String) (entries : List FsNode) :
    walkTree env root (FsNode.dir n entries true) =
      match (walkLoop env root entries [] "").ret with
      | Except.error e =>
        ⟨Except.error e, FsNode.dir n (walkLoop env root entries [] "").entries true,
          (walkLoop env root entries [] "").writes⟩
      | Except.ok (children, buildFile) =>
        if buildFile = "" then
          ⟨Except.ok children, FsNode.dir n (walkLoop env root entries [] "").entries true,
            (walkLoop env root entries [] "").writes⟩
        else
          match findNamed buildFile (walkLoop env root entries [] "").entries with
          | none =>
            ⟨Except.error (Err.read (env.join root buildFile)),
              FsNode.dir n (walkLoop env root entries [] "").entries true,
              (walkLoop env root entries [] "").writes⟩
          | some cell =>
            ⟨match (fixBuild env (env.join root buildFile) children cell).err with
              | some e => Except.error e
              | none =>
                Except.ok ["//" ++ root ++ ":" ++
                  (if children.length > 0 then "recursive-srcs" else "srcs")],
              FsNode.dir n
                (replaceNamed buildFile (fixBuild env (env.join root buildFile) children cell).node
                  (walkLoop env root entries [] "").entries) true,
              (walkLoop env root entries [] "").writes ++
                (fixBuild env (env.join root buildFile) children cell).writes⟩ := by
  rw [walkTree]
  simp only [Bool.true_eq_false, if_false]
  cases hl : (walkLoop env root entries [] "").ret with
  | error e => rfl
  | ok p =>
    obtain ⟨children, bf⟩ := p
    simp only
    by_cases hbf : bf = ""
    · simp [hbf]
    · simp only [hbf, if_false]
      cases hfind : findNamed bf (walkLoop env root entries [] "").entries with
      | none => rfl
      | some cell =>
        simp only
        cases (fixBuild env (env.join root bf) children cell).err <;> rfl

/-- The state a successful walk of a directory leaves: the entries after their
steps, with the build file replaced by what `fixBuild` left, and the writes of
the subdirectories followed by those of `fixBuild`. -/
theorem walkTree_ok_state (env : Env) (root n : String) (entries : List FsNode)
    (listable : Bool) (labels : List String)
    (h : (walkTree env root (FsNode.dir n entries listable)).ret = Except.ok labels) :
    listable = true ∧
    ∃ ls : List (List String), subWalks env root entries = ls.map Except.ok ∧
      (ownsBuild entries = false →
        (walkTree env root (FsNode.dir n entries listable)).node =
            FsNode.dir n (entries.map (stepNode env root)) listable ∧
          (walkTree env root (FsNode.dir n entries listable)).writes =
            subWrites env root entries) ∧
      (ownsBuild entries = true →
        ∃ cell, findNamed (selectBuild "" entries) (entries.map (stepNode env root)) = some cell ∧
          (fixBuild env (env.join root (selectBuild "" entries)) ls.flatten cell).err = none ∧
          (walkTree env root (FsNode.dir n entries listable)).node =
            FsNode.dir n
              (replaceNamed (selectBuild "" entries)
                (fixBuild env (env.join root (selectBuild "" entries)) ls.flatten cell).node
                (entries.map (stepNode env root))) listable ∧
          (walkTree env root (FsNode.dir n entries listable)).writes =
            subWrites env root entries ++
              (fixBuild env (env.join root (selectBuild "" entries)) ls.flatten cell).writes) := by
  cases listable with
  | false => rw [walkTree_not_listable] at h; cases h
  | true =>
    refine ⟨rfl, ?_⟩
    rw [walkTree_dir_eq] at h ⊢
    cases hl : (walkLoop env root entries [] "").ret with
    | error e => simp [hl] at h
    | ok pr =>
      obtain ⟨children, bf⟩ := pr
      obtain ⟨ls, h1, h2, h3⟩ := walkLoop_ok env root entries [] "" children bf hl
      obtain ⟨hs1, hs2⟩ := walkLoop_state env root entries [] "" children bf hl
      simp only [List.nil_append] at h2
      subst h2
      subst h3
      refine ⟨ls, h1, ?_, ?_⟩
      · intro hown
        have hbf : selectBuild "" entries = "" :=
          (selectBuild_eq_empty "" entries).mpr ⟨rfl, hown⟩
        simp only [hl, hbf, if_true, hs1, hs2]
        exact ⟨trivial, trivial⟩
      · intro hown
        have hbf : selectBuild "" entries ≠ "" := by
          intro hc
          have := ((selectBuild_eq_empty "" entries).mp hc).2
          rw [hown] at this
          cases this
        simp only [hl, hbf, if_false] at h ⊢
        rw [hs1] at h ⊢
        cases hfind : findNamed (selectBuild "" entries) (entries.map (stepNode env root)) with
        | none => simp [hfind] at h
        | some cell =>
          simp only [hfind] at h ⊢
          cases herr : (fixBuild env (env.join root (selectBuild "" entries)) ls.flatten cell).err with
          | some e => simp [herr] at h
          | none => exact ⟨cell, rfl, herr, rfl, by rw [hs2]⟩

theorem fixBuild_ok (env : Env) (path : String) (children : List String) (node : FsNode)
    (h : (fixBuild env path children node).err = none) :
    ∃ content b, readFile node = some content ∧ env.parse path content = some b ∧
      (fixBuild env path children node).node =
        writeFile (env.format (reconcile (env.flip path) b children)) node ∧
      (fixBuild env path children node).writes =
        [⟨path, env.format (reconcile (env.flip path) b children), canWrite node⟩] := by
  unfold fixBuild at h ⊢
  cases hread : readFile node with
  | none => simp [hread] at h
  | some content =>
    cases hparse : env.parse path content with
    | none => simp [hread, hparse] at h
    | some b => exact ⟨content, b, rfl, hparse, by simp [hparse], by simp [hparse]⟩

/-! ## Errors and the exit status -/

/-- C11. Listing, read and parse failures are returned: an unlistable directory
gives a listing error, `fixBuild` returns the read or parse error, `walkTree`
returns the error of `fixBuild`, and an error in a visited directory makes the
walk of the whole tree return an error.  A failed write is not returned: on a
directory whose build file is read-only, the one `WriteFile` call fails and both
`fixBuild` and `walkTree` return no error. -/
theorem walkTree_errors :
    (∀ (env : Env) (p n : String) (entries : List FsNode),
      (walkTree env p (FsNode.dir n entries false)).ret = Except.error (Err.listing p)) ∧
    (∀ (env : Env) (path : String) (children : List String) (node : FsNode),
      readFile node = none →
        (fixBuild env path children node).err = some (Err.read path) ∧
        (fixBuild env path children node).writes = []) ∧
    (∀ (env : Env) (path content : String) (children : List String) (node : FsNode),
      readFile node = some content → env.parse path content = none →
        (fixBuild env path children node).err = some (Err.parse path) ∧
        (fixBuild env path children node).writes = []) ∧
    (∀ (env : Env) (p n : String) (entries : List FsNode) (children : List String)
      (bf : String) (cell : FsNode) (e : Err),
      (walkLoop env p entries [] "").ret = Except.ok (children, bf) → bf ≠ "" →
        findNamed bf (walkLoop env p entries [] "").entries = some cell →
        (fixBuild env (env.join p bf) children cell).err = some e →
        (walkTree env p (FsNode.dir n entries true)).ret = Except.error e) ∧
    (∀ (env : Env) (p : String) (t : FsNode) (q : String) (d : FsNode) (e : Err),
      Reaches env p t q d → (walkTree env q d).ret = Except.error e →
        ∃ e', (walkTree env p t).ret = Except.error e') ∧
    ((fixBuild sampleEnv "BUILD" [] readOnlyBuild).err = none ∧
      (fixBuild sampleEnv "BUILD" [] readOnlyBuild).writes = [⟨"BUILD", "1 statements", false⟩] ∧
      (fixBuild sampleEnv "BUILD" [] readOnlyBuild).node = readOnlyBuild ∧
      (walkTree sampleEnv "." (FsNode.dir "" [readOnlyBuild] true)).ret =
        Except.ok ["//.:srcs"]) := by
  refine ⟨?_, ?_, ?_, ?_, ?_, ⟨rfl, rfl, rfl, rfl⟩⟩
  · intro env p n entries
    exact walkTree_not_listable env p n entries
  · intro env path children node hread
    unfold fixBuild
    simp [hread]
  · intro env path content children node hread hparse
    unfold fixBuild
    simp [hread, hparse]
  · intro env p n entries children bf cell e hl hbf hfind herr
    rw [walkTree_dir_ret]
    simp only [hl, hbf, if_false, hfind, herr]
  · intro env p t q d e hreach herr
    cases hroot : (walkTree env p t).ret with
    | error e' => exact ⟨e', rfl⟩
    | ok L =>
      obtain ⟨L', hL'⟩ := reaches_ok env p t q d hreach L hroot
      rw [herr] at hL'
      cases hL'

/-- C16, as stated, fails: on a directory that cannot be listed `walkTree`
returns an error and the exit status is still zero. -/
theorem main_exit_status_ignores_error :
    ¬ (∀ (env : Env) (cwd : FsNode),
        (∃ e, (walkTree env "." cwd).ret = Except.error e) → (main env cwd).exitStatus ≠ 0) := by
  intro h
  exact h sampleEnv lockedDir ⟨Err.listing ".", rfl⟩ rfl

/-- C16, amended. The exit status is zero whether the walk from `.` completes
without error or `walkTree` returns an error; the run leaves the tree and the
writes of that walk. -/
theorem main_exit_zero (env : Env) (cwd : FsNode) :
    (main env cwd).exitStatus = 0 ∧
      (main env cwd).node = (walkTree env "." cwd).node ∧
      (main env cwd).writes = (walkTree env "." cwd).writes ∧
      ((main sampleEnv lockedDir).exitStatus = 0 ∧
        (walkTree sampleEnv "." lockedDir).ret = Except.error (Err.listing ".")) :=
  ⟨rfl, rfl, rfl, rfl, rfl⟩

/-! ## Auxiliary lemmas: which entry is the build file -/

theorem selectBuild_cons (bf : String) (f : FsNode) (rest : List FsNode) :
    selectBuild bf (f :: rest) =
      selectBuild (if f.name = "BUILD" ∨ f.name = "BUILD.bazel" then f.name else bf) rest := rfl

theorem selectBuild_none (bf : String) (entries : List FsNode)
    (h : ∀ f ∈ entries, ¬ (f.name = "BUILD" ∨ f.name = "BUILD.bazel")) :
    selectBuild bf entries = bf := by
  induction entries generalizing bf with
  | nil => rfl
  | cons f rest ih =>
    rw [selectBuild_cons, if_neg (h f (List.mem_cons_self _ _)),
      ih bf (fun g hg => h g (List.mem_cons_of_mem _ hg))]

theorem selectBuild_last (bf : String) (entries : List FsNode) (j : Nat) (fj : FsNode)
    (hj : entries[j]? = some fj) (hname : fj.name = "BUILD" ∨ fj.name = "BUILD.bazel")
    (hlast : ∀ k f, j < k → entries[k]? = some f →
      ¬ (f.name = "BUILD" ∨ f.name = "BUILD.bazel")) :
    selectBuild bf entries = fj.name := by
  induction entries generalizing bf j with
  | nil => simp at hj
  | cons f rest ih =>
    rw [selectBuild_cons]
    cases j with
    | zero =>
      simp only [List.getElem?_cons_zero, Option.some.injEq] at hj
      subst hj
      rw [if_pos hname]
      apply selectBuild_none
      intro g hg
      obtain ⟨k, hk⟩ := List.mem_iff_getElem?.mp hg
      exact hlast (k + 1) g (Nat.succ_pos k) (by simpa using hk)
    | succ j' =>
      simp only [List.getElem?_cons_succ] at hj
      exact ih _ j' hj (fun k g hk hg =>
        hlast (k + 1) g (Nat.succ_lt_succ hk) (by simpa using hg))

theorem ownsBuild_of_mem (entries : List FsNode) (f : FsNode) (hf : f ∈ entries)
    (hname : f.name = "BUILD" ∨ f.name = "BUILD.bazel") : ownsBuild entries = true := by
  unfold ownsBuild
  rw [List.any_eq_true]
  exact ⟨f, hf, by simpa using hname⟩

theorem walkTree_node_shape (env : Env) (root : String) (node : FsNode) :
    (walkTree env root node).node.name = node.name ∧
      (walkTree env root node).node.IsDir = node.IsDir := by
  cases node with
  | file n c r w => rw [walkTree]; exact ⟨rfl, rfl⟩
  | dir n entries listable =>
    cases listable with
    | false => rw [walkTree]; exact ⟨rfl, rfl⟩
    | true =>
      rw [walkTree_dir_eq]
      split
      · exact ⟨rfl, rfl⟩
      · split
        · exact ⟨rfl, rfl⟩
        · split <;> exact ⟨rfl, rfl⟩

theorem stepNode_shape (env : Env) (root : String) (f : FsNode) :
    (stepNode env root f).name = f.name ∧ (stepNode env root f).IsDir = f.IsDir := by
  unfold stepNode
  split
  · exact walkTree_node_shape env _ f
  · exact ⟨rfl, rfl⟩

theorem stepNode_file (env : Env) (root : String) (f : FsNode) (h : f.IsDir = false) :
    stepNode env root f = f := by
  simp [stepNode, h]

theorem stepNode_dir (env : Env) (root : String) (f : FsNode) (h : f.IsDir = true) :
    stepNode env root f = (walkTree env (env.join root f.name) f).node := by
  simp [stepNode, h]

theorem names_ne_of_nodup (l : List FsNode) (h : (l.map FsNode.name).Nodup) (a b : Nat)
    (f g : FsNode) (ha : l[a]? = some f) (hb : l[b]? = some g) (hab : a < b) :
    f.name ≠ g.name := by
  induction l generalizing a b with
  | nil => simp at ha
  | cons x rest ih =>
    rw [List.map_cons, List.nodup_cons] at h
    cases b with
    | zero => omega
    | succ b' =>
      simp only [List.getElem?_cons_succ] at hb
      cases a with
      | zero =>
        simp only [List.getElem?_cons_zero, Option.some.injEq] at ha
        subst ha
        intro e
        exact h.1 (List.mem_map.mpr ⟨g, List.getElem?_mem hb, e.symm⟩)
      | succ a' =>
        simp only [List.getElem?_cons_succ] at ha
        exact ih h.2 a' b' ha hb (Nat.lt_of_succ_lt_succ hab)

theorem findNamed_first (name : String) (l : List FsNode) (j : Nat) (f : FsNode)
    (hj : l[j]? = some f) (hname : f.name = name)
    (hfirst : ∀ k g, k < j → l[k]? = some g → g.name ≠ name) : findNamed name l = some f := by
  unfold findNamed
  induction l generalizing j with
  | nil => simp at hj
  | cons x rest ih =>
    cases j with
    | zero =>
      simp only [List.getElem?_cons_zero, Option.some.injEq] at hj
      subst hj
      rw [List.find?_cons_of_pos _ (by simpa using hname)]
    | succ j' =>
      simp only [List.getElem?_cons_succ] at hj
      rw [List.find?_cons_of_neg _ (by simpa using hfirst 0 x (Nat.succ_pos j') (by simp))]
      exact ih j' hj (fun k g hk hg => hfirst (k + 1) g (Nat.succ_lt_succ hk) (by simpa using hg))

theorem replaceNamed_first (name : String) (x : FsNode) (l : List FsNode) (j : Nat) (f : FsNode)
    (hj : l[j]? = some f) (hname : f.name = name)
    (hfirst : ∀ k g, k < j → l[k]? = some g → g.name ≠ name) :
    (replaceNamed name x l)[j]? = some x := by
  induction l generalizing j with
  | nil => simp at hj
  | cons y rest ih =>
    rw [replaceNamed]
    cases j with
    | zero =>
      simp only [List.getElem?_cons_zero, Option.some.injEq] at hj
      subst hj
      rw [if_pos hname]
      exact List.getElem?_cons_zero
    | succ j' =>
      simp only [List.getElem?_cons_succ] at hj
      rw [if_neg (hfirst 0 y (Nat.succ_pos j') (by simp))]
      simp only [List.getElem?_cons_succ]
      exact ih j' hj (fun k g hk hg => hfirst (k + 1) g (Nat.succ_lt_succ hk) (by simpa using hg))

theorem replaceNamed_other (name : String) (x : FsNode) (l : List FsNode) (i : Nat) (g : FsNode)
    (hi : l[i]? = some g) (hne : g.name ≠ name) : (replaceNamed name x l)[i]? = some g := by
  induction l generalizing i with
  | nil => simp at hi
  | cons y rest ih =>
    rw [replaceNamed]
    cases i with
    | zero =>
      simp only [List.getElem?_cons_zero, Option.some.injEq] at hi
      subst hi
      rw [if_neg hne]
      exact List.getElem?_cons_zero
    | succ i' =>
      simp only [List.getElem?_cons_succ] at hi
      split
      · simpa using hi
      · simp only [List.getElem?_cons_succ]
        exact ih i' hi

theorem map_stepNode_getElem (env : Env) (root : String) (l : List FsNode) (i : Nat)
    (f : FsNode) (h : l[i]? = some f) : (l.map (stepNode env root))[i]? = some (stepNode env root f) := by
  rw [List.getElem?_map, h]
  rfl

theorem map_stepNode_first (env : Env) (root : String) (l : List FsNode) (j : Nat) (name : String)
    (hfirst : ∀ k g, k < j → l[k]? = some g → g.name ≠ name) :
    ∀ k g, k < j → (l.map (stepNode env root))[k]? = some g → g.name ≠ name := by
  intro k g hk hg
  rw [List.getElem?_map] at hg
  cases hl : l[k]? with
  | none => simp [hl] at hg
  | some g0 =>
    simp only [hl, Option.map_some', Option.some.injEq] at hg
    rw [← hg, (stepNode_shape env root g0).1]
    exact hfirst k g0 hk hl

/-! ## The walk: which entry is read and rewritten -/

/-- C19. When a listing with distinct names holds both an entry named `BUILD` and
one named `BUILD.bazel`, a successful `walkTree` takes the later one, `fj`, as
the build file: it is a file, the one write the directory makes itself, after
the writes of its subdirectories, goes to the path of `fj`, the entry at the
index of `fj` becomes that file with the written data, and the earlier one,
when it is a file, is the same entry afterwards. -/
theorem walkTree_two_build_files (env : Env) (p n : String) (entries : List FsNode)
    (listable : Bool) (labels : List String) (i j : Nat) (fi fj : FsNode)
    (hnodup : (entries.map FsNode.name).Nodup)
    (hi : entries[i]? = some fi) (hj : entries[j]? = some fj) (hij : i < j)
    (hni : fi.name = "BUILD" ∨ fi.name = "BUILD.bazel")
    (hnj : fj.name = "BUILD" ∨ fj.name = "BUILD.bazel")
    (hok : (walkTree env p (FsNode.dir n entries listable)).ret = Except.ok labels) :
    ∃ data ok es,
      (walkTree env p (FsNode.dir n entries listable)).writes =
        subWrites env p entries ++ [⟨env.join p fj.name, data, ok⟩] ∧
      fj.IsDir = false ∧
      (walkTree env p (FsNode.dir n entries listable)).node = FsNode.dir n es listable ∧
      es[j]? = some (writeFile data fj) ∧
      (fi.IsDir = false → es[i]? = some fi) := by
  have hne : fi.name ≠ fj.name := names_ne_of_nodup entries hnodup i j fi fj hi hj hij
  have hlast : ∀ k f, j < k → entries[k]? = some f →
      ¬ (f.name = "BUILD" ∨ f.name = "BUILD.bazel") := by
    intro k f hk hf hname
    have h1 : fi.name ≠ f.name :=
      names_ne_of_nodup entries hnodup i k fi f hi hf (Nat.lt_trans hij hk)
    have h2 : fj.name ≠ f.name := names_ne_of_nodup entries hnodup j k fj f hj hf hk
    rcases hni with a | a <;> rcases hnj with b | b <;> rcases hname with c | c <;>
      simp_all
  have hfirst : ∀ k g, k < j → entries[k]? = some g → g.name ≠ fj.name :=
    fun k g hk hg => names_ne_of_nodup entries hnodup k j g fj hg hj hk
  have hsel : selectBuild "" entries = fj.name := selectBuild_last "" entries j fj hj hnj hlast
  have hown : ownsBuild entries = true := ownsBuild_of_mem entries fj (List.getElem?_mem hj) hnj
  obtain ⟨_, ls, _, _, h3⟩ := walkTree_ok_state env p n entries listable labels hok
  obtain ⟨cell, hfind, herr, hnode, hwrites⟩ := h3 hown
  rw [hsel] at hfind herr hnode hwrites
  have hcell : findNamed fj.name (entries.map (stepNode env p)) = some (stepNode env p fj) :=
    findNamed_first fj.name _ j _ (map_stepNode_getElem env p entries j fj hj)
      (stepNode_shape env p fj).1 (map_stepNode_first env p entries j fj.name hfirst)
  rw [hcell] at hfind
  have hc : cell = stepNode env p fj := (Option.some.inj hfind).symm
  subst hc
  obtain ⟨content, b, hread, _, hfnode, hfwrites⟩ := fixBuild_ok env _ _ _ herr
  have hfile : fj.IsDir = false := by
    cases hd : fj.IsDir with
    | false => rfl
    | true =>
      have hs : (stepNode env p fj).IsDir = true := by rw [(stepNode_shape env p fj).2, hd]
      cases hsn : stepNode env p fj with
      | file a b c d => rw [hsn] at hs; cases hs
      | dir a b c => rw [hsn] at hread; cases hread
  rw [stepNode_file env p fj hfile] at hfnode hfwrites hnode hwrites
  refine ⟨env.format (reconcile (env.flip (env.join p fj.name)) b ls.flatten), canWrite fj, _,
    ?_, hfile, hnode, ?_, ?_⟩
  · rw [hwrites, hfwrites]
  · rw [hfnode]
    exact replaceNamed_first fj.name _ _ j _ (map_stepNode_getElem env p entries j fj hj)
      (stepNode_shape env p fj).1 (map_stepNode_first env p entries j fj.name hfirst)
  · intro hfi
    have := replaceNamed_other fj.name
      (fixBuild env (env.join p fj.name) ls.flatten fj).node
      (entries.map (stepNode env p)) i (stepNode env p fi)
      (map_stepNode_getElem env p entries i fi hi)
      (by rw [(stepNode_shape env p fi).1]; exact hne)
    rw [stepNode_file env p fi hfi] at this
    exact this

/-- C19 at a sorted listing holding `BUILD` and `BUILD.bazel`: only `BUILD.bazel`
is written. -/
theorem walkTree_two_build_files_witness :
    (walkTree sampleEnv "." (FsNode.dir "" [emptyBuild, emptyBuildBazel] true)).ret =
        Except.ok ["//.:srcs"] ∧
      (walkTree sampleEnv "." (FsNode.dir "" [emptyBuild, emptyBuildBazel] true)).node =
        FsNode.dir "" [emptyBuild, FsNode.file "BUILD.bazel" "1 statements" true true] true ∧
      ∃ data ok es,
        (walkTree sampleEnv "." (FsNode.dir "" [emptyBuild, emptyBuildBazel] true)).writes =
          subWrites sampleEnv "." [emptyBuild, emptyBuildBazel] ++
            [⟨sampleEnv.join "." emptyBuildBazel.name, data, ok⟩] ∧
        emptyBuildBazel.IsDir = false ∧
        (walkTree sampleEnv "." (FsNode.dir "" [emptyBuild, emptyBuildBazel] true)).node =
          FsNode.dir "" es true ∧
        es[1]? = some (writeFile data emptyBuildBazel) ∧
        (emptyBuild.IsDir = false → es[0]? = some emptyBuild) :=
  ⟨rfl, rfl, walkTree_two_build_files sampleEnv "." "" [emptyBuild, emptyBuildBazel] true
    ["//.:srcs"] 0 1 emptyBuild emptyBuildBazel (by decide) rfl rfl (by decide)
    (Or.inl rfl) (Or.inr rfl) rfl⟩

/-- C20, as stated, fails: in a listing with a subdirectory named `BUILD` followed
by a file named `BUILD.bazel` the loop ends with the file as the build file, not
the subdirectory. -/
theorem walkLoop_build_subdir_not_selected :
    ¬ (∀ (env : Env) (p : String) (entries : List FsNode) (f : FsNode)
        (children : List String) (bf : String),
        f ∈ entries → f.IsDir = true → (f.name = "BUILD" ∨ f.name = "BUILD.bazel") →
        (walkLoop env p entries [] "").ret = Except.ok (children, bf) → bf = f.name) := by
  intro h
  have := h sampleEnv "." [buildDir, emptyBuildBazel] buildDir [] "BUILD.bazel"
    (List.mem_cons_self _ _) rfl (Or.inl rfl) rfl
  exact absurd this (by decide)

/-- C20, amended. A subdirectory named `BUILD` or `BUILD.bazel` after which no
entry of the listing has one of these names, and before which no entry has its
name, is both walked and taken as the build file when the walks of the
subdirectories succeed: the entry at its index is the subdirectory after its
walk, the writes are those of the subdirectory walks, and `walkTree` returns the
read error of `fixBuild` on the subdirectory's path. -/
theorem walkTree_build_subdir (env : Env) (p n : String) (entries : List FsNode) (j : Nat)
    (fj : FsNode) (ls : List (List String))
    (hj : entries[j]? = some fj) (hd : fj.IsDir = true)
    (hname : fj.name = "BUILD" ∨ fj.name = "BUILD.bazel")
    (hlast : ∀ k f, j < k → entries[k]? = some f →
      ¬ (f.name = "BUILD" ∨ f.name = "BUILD.bazel"))
    (hfirst : ∀ k g, k < j → entries[k]? = some g → g.name ≠ fj.name)
    (hsub : subWalks env p entries = ls.map Except.ok) :
    (walkLoop env p entries [] "").ret = Except.ok (ls.flatten, fj.name) ∧
      (walkTree env p (FsNode.dir n entries true)).ret =
        Except.error (Err.read (env.join p fj.name)) ∧
      (walkTree env p (FsNode.dir n entries true)).writes = subWrites env p entries ∧
      ∃ es, (walkTree env p (FsNode.dir n entries true)).node = FsNode.dir n es true ∧
        es[j]? = some (walkTree env (env.join p fj.name) fj).node := by
  have hsel : selectBuild "" entries = fj.name := selectBuild_last "" entries j fj hj hname hlast
  have hl : (walkLoop env p entries [] "").ret = Except.ok (ls.flatten, fj.name) := by
    rw [walkLoop_total env p entries [] "" ls hsub, hsel]
    rfl
  obtain ⟨hs1, hs2⟩ := walkLoop_state env p entries [] "" _ _ hl
  have hne : fj.name ≠ "" := by
    rcases hname with h | h <;> rw [h] <;> decide
  have hcell : findNamed fj.name (entries.map (stepNode env p)) = some (stepNode env p fj) :=
    findNamed_first fj.name _ j _ (map_stepNode_getElem env p entries j fj hj)
      (stepNode_shape env p fj).1 (map_stepNode_first env p entries j fj.name hfirst)
  have hread : readFile (stepNode env p fj) = none := by
    have hs : (stepNode env p fj).IsDir = true := by rw [(stepNode_shape env p fj).2, hd]
    cases hsn : stepNode env p fj with
    | file a b c d => rw [hsn] at hs; cases hs
    | dir a b c => rfl
  have hfix : fixBuild env (env.join p fj.name) ls.flatten (stepNode env p fj) =
      ⟨some (Err.read (env.join p fj.name)), stepNode env p fj, []⟩ := by
    unfold fixBuild
    simp [hread]
  refine ⟨hl, ?_, ?_, ?_⟩
  · rw [walkTree_dir_eq]
    simp only [hl, hne, if_false, hs1, hcell, hfix]
  · rw [walkTree_dir_eq]
    simp only [hl, hne, if_false, hs1, hcell, hfix, hs2, List.append_nil]
  · rw [walkTree_dir_eq]
    simp only [hl, hne, if_false, hs1, hcell, hfix]
    refine ⟨_, rfl, ?_⟩
    rw [replaceNamed_first fj.name _ _ j _ (map_stepNode_getElem env p entries j fj hj)
      (stepNode_shape env p fj).1 (map_stepNode_first env p entries j fj.name hfirst)]
    rw [stepNode_dir env p fj hd]

/-- C20, amended, at a listing whose only entry is an empty subdirectory named
`BUILD`. -/
theorem walkTree_build_subdir_witness :
    (walkLoop sampleEnv "." [buildDir] [] "").ret = Except.ok (([] : List (List String)).flatten, buildDir.name) ∧
      (walkTree sampleEnv "." (FsNode.dir "" [buildDir] true)).ret =
        Except.error (Err.read (sampleEnv.join "." buildDir.name)) ∧
      (walkTree sampleEnv "." (FsNode.dir "" [buildDir] true)).writes =
        subWrites sampleEnv "." [buildDir] ∧
      ∃ es, (walkTree sampleEnv "." (FsNode.dir "" [buildDir] true)).node = FsNode.dir "" es true ∧
        es[0]? = some (walkTree sampleEnv (sampleEnv.join "." buildDir.name) buildDir).node :=
  walkTree_build_subdir sampleEnv "." "" [buildDir] 0 buildDir [[]] rfl rfl (Or.inl rfl)
    (fun k f hk hf => by
      have : ([buildDir] : List FsNode)[k]? = none := by
        cases k with
        | zero => omega
        | succ k' => rfl
      rw [this] at hf
      cases hf)
    (fun k g hk _ => by omega) rfl

/-! ## The walk: the order of the writes -/

theorem subWrites_cons_file (env : Env) (root : String) (f : FsNode) (rest : List FsNode)
    (h : f.IsDir = false) : subWrites env root (f :: rest) = subWrites env root rest := by
  simp [subWrites, h]

theorem subWrites_cons_dir (env : Env) (root : String) (f : FsNode) (rest : List FsNode)
    (h : f.IsDir = true) :
    subWrites env root (f :: rest) =
      (walkTree env (env.join root f.name) f).writes ++ subWrites env root rest := by
  simp [subWrites, h]

mutual
theorem walkTree_writes_paths (env : Env) : ∀ (node : FsNode) (root : String)
    (labels : List String), (walkTree env root node).ret = Except.ok labels →
    (walkTree env root node).writes.map WriteEvent.path = buildWrites env root node
  | FsNode.file n c r w, root, labels, h => by
    rw [walkTree_file] at h
    cases h
  | FsNode.dir n entries listable, root, labels, h => by
    obtain ⟨_, ls, h1, h2, h3⟩ := walkTree_ok_state env root n entries listable labels h
    have ih := subWrites_paths env entries root ls h1
    rw [buildWrites]
    cases hown : ownsBuild entries with
    | false =>
      rw [(h2 hown).2, ih]
      simp
    | true =>
      obtain ⟨cell, _, herr, _, hw⟩ := h3 hown
      obtain ⟨_, _, _, _, _, hfw⟩ := fixBuild_ok env _ _ _ herr
      rw [hw, hfw, List.map_append, ih]
      simp
theorem subWrites_paths (env : Env) : ∀ (entries : List FsNode) (root : String)
    (ls : List (List String)), subWalks env root entries = ls.map Except.ok →
    (subWrites env root entries).map WriteEvent.path = entriesBuildWrites env root entries
  | [], root, ls, h => by
    simp [subWrites, entriesBuildWrites]
  | FsNode.file n c r w :: rest, root, ls, h => by
    have hsw : subWalks env root (FsNode.file n c r w :: rest) = subWalks env root rest := by
      simp [subWalks, FsNode.IsDir]
    rw [hsw] at h
    rw [subWrites_cons_file env root (FsNode.file n c r w) rest rfl, entriesBuildWrites,
      buildWrites, List.nil_append]
    exact subWrites_paths env rest root ls h
  | FsNode.dir n es l :: rest, root, ls, h => by
    have hsw : subWalks env root (FsNode.dir n es l :: rest) =
        (walkTree env (env.join root n) (FsNode.dir n es l)).ret :: subWalks env root rest := by
      simp [subWalks, FsNode.IsDir, FsNode.name]
    rw [hsw] at h
    cases ls with
    | nil => simp at h
    | cons a ls' =>
      simp only [List.map_cons, List.cons.injEq] at h
      rw [subWrites_cons_dir env root (FsNode.dir n es l) rest rfl, entriesBuildWrites,
        List.map_append]
      have h1 := walkTree_writes_paths env (FsNode.dir n es l) (env.join root n) a h.1
      have h2 := subWrites_paths env rest root ls' h.2
      simp only [FsNode.name] at h1 ⊢
      rw [h1, h2]
end

theorem subWrites_infix (env : Env) (root : String) (entries : List FsNode) (f : FsNode)
    (hf : f ∈ entries) (hd : f.IsDir = true) :
    ∃ pre post, subWrites env root entries =
      pre ++ (walkTree env (env.join root f.name) f).writes ++ post := by
  induction entries with
  | nil => cases hf
  | cons g rest ih =>
    rcases List.mem_cons.mp hf with h | h
    · subst h
      exact ⟨[], subWrites env root rest, by rw [subWrites_cons_dir env root f rest hd]; rfl⟩
    · obtain ⟨pre, post, hpp⟩ := ih h
      cases hg : g.IsDir with
      | false => exact ⟨pre, post, by rw [subWrites_cons_file env root g rest hg, hpp]⟩
      | true =>
        exact ⟨(walkTree env (env.join root g.name) g).writes ++ pre, post, by
          rw [subWrites_cons_dir env root g rest hg, hpp]; simp [List.append_assoc]⟩

theorem reaches_writes_infix (env : Env) (p : String) (t : FsNode) (q : String) (d : FsNode)
    (hr : Reaches env p t q d) :
    ∀ L, (walkTree env p t).ret = Except.ok L →
      ∃ pre post, (walkTree env p t).writes = pre ++ (walkTree env q d).writes ++ post := by
  induction hr with
  | here p t => exact fun L _ => ⟨[], [], by simp⟩
  | step p n entries listable f q d hf hd _ ih =>
    intro L hL
    obtain ⟨_, ls, h1, h2, h3⟩ := walkTree_ok_state env p n entries listable L hL
    obtain ⟨l, hl⟩ := subWalks_mem_ok env p entries ls h1 f hf hd
    obtain ⟨pre, post, hpp⟩ := ih l hl
    obtain ⟨pre', post', hsub⟩ := subWrites_infix env p entries f hf hd
    cases hown : ownsBuild entries with
    | false =>
      refine ⟨pre' ++ pre, post ++ post', ?_⟩
      rw [(h2 hown).2, hsub, hpp]
      simp [List.append_assoc]
    | true =>
      obtain ⟨cell, _, _, _, hw⟩ := h3 hown
      refine ⟨pre' ++ pre, post ++ (post' ++
        (fixBuild env (env.join p (selectBuild "" entries)) ls.flatten cell).writes), ?_⟩
      rw [hw, hsub, hpp]
      simp [List.append_assoc]

/-- C15. The writes of a successful walk go to the build files of the tree in
post-order.  For every visited directory that owns a build file, its walk makes
the writes of the walks of its subdirectories and then exactly one more, to its
own build file, and these writes stand together, in this order, in the writes
of the whole walk. -/
theorem walkTree_write_order (env : Env) (p : String) (t : FsNode) (L : List String)
    (hwalk : (walkTree env p t).ret = Except.ok L) :
    (walkTree env p t).writes.map WriteEvent.path = buildWrites env p t ∧
      ∀ (q n : String) (entries : List FsNode) (listable : Bool),
        Reaches env p t q (FsNode.dir n entries listable) → ownsBuild entries = true →
        ∃ w pre post,
          (walkTree env q (FsNode.dir n entries listable)).writes =
            subWrites env q entries ++ [w] ∧
          w.path = env.join q (selectBuild "" entries) ∧
          (walkTree env p t).writes = pre ++ (subWrites env q entries ++ [w]) ++ post := by
  refine ⟨walkTree_writes_paths env t p L hwalk, ?_⟩
  intro q n entries listable hreach hown
  obtain ⟨L', hL'⟩ := reaches_ok env p t q _ hreach L hwalk
  obtain ⟨pre, post, hpp⟩ := reaches_writes_infix env p t q _ hreach L hwalk
  obtain ⟨_, ls, _, _, h3⟩ := walkTree_ok_state env q n entries listable L' hL'
  obtain ⟨cell, _, herr, _, hw⟩ := h3 hown
  obtain ⟨content, b, _, _, _, hfw⟩ := fixBuild_ok env _ _ _ herr
  refine ⟨⟨env.join q (selectBuild "" entries),
    env.format (reconcile (env.flip (env.join q (selectBuild "" entries))) b ls.flatten),
    canWrite cell⟩, pre, post, ?_, rfl, ?_⟩
  · rw [hw, hfw]
  · rw [hpp, hw, hfw]

/-- C15 at `sampleTree`: the build file of `a` is written before that of the
root. -/
theorem walkTree_write_order_witness :
    (walkTree sampleEnv "." sampleTree).writes.map WriteEvent.path = ["a/BUILD", "BUILD"] ∧
      ((walkTree sampleEnv "." sampleTree).writes.map WriteEvent.path =
          buildWrites sampleEnv "." sampleTree ∧
        ∀ (q n : String) (entries : List FsNode) (listable : Bool),
          Reaches sampleEnv "." sampleTree q (FsNode.dir n entries listable) →
          ownsBuild entries = true →
          ∃ w pre post,
            (walkTree sampleEnv q (FsNode.dir n entries listable)).writes =
              subWrites sampleEnv q entries ++ [w] ∧
            w.path = sampleEnv.join q (selectBuild "" entries) ∧
            (walkTree sampleEnv "." sampleTree).writes =
              pre ++ (subWrites sampleEnv q entries ++ [w]) ++ post) :=
  ⟨rfl, walkTree_write_order sampleEnv "." sampleTree ["//.:recursive-srcs"] rfl⟩

/-! ## Auxiliary lemmas: reconciling twice -/

theorem withRhs_withRhs (e v : Expr) : (e.withRhs v).withRhs v = e.withRhs v := by
  cases e <;> rfl

theorem setDefn_idem (key : String) (v : Expr) (l : List Expr) :
    setDefn key v (setDefn key v l) = setDefn key v l := by
  induction l with
  | nil => rfl
  | cons e rest ih =>
    by_cases he : isDefn key e = true
    · simp [setDefn, he, isDefn_withRhs, withRhs_withRhs]
    · simp only [Bool.not_eq_true] at he
      simp [setDefn, he, ih]

theorem any_setDefn (key : String) (v : Expr) (l : List Expr) :
    (setDefn key v l).any (isDefn key) = l.any (isDefn key) := by
  induction l with
  | nil => rfl
  | cons e rest ih =>
    by_cases he : isDefn key e = true
    · simp [setDefn, he, isDefn_withRhs]
    · simp only [Bool.not_eq_true] at he
      simp [setDefn, he, ih]

theorem setDefn_append_none (key : String) (v : Expr) (l l' : List Expr)
    (h : l.any (isDefn key) = false) : setDefn key v (l ++ l') = l ++ setDefn key v l' := by
  induction l with
  | nil => rfl
  | cons e rest ih =>
    simp only [List.any_cons, Bool.or_eq_false_iff] at h
    simp [setDefn, h.1, ih h.2]

theorem setAttr_idem (r : Rule) (key : String) (v : Expr) :
    (r.SetAttr key v).SetAttr key v = r.SetAttr key v := by
  by_cases h : r.list.any (isDefn key) = true
  · have h1 : r.SetAttr key v = { r with list := setDefn key v r.list } := by
      simp [Rule.SetAttr, h]
    rw [h1]
    simp [Rule.SetAttr, any_setDefn, h, setDefn_idem]
  · simp only [Bool.not_eq_true] at h
    have h1 : r.SetAttr key v =
        { r with list := r.list ++ [Expr.binary (Expr.literal key) "=" v] } := by
      simp [Rule.SetAttr, h]
    rw [h1]
    have h2 : (r.list ++ [Expr.binary (Expr.literal key) "=" v]).any (isDefn key) = true := by
      simp [isDefn]
    simp only [Rule.SetAttr, h2, if_true, setDefn_append_none key v r.list _ h]
    simp [setDefn, isDefn, Expr.withRhs]

theorem isManaged_setAttr_srcs (r : Rule) (v : Expr) :
    RuleIsManaged (r.SetAttr "srcs" v) = RuleIsManaged r := by
  unfold RuleIsManaged Rule.AttrStrings
  rw [attr_setAttr_other r "srcs" "tags" v (by decide)]

theorem newRules_fixed (children : List String) (kv : String × Rule)
    (h : kv ∈ newRules children) :
    kv.2.SetAttr "srcs" (kv.2.Attr "srcs") = kv.2 ∧ RuleIsManaged kv.2 = true := by
  cases children with
  | nil =>
    rw [newRules_nil] at h
    simp only [List.mem_singleton] at h
    subst h
    exact ⟨rfl, rfl⟩
  | cons c cs =>
    rw [newRules_cons] at h
    simp only [List.mem_cons, List.mem_singleton, List.not_mem_nil, or_false] at h
    rcases h with h | h
    · subst h
      exact ⟨rfl, rfl⟩
    · subst h
      exact ⟨rfl, rfl⟩

theorem get_of_mem_nodup (m : RuleMap) (h : (m.map Prod.fst).Nodup) (kv : String × Rule)
    (hkv : kv ∈ m) : m.get kv.1 = some kv.2 := by
  unfold RuleMap.get
  induction m with
  | nil => cases hkv
  | cons x rest ih =>
    rw [List.map_cons, List.nodup_cons] at h
    rcases List.mem_cons.mp hkv with e | e
    · subst e
      rw [List.find?_cons_of_pos _ (by simp)]
      rfl
    · have hne : ¬ x.1 = kv.1 := fun hx =>
        h.1 (List.mem_map.mpr ⟨kv, e, hx.symm⟩)
      rw [List.find?_cons_of_neg _ (by simpa using hne)]
      exact ih h.2 e

theorem scanRules_idem (m : RuleMap) (stmts : List Expr) :
    scanRules m (scanRules m stmts).1 = scanRules m stmts := by
  induction stmts generalizing m with
  | nil => rfl
  | cons s rest ih =>
    cases hr : asRule "filegroup" s with
    | none =>
      rw [scanRules_cons_none m s rest hr]
      simp only
      rw [scanRules_cons_none m s _ hr, ih m]
    | some r =>
      cases hg : m.get r.Name with
      | none =>
        rw [scanRules_cons_miss m s rest r hr hg]
        simp only
        rw [scanRules_cons_miss m s _ r hr hg, ih m]
      | some nr =>
        rw [scanRules_cons_hit m s rest r nr hr hg]
        simp only
        by_cases hm : RuleIsManaged r = true
        · simp only [hm, if_true]
          have hr2 := asRule_setAttr s r "srcs" (nr.Attr "srcs") hr
          have hn2 : (r.SetAttr "srcs" (nr.Attr "srcs")).Name = r.Name := name_setAttr_srcs r _
          rw [scanRules_cons_hit m _ _ _ nr hr2 (by rw [hn2]; exact hg)]
          simp only [isManaged_setAttr_srcs, hm, if_true, setAttr_idem, hn2, ih]
        · simp only [hm]
          simp only [Bool.false_eq_true, if_false]
          rw [scanRules_cons_hit m s _ r nr hr hg]
          simp only [hm, Bool.false_eq_true, if_false, ih]

theorem scanRules_append (m : RuleMap) (a b : List Expr) :
    scanRules m (a ++ b) =
      ((scanRules m a).1 ++ (scanRules (scanRules m a).2 b).1,
        (scanRules (scanRules m a).2 b).2) := by
  induction a generalizing m with
  | nil => rfl
  | cons s rest ih =>
    rw [List.cons_append]
    cases hr : asRule "filegroup" s with
    | none =>
      rw [scanRules_cons_none m s _ hr, scanRules_cons_none m s rest hr, ih m]
      rfl
    | some r =>
      cases hg : m.get r.Name with
      | none =>
        rw [scanRules_cons_miss m s _ r hr hg, scanRules_cons_miss m s rest r hr hg, ih m]
        rfl
      | some nr =>
        rw [scanRules_cons_hit m s _ r nr hr hg, scanRules_cons_hit m s rest r nr hr hg, ih]
        rfl

theorem scanRules_added (children : List String) (l : List (String × Rule)) (m : RuleMap)
    (hnd : (l.map Prod.fst).Nodup)
    (h : ∀ kv ∈ l, kv ∈ newRules children ∧ m.get kv.1 = some kv.2) :
    (scanRules m (l.map (fun kv => kv.2.Call))).1 = l.map (fun kv => kv.2.Call) := by
  induction l generalizing m with
  | nil => rfl
  | cons kv rest ih =>
    rw [List.map_cons, List.nodup_cons] at hnd
    obtain ⟨hin, hget⟩ := h kv (List.mem_cons_self _ _)
    have hwf := newRules_wf children kv hin
    have hfx := newRules_fixed children kv hin
    rw [List.map_cons,
      scanRules_cons_hit m _ _ kv.2 kv.2 hwf.1 (by rw [hwf.2.1]; exact hget)]
    simp only [hfx.2, if_true, hfx.1, hwf.2.1]
    rw [ih (m.delete kv.1) hnd.2]
    intro kv' hkv'
    obtain ⟨hin', hget'⟩ := h kv' (List.mem_cons_of_mem _ hkv')
    refine ⟨hin', ?_⟩
    have hne : kv'.1 ≠ kv.1 := fun e =>
      hnd.1 (List.mem_map.mpr ⟨kv', hkv', e⟩)
    rw [get_delete_ne m kv'.1 kv.1 hne]
    exact hget'

/-- Reconciling a reconciled file with the same child labels changes nothing,
whatever the two orders of visit. -/
theorem reconcile_idem (f f' : Bool) (b : File) (c : List String) :
    reconcile f' (reconcile f b c) c = reconcile f b c := by
  have hkeys : ((unmatched b c).map Prod.fst).Nodup :=
    (newRules_keys_nodup c).sublist ((List.filter_sublist _).map _)
  have hrkeys : (((unmatched b c).range f).map Prod.fst).Nodup :=
    ((range_perm _ f).map Prod.fst).nodup_iff.mpr hkeys
  have hun : (scanRules (newRules c) b.stmt).2 = unmatched b c := by
    rw [scanRules_rest]
    rfl
  have hA : scanRules (newRules c) (scanRules (newRules c) b.stmt).1 =
      ((scanRules (newRules c) b.stmt).1, unmatched b c) := by
    rw [scanRules_idem, ← hun]
  have hB : (scanRules (unmatched b c)
      (((unmatched b c).range f).map (fun kv => kv.2.Call))).1 =
      ((unmatched b c).range f).map (fun kv => kv.2.Call) := by
    apply scanRules_added c _ _ hrkeys
    intro kv hkv
    have hmem : kv ∈ unmatched b c := (range_perm _ f).mem_iff.mp hkv
    exact ⟨((mem_unmatched b c kv).mp hmem).1, get_of_mem_nodup _ hkeys kv hmem⟩
  have hB2 : (scanRules (unmatched b c)
      (((unmatched b c).range f).map (fun kv => kv.2.Call))).2 = [] := by
    rw [scanRules_rest, ruleNames_map_call c _ (fun kv hkv =>
      ((mem_unmatched b c kv).mp ((range_perm _ f).mem_iff.mp hkv)).1)]
    apply List.filter_eq_nil_iff.mpr
    intro kv hkv
    have : kv.1 ∈ ((unmatched b c).range f).map Prod.fst :=
      List.mem_map.mpr ⟨kv, (range_perm _ f).mem_iff.mpr hkv, rfl⟩
    simpa using this
  have hstmt : (reconcile f' (reconcile f b c) c).stmt = (reconcile f b c).stmt := by
    have h1 : (reconcile f' (reconcile f b c) c).stmt =
        (scanRules (newRules c) (reconcile f b c).stmt).1 ++
          ((scanRules (newRules c) (reconcile f b c).stmt).2.range f').map
            (fun kv => kv.2.Call) := rfl
    rw [h1, reconcile_stmt f b c, scanRules_append, hA]
    simp only [hB, hB2]
    cases f' <;> simp [RuleMap.range]
  cases hlhs : reconcile f' (reconcile f b c) c with
  | mk s1 =>
    cases hrhs : reconcile f b c with
    | mk s2 =>
      rw [hlhs, hrhs] at hstmt
      simp only at hstmt
      rw [hstmt]

/-! ## Auxiliary lemmas: the environment whose parser inverts its formatter -/

theorem decodeString_encodeString (s : String) : decodeString (encodeString s) = some s := by
  unfold decodeString encodeString
  rw [Encodable.encodek]
  simp only [Option.map_some', List.map_map, Option.some.injEq]
  have h : (Char.ofNat ∘ Char.toNat) = id := by
    funext c
    simp
  rw [h, List.map_id]

theorem lt_pair_right (a b : ℕ) (ha : 0 < a) : b < Nat.pair a b := by
  unfold Nat.pair
  split
  · have : b ≤ b * b := Nat.le_mul_self b
    omega
  · have : 0 ≤ a * a := Nat.zero_le _
    omega

mutual
theorem decodeExpr_encodeExpr : ∀ (e : Expr) (fuel : ℕ), encodeExpr e < fuel →
    decodeExpr fuel (encodeExpr e) = some e
  | Expr.nil, fuel, h => by
    cases fuel with
    | zero => omega
    | succ k => simp [encodeExpr, decodeExpr, Nat.unpair_pair]
  | Expr.literal t, fuel, h => by
    cases fuel with
    | zero => omega
    | succ k => simp [encodeExpr, decodeExpr, Nat.unpair_pair, decodeString_encodeString]
  | Expr.str v, fuel, h => by
    cases fuel with
    | zero => omega
    | succ k => simp [encodeExpr, decodeExpr, Nat.unpair_pair, decodeString_encodeString]
  | Expr.list es, fuel, h => by
    cases fuel with
    | zero => omega
    | succ k =>
      rw [encodeExpr] at h
      have h1 := lt_pair_right 3 (encodeExprs es) (by decide)
      have ih := decodeExprs_encodeExprs es k (by omega)
      simp [encodeExpr, decodeExpr, Nat.unpair_pair, ih]
  | Expr.binary x op y, fuel, h => by
    cases fuel with
    | zero => omega
    | succ k =>
      rw [encodeExpr] at h
      have h1 := lt_pair_right 4
        (Nat.pair (encodeString op) (Nat.pair (encodeExpr x) (encodeExpr y))) (by decide)
      have h2 := Nat.right_le_pair (encodeString op) (Nat.pair (encodeExpr x) (encodeExpr y))
      have h3 := Nat.left_le_pair (encodeExpr x) (encodeExpr y)
      have h4 := Nat.right_le_pair (encodeExpr x) (encodeExpr y)
      have ihx := decodeExpr_encodeExpr x k (by omega)
      have ihy := decodeExpr_encodeExpr y k (by omega)
      simp [encodeExpr, decodeExpr, Nat.unpair_pair, ihx, ihy, decodeString_encodeString]
  | Expr.call x args, fuel, h => by
    cases fuel with
    | zero => omega
    | succ k =>
      rw [encodeExpr] at h
      have h1 := lt_pair_right 5 (Nat.pair (encodeExpr x) (encodeExprs args)) (by decide)
      have h3 := Nat.left_le_pair (encodeExpr x) (encodeExprs args)
      have h4 := Nat.right_le_pair (encodeExpr x) (encodeExprs args)
      have ihx := decodeExpr_encodeExpr x k (by omega)
      have iha := decodeExprs_encodeExprs args k (by omega)
      simp [encodeExpr, decodeExpr, Nat.unpair_pair, ihx, iha]
  | Expr.other t, fuel, h => by
    cases fuel with
    | zero => omega
    | succ k => simp [encodeExpr, decodeExpr, Nat.unpair_pair, decodeString_encodeString]
theorem decodeExprs_encodeExprs : ∀ (es : List Expr) (fuel : ℕ), encodeExprs es < fuel →
    decodeExprs fuel (encodeExprs es) = some es
  | [], fuel, h => by
    cases fuel with
    | zero => omega
    | succ k => simp [encodeExprs, decodeExprs]
  | e :: es, fuel, h => by
    cases fuel with
    | zero => omega
    | succ k =>
      rw [encodeExprs] at h
      have h3 := Nat.left_le_pair (encodeExpr e) (encodeExprs es)
      have h4 := Nat.right_le_pair (encodeExpr e) (encodeExprs es)
      have ihe := decodeExpr_encodeExpr e k (by omega)
      have ihs := decodeExprs_encodeExprs es k (by omega)
      simp [encodeExprs, decodeExprs, Nat.unpair_pair, ihe, ihs]
end

theorem codecEnv_roundtrip (path : String) (f : File) :
    codecEnv.parse path (codecEnv.format f) = some f := by
  have hlen : (String.mk (List.replicate (encodeExprs f.stmt) 'x')).length =
      encodeExprs f.stmt := by
    simp [String.length]
  show (decodeExprs ((String.mk (List.replicate (encodeExprs f.stmt) 'x')).length + 1)
    (String.mk (List.replicate (encodeExprs f.stmt) 'x')).length).map File.mk = some f
  rw [hlen, decodeExprs_encodeExprs f.stmt _ (Nat.lt_succ_self _)]
  rfl

/-! ## Auxiliary lemmas: walking a walked tree -/

theorem map_name_replaceNamed (name : String) (x : FsNode) (l : List FsNode)
    (hx : x.name = name) : (replaceNamed name x l).map FsNode.name = l.map FsNode.name := by
  induction l with
  | nil => rfl
  | cons y rest ih =>
    rw [replaceNamed]
    split
    · rename_i hy
      simp [hx, hy]
    · simp [ih]

theorem selectBuild_eq_foldl (bf : String) (l : List FsNode) :
    selectBuild bf l =
      (l.map FsNode.name).foldl
        (fun acc nm => if nm = "BUILD" ∨ nm = "BUILD.bazel" then nm else acc) bf := by
  unfold selectBuild
  rw [List.foldl_map]

theorem selectBuild_congr (bf : String) (l l' : List FsNode)
    (h : l.map FsNode.name = l'.map FsNode.name) : selectBuild bf l = selectBuild bf l' := by
  rw [selectBuild_eq_foldl, selectBuild_eq_foldl, h]

theorem map_name_stepNode (env : Env) (root : String) (l : List FsNode) :
    (l.map (stepNode env root)).map FsNode.name = l.map FsNode.name := by
  rw [List.map_map]
  apply List.map_congr_left
  intro f _
  exact (stepNode_shape env root f).1

theorem filter_isDir_replaceNamed (name : String) (x cell : FsNode) (l : List FsNode)
    (hfind : findNamed name l = some cell) (hc : cell.IsDir = false) (hx : x.IsDir = false) :
    (replaceNamed name x l).filter FsNode.IsDir = l.filter FsNode.IsDir := by
  unfold findNamed at hfind
  induction l with
  | nil => rfl
  | cons y rest ih =>
    rw [replaceNamed]
    by_cases hy : y.name = name
    · rw [List.find?_cons_of_pos _ (by simpa using hy)] at hfind
      have : y = cell := Option.some.inj hfind
      subst this
      rw [if_pos hy, List.filter_cons_of_neg (by simp [hx]),
        List.filter_cons_of_neg (by simp [hc])]
    · rw [List.find?_cons_of_neg _ (by simpa using hy)] at hfind
      rw [if_neg hy]
      cases hd : y.IsDir with
      | false =>
        rw [List.filter_cons_of_neg (by simp [hd]), List.filter_cons_of_neg (by simp [hd])]
        exact ih hfind
      | true =>
        rw [List.filter_cons_of_pos (by simp [hd]), List.filter_cons_of_pos (by simp [hd]),
          ih hfind]

theorem subWalks_replaceNamed (env : Env) (root name : String) (x cell : FsNode)
    (l : List FsNode) (hfind : findNamed name l = some cell) (hc : cell.IsDir = false)
    (hx : x.IsDir = false) :
    subWalks env root (replaceNamed name x l) = subWalks env root l := by
  unfold subWalks
  rw [filter_isDir_replaceNamed name x cell l hfind hc hx]

theorem map_replaceNamed (g : FsNode → FsNode) (hg : ∀ f, (g f).name = f.name) (name : String)
    (x : FsNode) (l : List FsNode) :
    (replaceNamed name x l).map g = replaceNamed name (g x) (l.map g) := by
  induction l with
  | nil => rfl
  | cons y rest ih =>
    rw [replaceNamed, List.map_cons, replaceNamed, hg y]
    split
    · rfl
    · rw [List.map_cons, ih]

theorem findNamed_name (name : String) (l : List FsNode) (c : FsNode)
    (h : findNamed name l = some c) : c.name = name := by
  unfold findNamed at h
  simpa using List.find?_some h

theorem findNamed_replaceNamed (name : String) (x c : FsNode) (l : List FsNode)
    (hx : x.name = name) (h : findNamed name l = some c) :
    findNamed name (replaceNamed name x l) = some x := by
  unfold findNamed at h ⊢
  induction l with
  | nil => simp at h
  | cons y rest ih =>
    rw [replaceNamed]
    by_cases hy : y.name = name
    · rw [if_pos hy, List.find?_cons_of_pos _ (by simpa using hx)]
    · rw [List.find?_cons_of_neg _ (by simpa using hy)] at h
      rw [if_neg hy, List.find?_cons_of_neg _ (by simpa using hy)]
      exact ih h

theorem replaceNamed_idem (name : String) (x : FsNode) (l : List FsNode) (hx : x.name = name) :
    replaceNamed name x (replaceNamed name x l) = replaceNamed name x l := by
  induction l with
  | nil => rfl
  | cons y rest ih =>
    rw [replaceNamed]
    by_cases hy : y.name = name
    · rw [if_pos hy, replaceNamed, if_pos hx]
    · rw [if_neg hy, replaceNamed, if_neg hy, ih]

theorem fixBuild_twice (env : Env) (flip' : String → Bool)
    (hrt : ∀ path f, env.parse path (env.format f) = some f)
    (path : String) (c : List String) (cell : FsNode)
    (h : (fixBuild env path c cell).err = none) :
    (fixBuild (env.withFlip flip') path c (fixBuild env path c cell).node).err = none ∧
      (fixBuild (env.withFlip flip') path c (fixBuild env path c cell).node).node =
        (fixBuild env path c cell).node ∧
      (fixBuild env path c cell).node.name = cell.name ∧
      (fixBuild env path c cell).node.IsDir = false ∧ cell.IsDir = false := by
  obtain ⟨content, b, hread, hparse, hnode, _⟩ := fixBuild_ok env path c cell h
  rw [hnode]
  cases cell with
  | dir n es l => cases hread
  | file n ct r w =>
    cases r with
    | false => cases hread
    | true =>
      have hct : ct = content := by
        simpa [readFile] using hread
      subst hct
      cases w with
      | false =>
        have hw : writeFile (env.format (reconcile (env.flip path) b c))
            (FsNode.file n ct true false) = FsNode.file n ct true false := rfl
        rw [hw]
        refine ⟨?_, ?_, rfl, rfl, rfl⟩
        · unfold fixBuild
          simp only [readFile, Env.withFlip, hparse]
        · unfold fixBuild
          simp only [readFile, Env.withFlip, hparse]
          rfl
      | true =>
        have hw : writeFile (env.format (reconcile (env.flip path) b c))
            (FsNode.file n ct true true) =
            FsNode.file n (env.format (reconcile (env.flip path) b c)) true true := rfl
        rw [hw]
        refine ⟨?_, ?_, rfl, rfl, rfl⟩
        · unfold fixBuild
          simp only [readFile, Env.withFlip, hrt]
        · unfold fixBuild
          simp only [readFile, Env.withFlip, hrt, reconcile_idem]
          rfl

theorem subWalks_cons_file (env : Env) (root : String) (f : FsNode) (rest : List FsNode)
    (h : f.IsDir = false) : subWalks env root (f :: rest) = subWalks env root rest := by
  simp [subWalks, h]

theorem subWalks_cons_dir (env : Env) (root : String) (f : FsNode) (rest : List FsNode)
    (h : f.IsDir = true) :
    subWalks env root (f :: rest) =
      (walkTree env (env.join root f.name) f).ret :: subWalks env root rest := by
  simp [subWalks, h]

mutual
theorem walkTree_twice (env : Env) (flip' : String → Bool)
    (hrt : ∀ path f, env.parse path (env.format f) = some f) :
    ∀ (node : FsNode) (root : String) (labels : List String),
    (walkTree env root node).ret = Except.ok labels →
    (walkTree (env.withFlip flip') root (walkTree env root node).node).ret = Except.ok labels ∧
      (walkTree (env.withFlip flip') root (walkTree env root node).node).node =
        (walkTree env root node).node
  | FsNode.file n c r w, root, labels, h => by
    rw [walkTree_file] at h
    cases h
  | FsNode.dir n entries listable, root, labels, h => by
    obtain ⟨hlist, ls, h1, h2, h3⟩ := walkTree_ok_state env root n entries listable labels h
    obtain ⟨ls', h1', hlab0, hlab1⟩ := walkTree_ok env root n entries listable labels h
    have hls : ls' = ls := by
      have := h1'.symm.trans h1
      exact List.map_injective_iff.mpr (fun a b hab => Except.ok.inj hab) this
    subst hls
    subst hlist
    obtain ⟨q1, q2⟩ := subWalks_twice env flip' hrt entries root ls' h1
    cases hown : ownsBuild entries with
    | false =>
      rw [(h2 hown).1, hlab0 hown]
      have hl := walkLoop_total (env.withFlip flip') root
        (entries.map (stepNode env root)) [] "" ls' q1
      have hsel : selectBuild "" (entries.map (stepNode env root)) = "" := by
        rw [selectBuild_congr "" _ entries (map_name_stepNode env root entries)]
        exact (selectBuild_eq_empty "" entries).mpr ⟨rfl, hown⟩
      rw [hsel, List.nil_append] at hl
      obtain ⟨hs1, _⟩ := walkLoop_state _ root _ [] "" _ _ hl
      rw [walkTree_dir_eq]
      simp only [hl, if_true, hs1, q2]
      exact ⟨trivial, trivial⟩
    | true =>
      obtain ⟨cell, hfind, herr, hnode, _⟩ := h3 hown
      obtain ⟨f1, f2, f3, f4, f5⟩ := fixBuild_twice env flip' hrt _ ls'.flatten cell herr
      have hcn : cell.name = selectBuild "" entries := findNamed_name _ _ _ hfind
      have hxn : (fixBuild env (env.join root (selectBuild "" entries)) ls'.flatten cell).node.name
          = selectBuild "" entries := f3.trans hcn
      rw [hnode, hlab1 hown]
      have hsub : subWalks (env.withFlip flip') root
          (replaceNamed (selectBuild "" entries)
            (fixBuild env (env.join root (selectBuild "" entries)) ls'.flatten cell).node
            (entries.map (stepNode env root))) = ls'.map Except.ok := by
        rw [subWalks_replaceNamed _ root _ _ cell _ hfind f5 f4]
        exact q1
      have hl := walkLoop_total (env.withFlip flip') root _ [] "" ls' hsub
      have hsel : selectBuild ""
          (replaceNamed (selectBuild "" entries)
            (fixBuild env (env.join root (selectBuild "" entries)) ls'.flatten cell).node
            (entries.map (stepNode env root))) = selectBuild "" entries := by
        rw [selectBuild_congr "" _ entries
          ((map_name_replaceNamed _ _ _ hxn).trans (map_name_stepNode env root entries))]
      have hbf : selectBuild "" entries ≠ "" := by
        intro hc
        have := ((selectBuild_eq_empty "" entries).mp hc).2
        rw [hown] at this
        cases this
      rw [hsel, List.nil_append] at hl
      obtain ⟨hs1, _⟩ := walkLoop_state _ root _ [] "" _ _ hl
      have hmap : (replaceNamed (selectBuild "" entries)
            (fixBuild env (env.join root (selectBuild "" entries)) ls'.flatten cell).node
            (entries.map (stepNode env root))).map (stepNode (env.withFlip flip') root) =
          replaceNamed (selectBuild "" entries)
            (fixBuild env (env.join root (selectBuild "" entries)) ls'.flatten cell).node
            (entries.map (stepNode env root)) := by
        rw [map_replaceNamed _ (fun f => (stepNode_shape _ root f).1), q2,
          stepNode_file _ root _ f4]
      have hfind2 := findNamed_replaceNamed (selectBuild "" entries) _ cell
        (entries.map (stepNode env root)) hxn hfind
      have hjoin : (env.withFlip flip').join = env.join := rfl
      rw [walkTree_dir_eq]
      simp only [hl, hbf, if_false, hs1, hmap, hfind2, hjoin, f1, f2,
        replaceNamed_idem _ _ _ hxn]
      exact ⟨trivial, trivial⟩
theorem subWalks_twice (env : Env) (flip' : String → Bool)
    (hrt : ∀ path f, env.parse path (env.format f) = some f) :
    ∀ (entries : List FsNode) (root : String) (ls : List (List String)),
    subWalks env root entries = ls.map Except.ok →
    subWalks (env.withFlip flip') root (entries.map (stepNode env root)) = ls.map Except.ok ∧
      (entries.map (stepNode env root)).map (stepNode (env.withFlip flip') root) =
        entries.map (stepNode env root)
  | [], root, ls, h => by
    cases ls with
    | nil => exact ⟨rfl, rfl⟩
    | cons a rest => simp [subWalks] at h
  | FsNode.file n c r w :: rest, root, ls, h => by
    have hsw : subWalks env root (FsNode.file n c r w :: rest) = subWalks env root rest := by
      simp [subWalks, FsNode.IsDir]
    rw [hsw] at h
    obtain ⟨q1, q2⟩ := subWalks_twice env flip' hrt rest root ls h
    have hstep : stepNode env root (FsNode.file n c r w) = FsNode.file n c r w :=
      stepNode_file env root _ rfl
    rw [List.map_cons, hstep]
    refine ⟨?_, ?_⟩
    · have : subWalks (env.withFlip flip') root
          (FsNode.file n c r w :: rest.map (stepNode env root)) =
          subWalks (env.withFlip flip') root (rest.map (stepNode env root)) := by
        simp [subWalks, FsNode.IsDir]
      rw [this]
      exact q1
    · rw [List.map_cons, stepNode_file _ root (FsNode.file n c r w) rfl, q2]
  | FsNode.dir n es l :: rest, root, ls, h => by
    have hsw : subWalks env root (FsNode.dir n es l :: rest) =
        (walkTree env (env.join root n) (FsNode.dir n es l)).ret :: subWalks env root rest := by
      simp [subWalks, FsNode.IsDir, FsNode.name]
    rw [hsw] at h
    cases ls with
    | nil => simp at h
    | cons a ls' =>
      simp only [List.map_cons, List.cons.injEq] at h
      obtain ⟨p1, p2⟩ := walkTree_twice env flip' hrt (FsNode.dir n es l) (env.join root n) a h.1
      obtain ⟨q1, q2⟩ := subWalks_twice env flip' hrt rest root ls' h.2
      have hstep : stepNode env root (FsNode.dir n es l) =
          (walkTree env (env.join root n) (FsNode.dir n es l)).node :=
        stepNode_dir env root _ rfl
      have hshape := walkTree_node_shape env (env.join root n) (FsNode.dir n es l)
      have hjoin : (env.withFlip flip').join = env.join := rfl
      rw [List.map_cons, hstep]
      refine ⟨?_, ?_⟩
      · rw [subWalks_cons_dir _ root _ _ (by rw [hshape.2]; rfl), hshape.1, q1]
        simp only [FsNode.name, hjoin]
        rw [p1]
        rfl
      · rw [List.map_cons, q2, stepNode_dir _ root _ (by rw [hshape.2]; rfl), hshape.1]
        simp only [FsNode.name, hjoin]
        rw [p2]
end

/-! ## Idempotence -/

/-- C12. With a parser that inverts the formatter, a second walk, under any
order of visit of the working sets, of the tree a successful walk leaves
returns the same labels and leaves that tree as it is, build file contents
included; and reconciling a reconciled representation with the same child
labels gives that representation again. -/
theorem walk_idempotent (env : Env) (flip' : String → Bool)
    (hrt : ∀ path f, env.parse path (env.format f) = some f)
    (p : String) (t : FsNode) (L : List String)
    (hwalk : (walkTree env p t).ret = Except.ok L) :
    (walkTree (env.withFlip flip') p (walkTree env p t).node).ret = Except.ok L ∧
      (walkTree (env.withFlip flip') p (walkTree env p t).node).node =
        (walkTree env p t).node ∧
      ∀ (r : File) (c : List String) (f f' : Bool),
        reconcile f' (reconcile f r c) c = reconcile f r c :=
  ⟨(walkTree_twice env flip' hrt t p L hwalk).1, (walkTree_twice env flip' hrt t p L hwalk).2,
    fun r c f f' => reconcile_idem f f' r c⟩

/-- C12 at `sampleTree` with the environment whose parser inverts its
formatter, the second walk visiting the working sets in the other order. -/
theorem walk_idempotent_witness :
    (walkTree codecEnv "." sampleTree).ret = Except.ok ["//.:recursive-srcs"] ∧
      ((walkTree (codecEnv.withFlip (fun _ => true)) "."
          (walkTree codecEnv "." sampleTree).node).ret = Except.ok ["//.:recursive-srcs"] ∧
        (walkTree (codecEnv.withFlip (fun _ => true)) "."
          (walkTree codecEnv "." sampleTree).node).node = (walkTree codecEnv "." sampleTree).node ∧
        ∀ (r : File) (c : List String) (f f' : Bool),
          reconcile f' (reconcile f r c) c = reconcile f r c) :=
  ⟨rfl, walk_idempotent codecEnv (fun _ => true) codecEnv_roundtrip "." sampleTree
    ["//.:recursive-srcs"] rfl⟩

/-! ## The walk: distinct labels -/

theorem walkTree_label_goJoin (env : Env) (hj : env.join = goJoin) (node : FsNode)
    (rooted : Bool) (out : List (List Char)) (labels : List String)
    (hout : ∀ n ∈ out, regularName n = true) (hw : wellNamed node = true)
    (h : (walkTree env ⟨renderPath rooted out⟩ node).ret = Except.ok labels) :
    ∀ l ∈ labels, ∃ names : List (List Char), ∃ t : String,
      (∀ n ∈ names, regularName n = true) ∧ (t = "srcs" ∨ t = "recursive-srcs") ∧
      l = "//" ++ (⟨renderPath rooted (out ++ names)⟩ : String) ++ ":" ++ t := by
  intro l hl
  obtain ⟨q, hq, t, ht, hlq⟩ := walkTree_label_form env node _ labels h l hl
  obtain ⟨names, hn, hqn⟩ := nodePaths_goJoin env hj node rooted out hout hw q hq
  exact ⟨names, t, hn, ht, by rw [hlq, hqn]⟩

theorem subWalks_label_goJoin (env : Env) (hj : env.join = goJoin) (rooted : Bool)
    (out : List (List Char)) (hout : ∀ n ∈ out, regularName n = true)
    (entries : List FsNode) (ls : List (List String))
    (hw : wellNamedList entries = true)
    (h : subWalks env ⟨renderPath rooted out⟩ entries = ls.map Except.ok) :
    ∀ l ∈ ls.flatten, ∃ g ∈ entries, ∃ names : List (List Char), ∃ t : String,
      (∀ n ∈ names, regularName n = true) ∧ (t = "srcs" ∨ t = "recursive-srcs") ∧
      l = "//" ++ (⟨renderPath rooted (out ++ g.name.data :: names)⟩ : String) ++ ":" ++ t := by
  induction entries generalizing ls with
  | nil =>
    intro l hl
    cases ls with
    | nil => simp at hl
    | cons a rest => simp [subWalks] at h
  | cons f rest ih =>
    intro l hl
    rw [wellNamedList, Bool.and_eq_true, Bool.and_eq_true] at hw
    obtain ⟨⟨hname, hf⟩, hrest⟩ := hw
    cases hd : f.IsDir with
    | false =>
      rw [subWalks_cons_file _ _ f rest hd] at h
      obtain ⟨g, hg, rest'⟩ := ih ls hrest h l hl
      exact ⟨g, List.mem_cons_of_mem _ hg, rest'⟩
    | true =>
      rw [subWalks_cons_dir _ _ f rest hd] at h
      cases ls with
      | nil => simp at h
      | cons a ls' =>
        simp only [List.map_cons, List.cons.injEq] at h
        simp only [List.flatten_cons, List.mem_append] at hl
        rcases hl with hl | hl
        · have h1 := h.1
          rw [hj, goJoin_renderPath rooted out f.name hout hname] at h1
          have hout' : ∀ n ∈ out ++ [f.name.data], regularName n = true := by
            intro m hm
            rcases List.mem_append.mp hm with e | e
            · exact hout m e
            · rw [List.mem_singleton.mp e]; exact hname
          obtain ⟨names, t, hn, ht, hlq⟩ :=
            walkTree_label_goJoin env hj f rooted _ a hout' hf h1 l hl
          refine ⟨f, List.mem_cons_self _ _, names, t, hn, ht, ?_⟩
          rw [hlq, List.append_assoc]
          rfl
        · obtain ⟨g, hg, rest'⟩ := ih ls' hrest h.2 l hl
          exact ⟨g, List.mem_cons_of_mem _ hg, rest'⟩

theorem wellNamedList_mem (l : List FsNode) (h : wellNamedList l = true) (g : FsNode)
    (hg : g ∈ l) : regularName g.name.data = true := by
  induction l with
  | nil => cases hg
  | cons x xs ih =>
    rw [wellNamedList, Bool.and_eq_true, Bool.and_eq_true] at h
    rcases List.mem_cons.mp hg with e | e
    · rw [e]; exact h.1.1
    · exact ih h.2 e

theorem label_ne_self_ref (q t : String) : "//" ++ q ++ ":" ++ t ≠ ":srcs" := by
  intro h
  have hd := congrArg String.data h
  simp only [String.data_append] at hd
  have h2 := congrArg List.head? hd
  simp at h2

mutual
theorem walkTree_labels_distinct (env : Env) (hj : env.join = goJoin) : ∀ (node : FsNode)
    (rooted : Bool) (out : List (List Char)) (labels : List String),
    (∀ n ∈ out, regularName n = true) → wellNamed node = true → distinctNames node = true →
    (walkTree env ⟨renderPath rooted out⟩ node).ret = Except.ok labels → labels.Nodup
  | FsNode.file n c r w, rooted, out, labels, _, _, _, h => by
    rw [walkTree_file] at h
    cases h
  | FsNode.dir n entries listable, rooted, out, labels, hout, hw, hd, h => by
    obtain ⟨ls, h1, h2, h3⟩ := walkTree_ok env _ n entries listable labels h
    rw [wellNamed] at hw
    rw [distinctNames] at hd
    cases hown : ownsBuild entries with
    | false =>
      rw [h2 hown]
      exact subWalks_labels_distinct env hj entries rooted out ls hout hw hd h1
    | true =>
      rw [h3 hown]
      exact List.nodup_singleton _
theorem subWalks_labels_distinct (env : Env) (hj : env.join = goJoin) :
    ∀ (entries : List FsNode) (rooted : Bool) (out : List (List Char))
    (ls : List (List String)),
    (∀ n ∈ out, regularName n = true) → wellNamedList entries = true →
    distinctNamesList entries = true →
    subWalks env ⟨renderPath rooted out⟩ entries = ls.map Except.ok → ls.flatten.Nodup
  | [], rooted, out, ls, _, _, _, h => by
    cases ls with
    | nil => simp
    | cons a rest => simp [subWalks] at h
  | f :: rest, rooted, out, ls, hout, hw, hd, h => by
    rw [wellNamedList, Bool.and_eq_true, Bool.and_eq_true] at hw
    obtain ⟨⟨hname, hf⟩, hrest⟩ := hw
    rw [distinctNamesList, Bool.and_eq_true, Bool.and_eq_true] at hd
    obtain ⟨⟨hnotin, hdf⟩, hdrest⟩ := hd
    cases hdir : f.IsDir with
    | false =>
      rw [subWalks_cons_file _ _ f rest hdir] at h
      exact subWalks_labels_distinct env hj rest rooted out ls hout hrest hdrest h
    | true =>
      rw [subWalks_cons_dir _ _ f rest hdir] at h
      cases ls with
      | nil => simp at h
      | cons a ls' =>
        simp only [List.map_cons, List.cons.injEq] at h
        have h1 := h.1
        rw [hj, goJoin_renderPath rooted out f.name hout hname] at h1
        have hout' : ∀ n ∈ out ++ [f.name.data], regularName n = true := by
          intro m hm
          rcases List.mem_append.mp hm with e | e
          · exact hout m e
          · rw [List.mem_singleton.mp e]; exact hname
        have ha := walkTree_labels_distinct env hj f rooted (out ++ [f.name.data]) a
          hout' hf hdf h1
        have hl := subWalks_labels_distinct env hj rest rooted out ls' hout hrest hdrest h.2
        rw [List.flatten_cons, List.nodup_append]
        refine ⟨ha, hl, ?_⟩
        intro l hla hlb
        obtain ⟨ns, t, hns, ht, e1⟩ := walkTree_label_goJoin env hj f rooted _ a hout' hf h1 l hla
        obtain ⟨g, hg, ms, t', hms, ht', e2⟩ :=
          subWalks_label_goJoin env hj rooted out hout rest ls' hrest h.2 l hlb
        have hgname : regularName g.name.data = true := wellNamedList_mem rest hrest g hg
        have hpath := label_path_inj _ _ t t' ht ht' (e1.symm.trans e2)
        have hlists := renderPath_inj rooted _ _
          (by
            intro m hm
            rcases List.mem_append.mp hm with e | e
            · exact hout m e
            · rcases List.mem_cons.mp e with e' | e'
              · rw [e']; exact hgname
              · exact hms m e')
          (by
            intro m hm
            rcases List.mem_append.mp hm with e | e
            · exact hout' m e
            · exact hns m e)
          (congrArg String.data hpath).symm
        rw [List.append_assoc, List.append_cancel_left_eq] at hlists
        simp only [List.singleton_append, List.cons.injEq] at hlists
        have hfg : f.name = g.name := String.ext hlists.1.symm
        simp only [decide_eq_true_eq] at hnotin
        exact hnotin (List.mem_map.mpr ⟨g, hg, hfg.symm⟩)
end

/-- C17. With `filepath.Join`, in a tree of regular entry names that are
pairwise distinct within each listing, walked from a cleaned path without `..`,
the labels a successful `walkTree` returns are pairwise distinct, and so are the
labels collected from the subdirectories followed by `:srcs`, the `srcs` list of
the `recursive-srcs` rule synthesized for the directory. -/
theorem walkTree_labels_nodup (env : Env) (hj : env.join = goJoin) (rooted : Bool)
    (out : List (List Char)) (n : String) (entries : List FsNode) (listable : Bool)
    (labels : List String)
    (hout : ∀ m ∈ out, regularName m = true) (hw : wellNamedList entries = true)
    (hd : distinctNamesList entries = true)
    (hok : (walkTree env ⟨renderPath rooted out⟩ (FsNode.dir n entries listable)).ret =
      Except.ok labels) :
    labels.Nodup ∧
      ∃ ls : List (List String),
        subWalks env ⟨renderPath rooted out⟩ entries = ls.map Except.ok ∧
        ls.flatten.Nodup ∧ (ls.flatten ++ [":srcs"]).Nodup := by
  refine ⟨walkTree_labels_distinct env hj (FsNode.dir n entries listable) rooted out labels
    hout (by rw [wellNamed]; exact hw) (by rw [distinctNames]; exact hd) hok, ?_⟩
  obtain ⟨ls, h1, _, _⟩ := walkTree_ok env _ n entries listable labels hok
  have hnd := subWalks_labels_distinct env hj entries rooted out ls hout hw hd h1
  refine ⟨ls, h1, hnd, ?_⟩
  rw [List.nodup_append]
  refine ⟨hnd, List.nodup_singleton _, ?_⟩
  intro l hl hs
  rw [List.mem_singleton] at hs
  obtain ⟨q, _, t, _, hlq⟩ := subWalks_label_form env entries _ ls h1 l hl
  rw [hs] at hlq
  exact label_ne_self_ref q t hlq.symm

/-- C17 at `plainRoot`, walked from `.`. -/
theorem walkTree_labels_nodup_witness :
    (walkTree sampleEnv ⟨renderPath false []⟩ plainRoot).ret =
        Except.ok ["//a:srcs", "//b:srcs"] ∧
      (["//a:srcs", "//b:srcs"].Nodup ∧
        ∃ ls : List (List String),
          subWalks sampleEnv ⟨renderPath false []⟩
            [FsNode.dir "a" [emptyBuild] true, FsNode.dir "b" [emptyBuild] true,
              FsNode.file "notes.txt" "" true true] = ls.map Except.ok ∧
          ls.flatten.Nodup ∧ (ls.flatten ++ [":srcs"]).Nodup) :=
  ⟨rfl, walkTree_labels_nodup sampleEnv rfl false [] "" _ true ["//a:srcs", "//b:srcs"]
    (by simp) (by decide) (by decide) rfl⟩

end Gardener
